import Mathlib

/-! QED balloon: hashers, hyper and history trees, pruning plans, membership proofs.

A shallow embedding of parts of the `qed` verifiable log.  Bytes are natural
numbers (a Go `byte` is a value below 256), byte slices are lists, a variadic
argument list `data ...[]byte` is a list of byte slices.
-/

namespace Qed

/-! ## Hashers (`balloon/hashing/hasher.go`) -/

/-- The inner loop of `XorHasher`: `sum = sum ^ b` for every byte of one slice. -/
def xorSum (elem : List Nat) : Nat :=
  elem.foldl (fun sum b => sum ^^^ b) 0

/-- The hasher `XorHasher`: xor of the per-slice xor sums, returned as a one
byte slice. -/
def XorHasher (data : List (List Nat)) : List Nat :=
  [data.foldl (fun result elem => result ^^^ xorSum elem) 0]

/-- The permutation table of the `Pearson` hasher, row by row as in the source. -/
def lookupTable : List Nat := [
  98, 6, 85, 150, 36, 23, 112, 164, 135, 207, 169, 5, 26, 64, 165, 219,
  61, 20, 68, 89, 130, 63, 52, 102, 24, 229, 132, 245, 80, 216, 195, 115,
  90, 168, 156, 203, 177, 120, 2, 190, 188, 7, 100, 185, 174, 243, 162, 10,
  237, 18, 253, 225, 8, 208, 172, 244, 255, 126, 101, 79, 145, 235, 228, 121,
  123, 251, 67, 250, 161, 0, 107, 97, 241, 111, 181, 82, 249, 33, 69, 55,
  59, 153, 29, 9, 213, 167, 84, 93, 30, 46, 94, 75, 151, 114, 73, 222,
  197, 96, 210, 45, 16, 227, 248, 202, 51, 152, 252, 125, 81, 206, 215, 186,
  39, 158, 178, 187, 131, 136, 1, 49, 50, 17, 141, 91, 47, 129, 60, 99,
  154, 35, 86, 171, 105, 34, 38, 200, 147, 58, 77, 118, 173, 246, 76, 254,
  133, 232, 196, 144, 198, 124, 53, 4, 108, 74, 223, 234, 134, 230, 157, 139,
  189, 205, 199, 128, 176, 19, 211, 236, 127, 192, 231, 70, 233, 88, 146, 44,
  183, 201, 22, 83, 13, 214, 116, 109, 159, 32, 95, 226, 140, 220, 57, 12,
  221, 31, 209, 182, 143, 92, 149, 184, 148, 62, 113, 65, 37, 27, 106, 166,
  3, 14, 204, 72, 21, 41, 56, 66, 28, 193, 40, 217, 25, 54, 179, 117,
  238, 87, 240, 155, 180, 170, 242, 212, 191, 163, 78, 218, 137, 194, 175, 110,
  43, 119, 224, 71, 122, 142, 42, 160, 104, 48, 247, 103, 15, 11, 138, 239]

/-- One table step `lookupTable[h ^ uint8(v)]`; the operands are bytes, so the
index is reduced modulo 256 as the `uint8` type does. -/
def pearsonStep (h v : Nat) : Nat :=
  lookupTable.getD ((h ^^^ v) % 256) 0

/-- The loop `h := 0; for v in k { h = lookupTable[h ^ v] }` over one slice. -/
def pearsonSlice (k : List Nat) : Nat :=
  k.foldl pearsonStep 0

/-- The hasher `Pearson`: every argument is hashed to one byte (`ih`), then the bytes of
`ih` are hashed the same way. -/
def Pearson (data : List (List Nat)) : List Nat :=
  let ih := data.map pearsonSlice
  [ih.foldl pearsonStep 0]

/-! ### SHA-256

`Sha256Hasher` calls `crypto/sha256` of the Go standard library: `sha256.New()`,
one `Write` per argument and `Sum(nil)`.  The library is embedded here as the
function it implements (FIPS 180-4); words are naturals reduced modulo `2^32`. -/

/-- Rotate a 32-bit word right by `n` bits (`bits.RotateLeft32(x, -n)`). -/
def rotr32 (x n : Nat) : Nat :=
  ((x >>> n) ||| (x <<< (32 - n))) % 2 ^ 32

/-- The round constants `_K` of SHA-256 (`sha256block.go`), in decimal. -/
def sha256K : List Nat := [
  1116352408, 1899447441, 3049323471, 3921009573, 961987163, 1508970993,
  2453635748, 2870763221, 3624381080, 310598401, 607225278, 1426881987,
  1925078388, 2162078206, 2614888103, 3248222580, 3835390401, 4022224774,
  264347078, 604807628, 770255983, 1249150122, 1555081692, 1996064986,
  2554220882, 2821834349, 2952996808, 3210313671, 3336571891, 3584528711,
  113926993, 338241895, 666307205, 773529912, 1294757372, 1396182291,
  1695183700, 1986661051, 2177026350, 2456956037, 2730485921, 2820302411,
  3259730800, 3345764771, 3516065817, 3600352804, 4094571909, 275423344,
  430227734, 506948616, 659060556, 883997877, 958139571, 1322822218,
  1537002063, 1747873779, 1955562222, 2024104815, 2227730452, 2361852424,
  2428436474, 2756734187, 3204031479, 3329325298]

/-- The eight chaining words `h[0..7]` of a SHA-256 digest in progress. -/
structure Sha256State where
  h0 : Nat
  h1 : Nat
  h2 : Nat
  h3 : Nat
  h4 : Nat
  h5 : Nat
  h6 : Nat
  h7 : Nat
  deriving DecidableEq, Repr

/-- The initial chaining value (`init0 .. init7`). -/
def sha256Init : Sha256State :=
  ⟨0x6a09e667, 0xbb67ae85, 0x3c6ef372, 0xa54ff53a, 0x510e527f, 0x9b05688c, 0x1f83d9ab, 0x5be0cd19⟩

/-- Big-endian 32-bit word made of four bytes. -/
def beWord (b0 b1 b2 b3 : Nat) : Nat :=
  ((b0 % 256) <<< 24) ||| ((b1 % 256) <<< 16) ||| ((b2 % 256) <<< 8) ||| (b3 % 256)

/-- The sixteen message words of one 64-byte block. -/
def blockWords : List Nat → List Nat
  | b0 :: b1 :: b2 :: b3 :: rest => beWord b0 b1 b2 b3 :: blockWords rest
  | _ => []

/-- Extend the message schedule by `n` further words. -/
def extendSchedule : Nat → List Nat → List Nat
  | 0, w => w
  | n + 1, w =>
    let i := w.length
    let v1 := w.getD (i - 2) 0
    let t1 := rotr32 v1 17 ^^^ rotr32 v1 19 ^^^ (v1 >>> 10)
    let v2 := w.getD (i - 15) 0
    let t2 := rotr32 v2 7 ^^^ rotr32 v2 18 ^^^ (v2 >>> 3)
    extendSchedule n (w ++ [(t1 + w.getD (i - 7) 0 + t2 + w.getD (i - 16) 0) % 2 ^ 32])

/-- One of the 64 rounds of the compression function. -/
def sha256Round (s : Sha256State) (kw : Nat × Nat) : Sha256State :=
  let a := s.h0
  let e := s.h4
  let t1 := s.h7 + (rotr32 e 6 ^^^ rotr32 e 11 ^^^ rotr32 e 25)
    + ((e &&& s.h5) ^^^ ((e ^^^ 0xffffffff) &&& s.h6)) + kw.1 + kw.2
  let t2 := (rotr32 a 2 ^^^ rotr32 a 13 ^^^ rotr32 a 22)
    + ((a &&& s.h1) ^^^ (a &&& s.h2) ^^^ (s.h1 &&& s.h2))
  ⟨(t1 + t2) % 2 ^ 32, a, s.h1, s.h2, (s.h3 + t1) % 2 ^ 32, e, s.h5, s.h6⟩

/-- The compression of one 64-byte block into the chaining value (`block`). -/
def sha256Block (s : Sha256State) (blk : List Nat) : Sha256State :=
  let w := extendSchedule 48 (blockWords blk)
  let r := (sha256K.zip w).foldl sha256Round s
  ⟨(s.h0 + r.h0) % 2 ^ 32, (s.h1 + r.h1) % 2 ^ 32, (s.h2 + r.h2) % 2 ^ 32,
   (s.h3 + r.h3) % 2 ^ 32, (s.h4 + r.h4) % 2 ^ 32, (s.h5 + r.h5) % 2 ^ 32,
   (s.h6 + r.h6) % 2 ^ 32, (s.h7 + r.h7) % 2 ^ 32⟩

/-- Big-endian bytes of a value, `n` of them (`binary.BigEndian.PutUintN`). -/
def beBytes : Nat → Nat → List Nat
  | 0, _ => []
  | n + 1, v => (v / 256 ^ n) % 256 :: beBytes n v

/-- The padding `checkSum` appends: `0x80`, zeros up to 56 modulo 64, then the
bit length as 8 big-endian bytes (a `uint64`). -/
def sha256Pad (len : Nat) : List Nat :=
  let zeros := if len % 64 < 56 then 55 - len % 64 else 64 + 55 - len % 64
  0x80 :: List.replicate zeros 0 ++ beBytes 8 ((len * 8) % 2 ^ 64)

/-- Feed a byte stream block by block; `fuel` bounds the number of blocks. -/
def sha256Blocks : Nat → Sha256State → List Nat → Sha256State
  | 0, s, _ => s
  | fuel + 1, s, bytes =>
    if bytes.length < 64 then s
    else sha256Blocks fuel (sha256Block s (bytes.take 64)) (bytes.drop 64)

/-- The 32 digest bytes: every chaining word in big-endian order. -/
def sha256Digest (s : Sha256State) : List Nat :=
  beBytes 4 s.h0 ++ beBytes 4 s.h1 ++ beBytes 4 s.h2 ++ beBytes 4 s.h3 ++
  beBytes 4 s.h4 ++ beBytes 4 s.h5 ++ beBytes 4 s.h6 ++ beBytes 4 s.h7

/-- What `Sum(nil)` returns after the bytes `msg` have been written. -/
def sha256Sum (msg : List Nat) : List Nat :=
  let padded := msg ++ sha256Pad msg.length
  sha256Digest (sha256Blocks (padded.length / 64 + 1) sha256Init padded)

/-- The hasher `Sha256Hasher`: a fresh digest, `Write(data[i])` for every argument in
order (each write appends to the hashed stream), then `Sum(nil)`. -/
def Sha256Hasher (data : List (List Nat)) : List Nat :=
  sha256Sum (data.foldl (fun written d => written ++ d) [])

/-! ## The hyper tree constructor (`balloon/hyper/tree.go`) -/

/-- The `hashing.Hasher` interface as `tree.go` uses it: `Do` hashes a variadic
list of byte slices, `Len` reports the digest width in bits (a `uint16`).  The
interface is declared outside the embedded sources, so it is a parameter. -/
structure Hasher where
  Do : List (List Nat) → List Nat
  Len : Nat

/-- The function `min` on `uint16` at the end of `tree.go`. -/
def min16 (x y : Nat) : Nat :=
  if x < y then x else y

/-- The fields of `HyperTree` that `NewHyperTree` computes from the hasher. -/
structure HyperTree where
  hasher : Hasher
  cacheHeightLimit : Nat
  defaultHashes : List (List Nat)

/-- The loop `for i := uint16(1); i < hasher.Len(); i++` of `NewHyperTree`,
with `defaultHashes[i] = Do(defaultHashes[i-1], defaultHashes[i-1])` as body.
The first argument bounds the number of iterations. -/
def defaultHashesLoop (hasher : Hasher) : Nat → Nat → List (List Nat) → List (List Nat)
  | 0, _, dh => dh
  | fuel + 1, i, dh =>
    if i < hasher.Len then
      defaultHashesLoop hasher fuel (i + 1)
        (dh.set i (hasher.Do [dh.getD (i - 1) [], dh.getD (i - 1) []]))
    else dh

/-- The constructor `NewHyperTree` up to the cache warm-up (tree.go:50-67):
`numBits := hasher.Len()`, the cache height limit in `uint16` arithmetic,
`make([]Digest, numBits)` and the default hashes.  The assignment to
`defaultHashes[0]` is out of range when `numBits = 0`: the constructor panics
and no tree is built. -/
def initHyperTree (hasher : Hasher) : Option HyperTree :=
  let numBits := hasher.Len
  let cacheHeightLimit := (numBits + 2 ^ 16 - min16 24 ((numBits / 8) * 4 % 2 ^ 16)) % 2 ^ 16
  let defaultHashes : List (List Nat) := List.replicate numBits []
  if 0 < defaultHashes.length then
    let defaultHashes := defaultHashes.set 0 (hasher.Do [[0x0], [0x0]])
    some ⟨hasher, cacheHeightLimit, defaultHashesLoop hasher hasher.Len 1 defaultHashes⟩
  else none

/-! ## History tree pruning plans

The functions `PruneToVerify` and `PruneToVerifyIncrementalEnd` are exercised
by `balloon/history/pruning/verify_test.go`; their bodies are not among the
embedded sources. -/

/-- Modelled from the spec: a node position `(index, height)`, height 0 being a
leaf (the type `Position` is missing; the tests build it with `pos(index,
height)`).  The index is a number: a `uint64` in the history tree, the value of
the big-endian index bytes in the hyper tree. -/
structure Position where
  index : Nat
  height : Nat
  deriving DecidableEq, Repr

/-- Modelled from the spec: the operation kinds of a pruning plan (the type
`Operation` is missing; the tests build plans with `leaf`, `inner`, `partial`
and `getCache`). -/
inductive Operation where
  | leaf (pos : Position) (eventDigest : List Nat)
  | inner (pos : Position) (left right : Operation)
  | partialNode (pos : Position) (left : Operation)
  | getCache (pos : Position)
  | put (pos : Position) (child : Operation)
  | mutate (pos : Position) (child : Operation)
  | collect (pos : Position) (child : Operation)
  | noOp (pos : Position)
  | useProvided (pos : Position)
  deriving DecidableEq, Repr

/-- Search for the first height `h` at or above the given one with `n ≤ 2^h`. -/
def ceilLog2Aux : Nat → Nat → Nat → Nat
  | 0, h, _ => h
  | fuel + 1, h, n => if n ≤ 2 ^ h then h else ceilLog2Aux fuel (h + 1) n

/-- Modelled from the spec: the height of the history root for `version`,
`ceil(log2(version + 1))` (the body of `NewRootPosition` is missing). -/
def rootHeight (version : Nat) : Nat :=
  ceilLog2Aux (version + 1) 0 (version + 1)

/-- Modelled from the spec: `NewRootPosition`, the node `(0, ceil(log2(v+1)))`. -/
def NewRootPosition (version : Nat) : Position :=
  ⟨0, rootHeight version⟩

/-- Whether `(target, 0)` lies in the subtree of the node `(index, height)`,
which covers the indices `[index, index + 2^height)`. -/
def inSpan (target index height : Nat) : Bool :=
  index ≤ target && target < index + 2 ^ height

/-- Modelled from the spec: the traversal of `PruneToVerify` (missing from the
sources) below the node `(i, h)`.  A node off the path to `(index, 0)` is a
`GetCache`; on the path the leaf is hashed from the event digest, a node whose
right child `(i + 2^(h-1), h-1)` starts beyond `version` is `Partial` over its
left child, every other node is `Inner` over both children. -/
def verifyTraverse (index version : Nat) (eventDigest : List Nat) : Nat → Nat → Operation
  | 0, i =>
    if inSpan index i 0 then .leaf ⟨i, 0⟩ eventDigest else .getCache ⟨i, 0⟩
  | h + 1, i =>
    if inSpan index i (h + 1) then
      if version < i + 2 ^ h then
        .partialNode ⟨i, h + 1⟩ (verifyTraverse index version eventDigest h i)
      else
        .inner ⟨i, h + 1⟩ (verifyTraverse index version eventDigest h i)
          (verifyTraverse index version eventDigest h (i + 2 ^ h))
    else .getCache ⟨i, h + 1⟩

/-- Modelled from the spec: `PruneToVerify(index, version, eventDigest)`
(missing from the sources), the plan that recomputes the root of `version` from
the leaf `(index, 0)`. -/
def PruneToVerify (index version : Nat) (eventDigest : List Nat) : Operation :=
  verifyTraverse index version eventDigest (rootHeight version) 0

/-- Modelled from the spec: the traversal of `PruneToVerifyIncrementalEnd`
(missing from the sources) below `(i, h)`.  A node containing neither `start`
nor `end` is a `GetCache`, and so is a node of height 0; a node whose right
child starts beyond `end` is `Partial`, every other node is `Inner`. -/
def incrementalEndTraverse (start endIdx : Nat) : Nat → Nat → Operation
  | 0, i => .getCache ⟨i, 0⟩
  | h + 1, i =>
    if inSpan start i (h + 1) || inSpan endIdx i (h + 1) then
      if endIdx < i + 2 ^ h then
        .partialNode ⟨i, h + 1⟩ (incrementalEndTraverse start endIdx h i)
      else
        .inner ⟨i, h + 1⟩ (incrementalEndTraverse start endIdx h i)
          (incrementalEndTraverse start endIdx h (i + 2 ^ h))
    else .getCache ⟨i, h + 1⟩

/-- Modelled from the spec: `PruneToVerifyIncrementalEnd(start, end)` (missing
from the sources), the plan that recomputes the root of version `end` from the
audit path spanning `start` and `end`. -/
def PruneToVerifyIncrementalEnd (start endIdx : Nat) : Operation :=
  incrementalEndTraverse start endIdx (rootHeight endIdx) 0

/-- Modelled from the spec: `Left(p) = (p.index, p.height - 1)`. -/
def Position.Left (p : Position) : Position :=
  ⟨p.index, p.height - 1⟩

/-- Modelled from the spec: `Right(p) = (p.index + 2^(p.height-1), p.height - 1)`. -/
def Position.Right (p : Position) : Position :=
  ⟨p.index + 2 ^ (p.height - 1), p.height - 1⟩

/-- The shape claimed for a `PruneToVerify` plan at position `pos`, read off an
operation tree: a `Leaf` sits at `(index, 0)` with the event digest; an `Inner`
has its right child starting at or before `version`, expands the child that
contains `index` and has `GetCache` of the other child; a `Partial` has its
right child starting beyond `version` and expands the left child; no other
operation occurs. -/
def verifyShape (index version : Nat) (eventDigest : List Nat) :
    Position → Operation → Bool
  | pos, .leaf p e =>
    p == pos && pos.height == 0 && pos.index == index && e == eventDigest
  | pos, .inner p l r =>
    p == pos && decide (0 < pos.height) && decide (pos.Right.index ≤ version) &&
      (if index < pos.Right.index then
        verifyShape index version eventDigest pos.Left l && r == .getCache pos.Right
      else
        l == .getCache pos.Left && verifyShape index version eventDigest pos.Right r)
  | pos, .partialNode p l =>
    p == pos && decide (0 < pos.height) && decide (version < pos.Right.index) &&
      verifyShape index version eventDigest pos.Left l
  | _, _ => false

/-- The leaves of an operation tree, left to right. -/
def Operation.leaves : Operation → List Operation
  | .leaf p e => [.leaf p e]
  | .inner _ l r => l.leaves ++ r.leaves
  | .partialNode _ l => l.leaves
  | .put _ c => c.leaves
  | .mutate _ c => c.leaves
  | .collect _ c => c.leaves
  | _ => []

/-- The shape claimed for a `PruneToVerifyIncrementalEnd` plan at position
`pos`: a `GetCache` sits at height 0 or on a node containing neither `start`
nor `end`; an `Inner` or `Partial` sits above height 0 on a node containing
`start` or `end`, `Partial` exactly when the right child starts beyond `end`;
no other operation occurs. -/
def incrementalEndShape (start endIdx : Nat) : Position → Operation → Bool
  | pos, .getCache p =>
    p == pos && (pos.height == 0 ||
      !(inSpan start pos.index pos.height || inSpan endIdx pos.index pos.height))
  | pos, .inner p l r =>
    p == pos && decide (0 < pos.height) &&
      (inSpan start pos.index pos.height || inSpan endIdx pos.index pos.height) &&
      decide (pos.Right.index ≤ endIdx) &&
      incrementalEndShape start endIdx pos.Left l &&
      incrementalEndShape start endIdx pos.Right r
  | pos, .partialNode p l =>
    p == pos && decide (0 < pos.height) &&
      (inSpan start pos.index pos.height || inSpan endIdx pos.index pos.height) &&
      decide (endIdx < pos.Right.index) &&
      incrementalEndShape start endIdx pos.Left l
  | _, _ => false

/-- Every operation of a plan, the root first. -/
def Operation.subOps : Operation → List Operation
  | .leaf p e => [.leaf p e]
  | .getCache p => [.getCache p]
  | .noOp p => [.noOp p]
  | .useProvided p => [.useProvided p]
  | .inner p l r => .inner p l r :: (l.subOps ++ r.subOps)
  | .partialNode p l => .partialNode p l :: l.subOps
  | .put p c => .put p c :: c.subOps
  | .mutate p c => .mutate p c :: c.subOps
  | .collect p c => .collect p c :: c.subOps

/-- The table of `TestPruneToVerifyIncrementalEnd`: `(index, version,
expectedOp)` for every test case, in the order of the test. -/
def incrementalEndTestCases : List (Nat × Nat × Operation) := [
  (0, 0, .getCache ⟨0, 0⟩),
  (0, 1, .inner ⟨0, 1⟩ (.getCache ⟨0, 0⟩) (.getCache ⟨1, 0⟩)),
  (0, 2, .inner ⟨0, 2⟩
    (.inner ⟨0, 1⟩ (.getCache ⟨0, 0⟩) (.getCache ⟨1, 0⟩))
    (.partialNode ⟨2, 1⟩ (.getCache ⟨2, 0⟩))),
  (0, 3, .inner ⟨0, 2⟩
    (.inner ⟨0, 1⟩ (.getCache ⟨0, 0⟩) (.getCache ⟨1, 0⟩))
    (.inner ⟨2, 1⟩ (.getCache ⟨2, 0⟩) (.getCache ⟨3, 0⟩))),
  (0, 4, .inner ⟨0, 3⟩
    (.inner ⟨0, 2⟩
      (.inner ⟨0, 1⟩ (.getCache ⟨0, 0⟩) (.getCache ⟨1, 0⟩))
      (.getCache ⟨2, 1⟩))
    (.partialNode ⟨4, 2⟩ (.partialNode ⟨4, 1⟩ (.getCache ⟨4, 0⟩)))),
  (0, 5, .inner ⟨0, 3⟩
    (.inner ⟨0, 2⟩
      (.inner ⟨0, 1⟩ (.getCache ⟨0, 0⟩) (.getCache ⟨1, 0⟩))
      (.getCache ⟨2, 1⟩))
    (.partialNode ⟨4, 2⟩ (.inner ⟨4, 1⟩ (.getCache ⟨4, 0⟩) (.getCache ⟨5, 0⟩)))),
  (0, 6, .inner ⟨0, 3⟩
    (.inner ⟨0, 2⟩
      (.inner ⟨0, 1⟩ (.getCache ⟨0, 0⟩) (.getCache ⟨1, 0⟩))
      (.getCache ⟨2, 1⟩))
    (.inner ⟨4, 2⟩ (.getCache ⟨4, 1⟩) (.partialNode ⟨6, 1⟩ (.getCache ⟨6, 0⟩)))),
  (0, 7, .inner ⟨0, 3⟩
    (.inner ⟨0, 2⟩
      (.inner ⟨0, 1⟩ (.getCache ⟨0, 0⟩) (.getCache ⟨1, 0⟩))
      (.getCache ⟨2, 1⟩))
    (.inner ⟨4, 2⟩ (.getCache ⟨4, 1⟩)
      (.inner ⟨6, 1⟩ (.getCache ⟨6, 0⟩) (.getCache ⟨7, 0⟩))))]

/-! ## Hyper tree search plans

`PruneToFind`, the batch loader and the interpreter are exercised by
`balloon/hyper2/pruning/search_test.go` and called by `HyperTree.QueryMembership`;
their bodies are not among the embedded sources.  Positions of the hyper tree
reuse `Position`; the index is the number whose big-endian bytes are the index
bytes of the source (`pos(128, 7)` in the test). -/

/-- The value of a big-endian byte string (`bytes.Compare` on index bytes of
equal length is the comparison of these values). -/
def bytesToNat (b : List Nat) : Nat :=
  b.foldl (fun acc x => acc * 256 + x % 256) 0

/-- One present slot of a batch: the entry bytes (a hash, a key or a value)
and the type tag (0 inner hash, 1 shortcut hash, 2 key or value). -/
structure BatchEntry where
  bytes : List Nat
  tag : Nat
  deriving DecidableEq, Repr

/-- Modelled from the spec: a batch, the fixed-shape subtree of depth 4 that is
the unit of storage (the type `batchNode` is missing).  Slot 0 is the root of
the batch, the children of slot `i` are the slots `2i+1` and `2i+2`. -/
def BatchNode : Type := Nat → Option BatchEntry

/-- Modelled from the spec: a batch with no slot present. -/
def emptyBatchNode : BatchNode := fun _ => none

/-- Modelled from the spec: whether slot `i` of the batch is present. -/
def BatchNode.HasElementAt (b : BatchNode) (i : Nat) : Bool :=
  (b i).isSome

/-- Modelled from the spec: whether slot `i` holds a shortcut (type tag 1). -/
def BatchNode.HasLeafAt (b : BatchNode) (i : Nat) : Bool :=
  match b i with
  | some e => e.tag == 1
  | none => false

/-- Modelled from the spec: the entry bytes of slot `i` (empty when absent). -/
def BatchNode.GetElementAt (b : BatchNode) (i : Nat) : List Nat :=
  match b i with
  | some e => e.bytes
  | none => []

/-- Modelled from the spec: the key and value of the shortcut at slot `i`,
stored inline in the slots `2i+1` and `2i+2` (as the batches of the test show). -/
def BatchNode.GetLeafKVAt (b : BatchNode) (i : Nat) : List Nat × List Nat :=
  (b.GetElementAt (2 * i + 1), b.GetElementAt (2 * i + 2))

/-- Count the set bits of the bitmap below slot `i`, most significant bit of
every byte first. -/
def bitmapBit (bitmap : List Nat) (i : Nat) : Bool :=
  (bitmap.getD (i / 8) 0 >>> (7 - i % 8)) % 2 == 1

/-- The number of present slots before slot `i`. -/
def bitmapRank (bitmap : List Nat) (i : Nat) : Nat :=
  ((List.range i).filter (bitmapBit bitmap)).length

/-- Modelled from the spec: deserialization of a batch, a 4-byte bitmap of
present slots followed, for every set bit in slot order, by an entry of
`nodeSize` bytes and its type tag (the parser is missing; the bit order is the
one of the bitmaps written out in the test). -/
def parseBatch (nodeSize : Nat) (raw : List Nat) : BatchNode := fun i =>
  if i < 31 && bitmapBit (raw.take 4) i then
    let off := 4 + bitmapRank (raw.take 4) i * (nodeSize + 1)
    some ⟨(raw.drop off).take nodeSize, raw.getD (off + nodeSize) 0⟩
  else none

/-- Modelled from the spec: `NewFakeBatchLoader(cached, stored, cacheHeightLimit)`
of the test; batches above the cache height limit are read from the cache,
the others from the store, a missing batch is empty.  The maps are keyed by
position (the source keys them by the position's string id). -/
def NewFakeBatchLoader (nodeSize : Nat) (cachedBatches storedBatches : List (Position × List Nat))
    (cacheHeightLimit : Nat) : Position → BatchNode := fun pos =>
  let table := if pos.height > cacheHeightLimit then cachedBatches else storedBatches
  match table.find? (fun kv => kv.1 == pos) with
  | some kv => parseBatch nodeSize kv.2
  | none => emptyBatchNode

/-- The operation codes of the hyper plans that the search test names. -/
inductive OpCode where
  | InnerHashCode
  | CollectHashCode
  | GetDefaultHashCode
  | GetProvidedHashCode
  | NoOpCode
  deriving DecidableEq, Repr

/-- Modelled from the spec: the operations of a hyper search plan, as a tree.
`getProvidedHash` carries the hash read from the batch slot, and the value of
the shortcut when the descent ended on a shortcut whose key is the searched
one. -/
inductive HyperOp where
  | innerHash (pos : Position) (left right : HyperOp)
  | collectHash (pos : Position) (child : HyperOp)
  | getDefaultHash (pos : Position)
  | getProvidedHash (pos : Position) (hash : List Nat) (found : Option (List Nat))
  | noOp (pos : Position)
  deriving DecidableEq, Repr

/-- The plan as the list of `(code, position)` the test compares (`List()`):
an operation, then its right operand, then its left operand. -/
def HyperOp.ListOps : HyperOp → List (OpCode × Position)
  | .innerHash pos l r => (.InnerHashCode, pos) :: (r.ListOps ++ l.ListOps)
  | .collectHash pos c => (.CollectHashCode, pos) :: c.ListOps
  | .getDefaultHash pos => [(.GetDefaultHashCode, pos)]
  | .getProvidedHash pos _ _ => [(.GetProvidedHashCode, pos)]
  | .noOp pos => [(.NoOpCode, pos)]

/-- Modelled from the spec: a branch off the searched path; its hash is taken
from the batch when the slot is present and is the default hash otherwise. -/
def discardBranch (pos : Position) (batch : BatchNode) (iBatch : Nat) : HyperOp :=
  if batch.HasElementAt iBatch then .getProvidedHash pos (batch.GetElementAt iBatch) none
  else .getDefaultHash pos

/-- Modelled from the spec: entering the node `pos` at slot `iBatch` of
`batch`.  On the last row of a batch (a slot other than the root, at a height
that is a multiple of the batch depth 4) the batch rooted at the node is
loaded and the node is its slot 0. -/
def enterBatch (loader : Position → BatchNode) (pos : Position) (batch : BatchNode)
    (iBatch : Nat) : BatchNode × Nat :=
  if 0 < iBatch ∧ pos.height % 4 = 0 then (loader pos, 0) else (batch, iBatch)

/-- Modelled from the spec: the descent of `PruneToFind` (missing from the
sources) at the node `(idx, h)`, slot `iBatch` of `batch`.  An absent slot ends
the descent (`NoOp`); at the last row of a batch the batch rooted at the node
is loaded; a shortcut ends the descent (`UseProvided`), and so does a node of
height 0; otherwise the descent follows the key and collects the sibling. -/
def findTraverse (loader : Position → BatchNode) (index : List Nat) :
    Nat → Nat → BatchNode → Nat → HyperOp
  | h, idx, batch, iBatch =>
    if batch.HasElementAt iBatch = false then .noOp ⟨idx, h⟩
    else
      let e := enterBatch loader ⟨idx, h⟩ batch iBatch
      if e.1.HasElementAt e.2 = false then .noOp ⟨idx, h⟩
      else if e.1.HasLeafAt e.2 = true then
        .getProvidedHash ⟨idx, h⟩ (e.1.GetElementAt e.2)
          (if (e.1.GetLeafKVAt e.2).1 = index then some (e.1.GetLeafKVAt e.2).2 else none)
      else
        match h with
        | 0 => .getProvidedHash ⟨idx, 0⟩ (e.1.GetElementAt e.2) none
        | k + 1 =>
          if bytesToNat index < idx + 2 ^ k then
            .innerHash ⟨idx, k + 1⟩
              (findTraverse loader index k idx e.1 (2 * e.2 + 1))
              (.collectHash ⟨idx + 2 ^ k, k⟩ (discardBranch ⟨idx + 2 ^ k, k⟩ e.1 (2 * e.2 + 2)))
          else
            .innerHash ⟨idx, k + 1⟩
              (.collectHash ⟨idx, k⟩ (discardBranch ⟨idx, k⟩ e.1 (2 * e.2 + 1)))
              (findTraverse loader index k (idx + 2 ^ k) e.1 (2 * e.2 + 2))

/-- Modelled from the spec: `PruneToFind(index, loader)` (missing from the
sources); the root of the hyper tree is `(0, W)` with `W` the bit length of
the index. -/
def PruneToFind (index : List Nat) (loader : Position → BatchNode) : HyperOp :=
  findTraverse loader index (8 * index.length) 0 (loader ⟨0, 8 * index.length⟩) 0

/-- Modelled from the spec: the audit path, a map from position to hash (keyed
by the position's string id in the source), as an association list. -/
abbrev AuditPath : Type := List (Position × List Nat)

/-- Map assignment `auditPath[pos] = hash`: an existing entry is replaced. -/
def AuditPath.insert : AuditPath → Position → List Nat → AuditPath
  | [], pos, hash => [(pos, hash)]
  | (p, h) :: rest, pos, hash =>
    if p = pos then (pos, hash) :: rest else (p, h) :: AuditPath.insert rest pos hash

/-- The positions of an audit path. -/
def AuditPath.positions (a : AuditPath) : List Position :=
  a.map Prod.fst

/-- Modelled from the spec: the default hash `d_h` of an empty subtree of height
`h`, the entry `h` of the default-hash vector.  The vector that `NewHyperTree`
builds holds `d_0 .. d_{W-1}` while the root sits at height `W`: past the end
of the vector the sequence is continued by its recurrence
`d_h = H(d_{h-1}, d_{h-1})`, from `d_0 = H(0x00, 0x00)`. -/
def defaultHashAt (hasher : Hasher) (defaultHashes : List (List Nat)) : Nat → List Nat
  | 0 => (defaultHashes[0]?).getD (hasher.Do [[0x0], [0x0]])
  | h + 1 =>
    match defaultHashes[h + 1]? with
    | some d => d
    | none =>
      hasher.Do [defaultHashAt hasher defaultHashes h, defaultHashAt hasher defaultHashes h]

/-- Modelled from the spec: the interpretation context of a search, the hasher,
the default hashes, the audit path collected so far and the value found. -/
structure Context where
  Hasher : Hasher
  DefaultHashes : List (List Nat)
  AuditPath : AuditPath
  Value : Option (List Nat)

/-- Modelled from the spec: the interpreter of a hyper search plan (missing
from the sources).  `InnerHash` hashes its two operands, the right one being
interpreted first as in the listed plan; `Collect` adds the hash of its child
to the audit path; `NoOp` and `GetDefaultHash` yield the default hash of the
height; `UseProvided` yields the hash read from the batch and records the value
of a found shortcut. -/
def HyperOp.Interpret : HyperOp → Context → List Nat × Context
  | .innerHash _ l r, ctx =>
    let (rightHash, ctx1) := r.Interpret ctx
    let (leftHash, ctx2) := l.Interpret ctx1
    (ctx2.Hasher.Do [leftHash, rightHash], ctx2)
  | .collectHash pos c, ctx =>
    let (hash, ctx1) := c.Interpret ctx
    (hash, { ctx1 with AuditPath := ctx1.AuditPath.insert pos hash })
  | .getDefaultHash pos, ctx => (defaultHashAt ctx.Hasher ctx.DefaultHashes pos.height, ctx)
  | .getProvidedHash _ hash found, ctx =>
    (hash, match found with
      | some v => { ctx with Value := some v }
      | none => ctx)
  | .noOp pos, ctx => (defaultHashAt ctx.Hasher ctx.DefaultHashes pos.height, ctx)

/-- The batches of `search_test.go` for a tree with the single leaf
`(index 0, value 0)`: the cached root batch and the stored batch `(0, 4)`. -/
def oneLeafCached : List (Position × List Nat) :=
  [(⟨0, 8⟩, [0xd1, 0x01, 0x00, 0x00, 0x00, 0x00, 0x00, 0x00, 0x00, 0x00, 0x00, 0x00,
    0x00, 0x00])]

/-- The stored batch `(0, 4)` of the tree with the single leaf. -/
def oneLeafStored : List (Position × List Nat) :=
  [(⟨0, 4⟩, [0xe0, 0x00, 0x00, 0x00, 0x00, 0x01, 0x00, 0x02, 0x00, 0x02])]

/-- The batches of the test for the two leaves `(0, 0)` and `(1, 1)`. -/
def twoLeavesCached : List (Position × List Nat) :=
  [(⟨0, 8⟩, [0xd1, 0x01, 0x00, 0x00, 0x01, 0x00, 0x01, 0x00, 0x01, 0x00, 0x01, 0x00,
    0x01, 0x00])]

/-- The stored batches `(1, 0)`, `(0, 0)` and `(0, 4)` of the tree with two leaves. -/
def twoLeavesStored : List (Position × List Nat) :=
  [(⟨1, 0⟩, [0xe0, 0x00, 0x00, 0x00, 0x01, 0x01, 0x01, 0x02, 0x01, 0x02]),
   (⟨0, 0⟩, [0xe0, 0x00, 0x00, 0x00, 0x00, 0x01, 0x00, 0x02, 0x00, 0x02]),
   (⟨0, 4⟩, [0xd1, 0x01, 0x80, 0x00, 0x01, 0x00, 0x01, 0x00, 0x01, 0x00, 0x01, 0x00,
     0x00, 0x00, 0x01, 0x00])]

/-- The batches of the test for the three leaves `(0, 0)`, `(8, 8)`, `(12, 12)`. -/
def threeLeavesCached : List (Position × List Nat) :=
  [(⟨0, 8⟩, [0xd1, 0x01, 0x00, 0x00, 0x04, 0x00, 0x04, 0x00, 0x04, 0x00, 0x04, 0x00,
    0x04, 0x00])]

/-- The stored batch `(0, 4)` of the tree with three leaves. -/
def threeLeavesStored : List (Position × List Nat) :=
  [(⟨0, 4⟩, [0xfe, 0x1e, 0x00, 0x00, 0x04, 0x00, 0x00, 0x01, 0x04, 0x00, 0x00, 0x02,
    0x00, 0x02, 0x08, 0x01, 0x0c, 0x01, 0x08, 0x02, 0x08, 0x02, 0x0c, 0x02, 0x0c, 0x02])]

/-- The descent to the first stored batch that five of the test cases share. -/
def cachedDescentOps : List (OpCode × Position) :=
  [(.InnerHashCode, ⟨0, 8⟩), (.CollectHashCode, ⟨128, 7⟩), (.GetDefaultHashCode, ⟨128, 7⟩),
   (.InnerHashCode, ⟨0, 7⟩), (.CollectHashCode, ⟨64, 6⟩), (.GetDefaultHashCode, ⟨64, 6⟩),
   (.InnerHashCode, ⟨0, 6⟩), (.CollectHashCode, ⟨32, 5⟩), (.GetDefaultHashCode, ⟨32, 5⟩),
   (.InnerHashCode, ⟨0, 5⟩), (.CollectHashCode, ⟨16, 4⟩), (.GetDefaultHashCode, ⟨16, 4⟩)]

/-- The table of `TestPruneToFind`: `(index, cachedBatches, storedBatches,
expectedOps)` for every test case, in the order of the test. -/
def pruneToFindTestCases :
    List (List Nat × List (Position × List Nat) × List (Position × List Nat) ×
      List (OpCode × Position)) := [
  ([0], [], [], [(.NoOpCode, ⟨0, 8⟩)]),
  ([0], oneLeafCached, oneLeafStored, cachedDescentOps ++ [(.GetProvidedHashCode, ⟨0, 4⟩)]),
  ([1], oneLeafCached, oneLeafStored, cachedDescentOps ++ [(.GetProvidedHashCode, ⟨0, 4⟩)]),
  ([1], twoLeavesCached, twoLeavesStored, cachedDescentOps ++
    [(.InnerHashCode, ⟨0, 4⟩), (.CollectHashCode, ⟨8, 3⟩), (.GetDefaultHashCode, ⟨8, 3⟩),
     (.InnerHashCode, ⟨0, 3⟩), (.CollectHashCode, ⟨4, 2⟩), (.GetDefaultHashCode, ⟨4, 2⟩),
     (.InnerHashCode, ⟨0, 2⟩), (.CollectHashCode, ⟨2, 1⟩), (.GetDefaultHashCode, ⟨2, 1⟩),
     (.InnerHashCode, ⟨0, 1⟩), (.GetProvidedHashCode, ⟨1, 0⟩), (.CollectHashCode, ⟨0, 0⟩),
     (.GetProvidedHashCode, ⟨0, 0⟩)]),
  ([1], oneLeafCached, oneLeafStored, cachedDescentOps ++ [(.GetProvidedHashCode, ⟨0, 4⟩)]),
  ([12], threeLeavesCached, threeLeavesStored, cachedDescentOps ++
    [(.InnerHashCode, ⟨0, 4⟩), (.InnerHashCode, ⟨8, 3⟩), (.GetProvidedHashCode, ⟨12, 2⟩),
     (.CollectHashCode, ⟨8, 2⟩), (.GetProvidedHashCode, ⟨8, 2⟩), (.CollectHashCode, ⟨0, 3⟩),
     (.GetProvidedHashCode, ⟨0, 3⟩)]),
  ([128], oneLeafCached, oneLeafStored,
    [(.InnerHashCode, ⟨0, 8⟩), (.NoOpCode, ⟨128, 7⟩), (.CollectHashCode, ⟨0, 7⟩),
     (.GetProvidedHashCode, ⟨0, 7⟩)])]

/-- The audit path that four of the interpretation test cases expect. -/
def cachedDescentPath : List (Position × List Nat) :=
  [(⟨128, 7⟩, [0x0]), (⟨64, 6⟩, [0x0]), (⟨32, 5⟩, [0x0]), (⟨16, 4⟩, [0x0])]

/-- The table of `TestSearchInterpretation`: `(index, cachedBatches,
storedBatches, expectedAuditPath)` for every test case, in the order of the test. -/
def searchInterpretationTestCases :
    List (List Nat × List (Position × List Nat) × List (Position × List Nat) ×
      List (Position × List Nat)) := [
  ([0], [], [], []),
  ([0], oneLeafCached, oneLeafStored, cachedDescentPath),
  ([1], oneLeafCached, oneLeafStored, cachedDescentPath),
  ([1], twoLeavesCached, twoLeavesStored, cachedDescentPath ++
    [(⟨8, 3⟩, [0x0]), (⟨4, 2⟩, [0x0]), (⟨2, 1⟩, [0x0]), (⟨0, 0⟩, [0x0])]),
  ([1], oneLeafCached, oneLeafStored, cachedDescentPath),
  ([12], threeLeavesCached, threeLeavesStored, cachedDescentPath ++
    [(⟨8, 2⟩, [0x8]), (⟨0, 3⟩, [0x0])]),
  ([128], oneLeafCached, oneLeafStored, [(⟨0, 7⟩, [0x0])])]

/-- The context of `TestSearchInterpretation`: the XOR hasher and nine default
hashes `0x00`, with an empty audit path. -/
def searchTestContext : Context :=
  ⟨⟨XorHasher, 8⟩, List.replicate 9 [0x0], [], none⟩

/-- The audit path collected by the search for `index` on the given batches,
as the test computes it. -/
def searchAuditPath (index : List Nat) (cached stored : List (Position × List Nat)) :
    AuditPath :=
  ((PruneToFind index (NewFakeBatchLoader 1 cached stored 4)).Interpret
    searchTestContext).2.AuditPath

/-- The sibling, at height `k`, of the node of height `k` on the path from the
root to the leaf `key`: the other child of the ancestor of `key` at height
`k + 1`. -/
def keySibling (key k : Nat) : Position :=
  let parent := key / 2 ^ (k + 1) * 2 ^ (k + 1)
  if key < parent + 2 ^ k then ⟨parent + 2 ^ k, k⟩ else ⟨parent, k⟩

/-- The siblings of the nodes on the path to `key` at the heights below `h`
down to `s`, one per height, highest first. -/
def descentSiblings (key : Nat) : Nat → Nat → List Position
  | 0, _ => []
  | k + 1, s => if k + 1 ≤ s then [] else keySibling key k :: descentSiblings key k s

/-- The operation on which the descent of a search plan ends: below an
`InnerHash` the descent continues in the operand that is not a collected
sibling. -/
def HyperOp.stop : HyperOp → HyperOp
  | .innerHash _ l r =>
    match r with
    | .collectHash _ _ => l.stop
    | _ => r.stop
  | op => op

/-- The end of a descent at the ancestor of `key` of height `s`: a `NoOp` (an
empty subtree) or a `UseProvided` (a shortcut, or a node of height 0). -/
def endsAt (op : HyperOp) (key s : Nat) : Prop :=
  op = .noOp ⟨key / 2 ^ s * 2 ^ s, s⟩ ∨
    ∃ hash found, op = .getProvidedHash ⟨key / 2 ^ s * 2 ^ s, s⟩ hash found

/-! ## The hyper tree as a tree of nodes

`pruneToInsert` and the batch encoding are not among the embedded sources.
The content of the store and the cache is modelled by the tree of nodes the
spec describes: empty subtrees, shortcuts and inner nodes.  The batches that
the search reads are the packing of that tree, four levels per batch. -/

/-- Modelled from the spec: a subtree of the hyper tree.  An empty subtree is
not stored; a shortcut ends the descent and holds the key and the value of the
only leaf below it; an inner node has two subtrees. -/
inductive HyperNode where
  | empty
  | shortcut (key value : List Nat)
  | inner (left right : HyperNode)
  deriving DecidableEq, Repr

/-- Modelled from the spec: the insertion of `(index, value)` below the node
`(idx, h)` (`pruneToInsert` and its interpretation are missing).  An empty
subtree at or below the cache height limit becomes a shortcut, above the limit
it is expanded along the key; a shortcut holding another key is pushed down
together with the new leaf until the two keys part; a shortcut holding the
same key is kept with the value it has (the first version stays). -/
def hyperInsert (cacheHeightLimit : Nat) (index value : List Nat) :
    Nat → Nat → HyperNode → HyperNode
  | 0, _, .empty => .shortcut index value
  | 0, _, n => n
  | k + 1, idx, .empty =>
    if k + 1 ≤ cacheHeightLimit then .shortcut index value
    else if bytesToNat index < idx + 2 ^ k then
      .inner (hyperInsert cacheHeightLimit index value k idx .empty) .empty
    else
      .inner .empty (hyperInsert cacheHeightLimit index value k (idx + 2 ^ k) .empty)
  | k + 1, idx, .shortcut key v =>
    if key = index then .shortcut key v
    else
      let left := if bytesToNat key < idx + 2 ^ k then HyperNode.shortcut key v else .empty
      let right := if bytesToNat key < idx + 2 ^ k then HyperNode.empty else .shortcut key v
      if bytesToNat index < idx + 2 ^ k then
        .inner (hyperInsert cacheHeightLimit index value k idx left) right
      else
        .inner left (hyperInsert cacheHeightLimit index value k (idx + 2 ^ k) right)
  | k + 1, idx, .inner l r =>
    if bytesToNat index < idx + 2 ^ k then
      .inner (hyperInsert cacheHeightLimit index value k idx l) r
    else
      .inner l (hyperInsert cacheHeightLimit index value k (idx + 2 ^ k) r)

/-- Modelled from the spec: the hash of the subtree at the node `(idx, h)`.
An empty subtree hashes to the default hash of its height, a shortcut to the
shortcut leaf hash of its position, key and value (the spec leaves that hash
open, so it is a parameter), an inner node to `H(left, right)`. -/
def hyperHash (t : HyperTree) (leafHash : Position → List Nat → List Nat → List Nat) :
    Nat → Nat → HyperNode → List Nat
  | h, _, .empty => defaultHashAt t.hasher t.defaultHashes h
  | h, idx, .shortcut key value => leafHash ⟨idx, h⟩ key value
  | h, idx, .inner l r =>
    t.hasher.Do [hyperHash t leafHash (h - 1) idx l,
      hyperHash t leafHash (h - 1) (idx + 2 ^ (h - 1)) r]

/-- The left subtree of a node; nothing is stored below an empty subtree or a
shortcut. -/
def HyperNode.left : HyperNode → HyperNode
  | .inner l _ => l
  | _ => .empty

/-- The right subtree of a node. -/
def HyperNode.right : HyperNode → HyperNode
  | .inner _ r => r
  | _ => .empty

/-- The subtree stored at the position `target`, walking down from the node
`(idx, h)` that holds `node`. -/
def subtreeAt (target : Position) : Nat → Nat → HyperNode → HyperNode
  | 0, idx, node => if target = ⟨idx, 0⟩ then node else .empty
  | k + 1, idx, node =>
    if target.height = k + 1 then (if target.index = idx then node else .empty)
    else if target.index < idx + 2 ^ k then subtreeAt target k idx node.left
    else subtreeAt target k (idx + 2 ^ k) node.right

/-- The way from the root of a batch to its slot `j`, `false` for a left and
`true` for a right turn: the parent of slot `j` is slot `(j - 1) / 2`. -/
def pathOfSlot : Nat → Nat → List Bool
  | 0, _ => []
  | fuel + 1, j => if j = 0 then [] else pathOfSlot fuel ((j - 1) / 2) ++ [j % 2 == 0]

/-- The slot reached from slot `i` by a way of left and right turns. -/
def slotOfPath (i : Nat) (path : List Bool) : Nat :=
  path.foldl (fun j b => 2 * j + (if b then 2 else 1)) i

/-- Modelled from the spec: the entry of a batch at the end of `path`, for the
batch node `node` at `(idx, h)`, `depth` rows below the root of the batch.  An
inner node is stored as its hash with tag 0; a shortcut as its hash with tag 1
and its key and value in the two slots below it with tag 2; on the last row
(depth 4) only the hash is stored, with tag 0, the node itself being the root
of the next batch. -/
def slotEntry (t : HyperTree) (leafHash : Position → List Nat → List Nat → List Nat) :
    Nat → Nat → Nat → HyperNode → List Bool → Option BatchEntry
  | _, _, _, .empty, _ => none
  | h, idx, depth, .shortcut key value, [] =>
    some ⟨leafHash ⟨idx, h⟩ key value, if depth = 4 then 0 else 1⟩
  | _, _, depth, .shortcut key value, [b] =>
    if depth < 4 then some ⟨if b then value else key, 2⟩ else none
  | _, _, _, .shortcut _ _, _ :: _ :: _ => none
  | h, idx, _, .inner l r, [] => some ⟨hyperHash t leafHash h idx (.inner l r), 0⟩
  | h, idx, depth, .inner l r, b :: rest =>
    if b then slotEntry t leafHash (h - 1) (idx + 2 ^ (h - 1)) (depth + 1) r rest
    else slotEntry t leafHash (h - 1) idx (depth + 1) l rest

/-- Modelled from the spec: the batch stored at `pos` for a hyper tree of
`numBits` levels with root node `root`: the 31 slots of the four levels below
`pos`. -/
def batchAt (t : HyperTree) (leafHash : Position → List Nat → List Nat → List Nat)
    (numBits : Nat) (root : HyperNode) (pos : Position) : BatchNode := fun j =>
  if j < 31 then
    slotEntry t leafHash pos.height pos.index 0 (subtreeAt pos numBits 0 root) (pathOfSlot 5 j)
  else none

/-- Modelled from the spec: the state of a hyper tree, the fields computed by
`NewHyperTree`, the shortcut leaf hash (missing), and the nodes held by the
store and the cache (the fields `store` and `cache`, whose types are missing). -/
structure HyperState where
  tree : HyperTree
  leafHash : Position → List Nat → List Nat → List Nat
  root : HyperNode

/-- Modelled from the spec: the batch loader of a hyper tree (the field
`batchLoader`), which loads the batch stored at a position. -/
def HyperState.batchLoader (s : HyperState) : Position → BatchNode :=
  batchAt s.tree s.leafHash s.tree.hasher.Len s.root

/-- The root hash of the hyper tree, the hash of the node `(0, W)`. -/
def HyperState.rootHash (s : HyperState) : List Nat :=
  hyperHash s.tree s.leafHash s.tree.hasher.Len 0 s.root

/-- The function `util.Uint64AsBytes`: the 8 big-endian bytes of a `uint64`. -/
def Uint64AsBytes (i : Nat) : List Nat :=
  beBytes 8 i

/-- The method `HyperTree.Add(eventDigest, version)`: the value inserted is
`Uint64AsBytes(version)`; the result is the root hash of the interpreted insert
plan, and the state of the tree once the returned mutations are applied. -/
def HyperState.Add (s : HyperState) (eventDigest : List Nat) (version : Nat) :
    List Nat × HyperState :=
  let versionAsBytes := Uint64AsBytes version
  let s1 : HyperState := ⟨s.tree, s.leafHash,
    hyperInsert s.tree.cacheHeightLimit eventDigest versionAsBytes s.tree.hasher.Len 0 s.root⟩
  (s1.rootHash, s1)

/-- Modelled from the spec: the proof returned by a membership query, the key,
the value found (absent when the digest does not exist) and the audit path. -/
structure QueryProof where
  Key : List Nat
  Value : Option (List Nat)
  AuditPath : AuditPath

/-- The method `HyperTree.QueryMembership(eventDigest)`: builds the search plan with
`pruneToFind`, interprets it on an empty audit path and returns the digest,
the value of the context and the audit path. -/
def HyperState.QueryMembership (s : HyperState) (eventDigest : List Nat) : QueryProof :=
  let ops := PruneToFind eventDigest s.batchLoader
  let ctx : Context := ⟨s.tree.hasher, s.tree.defaultHashes, [], none⟩
  let r := ops.Interpret ctx
  ⟨eventDigest, r.2.Value, r.2.AuditPath⟩

/-- Map lookup `auditPath[pos]`; a missing entry is the nil slice. -/
def AuditPath.get : AuditPath → Position → List Nat
  | [], _ => []
  | (p, h) :: rest, pos => if p = pos then h else AuditPath.get rest pos

/-- Modelled from the spec: the recomputation of the hyper root from a
membership proof below the node `(idx, h)`.  The path to the key is followed
down to the height `stop`, where the shortcut leaf of the key and the value is
hashed; above it every node is `H(left, right)` with the sibling taken from
the audit path (`UseProvided`). -/
def hyperVerifyTraverse (hasher : Hasher)
    (leafHash : Position → List Nat → List Nat → List Nat)
    (key value : List Nat) (path : AuditPath) (stop : Nat) : Nat → Nat → List Nat
  | 0, idx => leafHash ⟨idx, 0⟩ key value
  | k + 1, idx =>
    if k + 1 ≤ stop then leafHash ⟨idx, k + 1⟩ key value
    else if bytesToNat key < idx + 2 ^ k then
      hasher.Do [hyperVerifyTraverse hasher leafHash key value path stop k idx,
        path.get ⟨idx + 2 ^ k, k⟩]
    else
      hasher.Do [path.get ⟨idx, k⟩,
        hyperVerifyTraverse hasher leafHash key value path stop k (idx + 2 ^ k)]

/-- Modelled from the spec: the root digest recomputed from a membership proof
and a value.  The audit path has one entry per level of the descent, so the
shortcut sits `len(auditPath)` levels below the root `(0, W)`. -/
def QueryProof.recompute (p : QueryProof) (hasher : Hasher)
    (leafHash : Position → List Nat → List Nat → List Nat) (value : List Nat) : List Nat :=
  hyperVerifyTraverse hasher leafHash p.Key value p.AuditPath
    (8 * p.Key.length - p.AuditPath.length) (8 * p.Key.length) 0

/-- The plan of a search read off the tree of nodes: a branch off the path is
`GetDefaultHash` when empty and `UseProvided` with its hash otherwise. -/
def siblingOp (t : HyperTree) (leafHash : Position → List Nat → List Nat → List Nat)
    (pos : Position) : HyperNode → HyperOp
  | .empty => .getDefaultHash pos
  | n => .getProvidedHash pos (hyperHash t leafHash pos.height pos.index n) none

/-- The plan of a search read off the tree of nodes, at the node `(idx, h)`. -/
def treeFind (t : HyperTree) (leafHash : Position → List Nat → List Nat → List Nat)
    (index : List Nat) : Nat → Nat → HyperNode → HyperOp
  | h, idx, .empty => .noOp ⟨idx, h⟩
  | h, idx, .shortcut key value =>
    .getProvidedHash ⟨idx, h⟩ (leafHash ⟨idx, h⟩ key value)
      (if key = index then some value else none)
  | 0, idx, .inner l r =>
    .getProvidedHash ⟨idx, 0⟩ (hyperHash t leafHash 0 idx (.inner l r)) none
  | k + 1, idx, .inner l r =>
    if bytesToNat index < idx + 2 ^ k then
      .innerHash ⟨idx, k + 1⟩ (treeFind t leafHash index k idx l)
        (.collectHash ⟨idx + 2 ^ k, k⟩ (siblingOp t leafHash ⟨idx + 2 ^ k, k⟩ r))
    else
      .innerHash ⟨idx, k + 1⟩ (.collectHash ⟨idx, k⟩ (siblingOp t leafHash ⟨idx, k⟩ l))
        (treeFind t leafHash index k (idx + 2 ^ k) r)

/-- A key of the hyper tree: `n` bytes. -/
def validKey (n : Nat) (key : List Nat) : Bool :=
  key.length == n && key.all (fun b => decide (b < 256))

/-- A subtree at `(idx, h)` is well formed when every shortcut holds a key of
`n` bytes that lies below the position of the shortcut, and no inner node sits
at height 0. -/
def HyperNode.wellFormed (n : Nat) : Nat → Nat → HyperNode → Bool
  | _, _, .empty => true
  | h, idx, .shortcut key _ =>
    validKey n key && decide (idx ≤ bytesToNat key) && decide (bytesToNat key < idx + 2 ^ h)
  | h, idx, .inner l r =>
    decide (0 < h) && l.wellFormed n (h - 1) idx && r.wellFormed n (h - 1) (idx + 2 ^ (h - 1))

/-- The hyper tree holds keys of `W / 8` bytes below the root `(0, W)`. -/
def HyperState.wellFormed (s : HyperState) : Bool :=
  s.root.wellFormed (s.tree.hasher.Len / 8) s.tree.hasher.Len 0

/-- The value stored for `index` below the node `(idx, h)`: the value of the
shortcut met on the path of the key, when that shortcut holds the key. -/
def HyperNode.lookup (index : List Nat) : Nat → Nat → HyperNode → Option (List Nat)
  | _, _, .empty => none
  | _, _, .shortcut key value => if key = index then some value else none
  | 0, _, .inner _ _ => none
  | k + 1, idx, .inner l r =>
    if bytesToNat index < idx + 2 ^ k then l.lookup index k idx
    else r.lookup index k (idx + 2 ^ k)

/-- The height at which the descent for `index` ends below the node `(idx, h)`. -/
def HyperNode.stopHeight (index : List Nat) : Nat → Nat → HyperNode → Nat
  | k + 1, idx, .inner l r =>
    if bytesToNat index < idx + 2 ^ k then l.stopHeight index k idx
    else r.stopHeight index k (idx + 2 ^ k)
  | h, _, _ => h

/-- The siblings of the path of `index` below the node `(idx, h)` with the
hashes of their subtrees, highest first. -/
def treeAudit (t : HyperTree) (leafHash : Position → List Nat → List Nat → List Nat)
    (index : List Nat) : Nat → Nat → HyperNode → List (Position × List Nat)
  | k + 1, idx, .inner l r =>
    if bytesToNat index < idx + 2 ^ k then
      (⟨idx + 2 ^ k, k⟩, hyperHash t leafHash k (idx + 2 ^ k) r) ::
        treeAudit t leafHash index k idx l
    else
      (⟨idx, k⟩, hyperHash t leafHash k idx l) ::
        treeAudit t leafHash index k (idx + 2 ^ k) r
  | _, _, _ => []

/-- The hyper tree of the search test: the XOR hasher at width 8, cache height
limit 4 and nine default hashes `0x00`; the shortcut leaf hash for which the
batches written out in the test are the batches of the inserted leaves is the
hash of the value. -/
def searchTestState (root : HyperNode) : HyperState :=
  ⟨⟨⟨XorHasher, 8⟩, 4, List.replicate 9 [0x0]⟩, fun _ _ value => XorHasher [value], root⟩

/-- The trees of one, two and three leaves of the search test, built by
insertion into the empty tree. -/
def oneLeafTree : HyperNode := hyperInsert 4 [0] [0] 8 0 .empty

/-- The tree of the leaves `(0, 0)` and `(1, 1)`. -/
def twoLeavesTree : HyperNode := hyperInsert 4 [1] [1] 8 0 oneLeafTree

/-- The tree of the leaves `(0, 0)`, `(8, 8)` and `(12, 12)`. -/
def threeLeavesTree : HyperNode :=
  hyperInsert 4 [12] [12] 8 0 (hyperInsert 4 [8] [8] 8 0 oneLeafTree)

/-- Whether the batch loader of a state and the batches of a test case hold the
same entry in every slot of the batch at `pos`. -/
def sameBatch (s : HyperState) (cached stored : List (Position × List Nat))
    (pos : Position) : Bool :=
  (List.range 32).all fun j =>
    s.batchLoader pos j == NewFakeBatchLoader 1 cached stored 4 pos j

/-! ## The history tree and the balloon

The history tree, the balloon and the verification of membership proofs are
not among the embedded sources; `client.go` and `protocol.go` only call them. -/

/-- The function `util.Uint16AsBytes`: the 2 big-endian bytes of a `uint16`. -/
def Uint16AsBytes (i : Nat) : List Nat :=
  beBytes 2 i

/-- The function `util.BytesAsUint64`: `binary.BigEndian.Uint64(b)` reads the first 8 bytes
and panics on a shorter slice. -/
def BytesAsUint64 (b : List Nat) : Option Nat :=
  if b.length < 8 then none else some (bytesToNat (b.take 8))

/-- Modelled from the spec: the bytes of a history position, the 8 big-endian
bytes of the index followed by the 2 big-endian bytes of the height. -/
def historyPosBytes (pos : Position) : List Nat :=
  Uint64AsBytes pos.index ++ Uint16AsBytes pos.height

/-- Modelled from the spec: the hash of the history node `(i, h)` as of
`version`, over the leaf digests `leaves`.  A leaf hashes the event digest with
the position bytes, an inner node is `H(left, right)`, and a node whose right
child starts beyond `version` hashes to its left child alone (partial rule). -/
def historyHash (hasher : Hasher) (leaves : List (List Nat)) (version : Nat) :
    Nat → Nat → List Nat
  | 0, i => hasher.Do [leaves.getD i [], historyPosBytes ⟨i, 0⟩]
  | k + 1, i =>
    if version < i + 2 ^ k then historyHash hasher leaves version k i
    else hasher.Do [historyHash hasher leaves version k i,
      historyHash hasher leaves version k (i + 2 ^ k)]

/-- Modelled from the spec: the siblings collected by the membership plan of
the history tree on the path to `(index, 0)` below the node `(i, h)`, each with
its hash as of `version`. -/
def historyAudit (hasher : Hasher) (leaves : List (List Nat)) (index version : Nat) :
    Nat → Nat → List (Position × List Nat)
  | 0, _ => []
  | k + 1, i =>
    if version < i + 2 ^ k then historyAudit hasher leaves index version k i
    else if index < i + 2 ^ k then
      (⟨i + 2 ^ k, k⟩, historyHash hasher leaves version k (i + 2 ^ k)) ::
        historyAudit hasher leaves index version k i
    else
      (⟨i, k⟩, historyHash hasher leaves version k i) ::
        historyAudit hasher leaves index version k (i + 2 ^ k)

/-- Modelled from the spec: `ProveMembership(index, version)` of the history
tree, the audit path of the leaf `index` in the tree of `version`. -/
def ProveMembership (hasher : Hasher) (leaves : List (List Nat)) (index version : Nat) :
    AuditPath :=
  historyAudit hasher leaves index version (rootHeight version) 0

/-- Modelled from the spec: the interpretation of a history plan by a
verifier, whose cache is the audit path of the proof. -/
def Operation.InterpretVerify (hasher : Hasher) (path : AuditPath) : Operation → List Nat
  | .leaf pos eventDigest => hasher.Do [eventDigest, historyPosBytes pos]
  | .inner _ l r => hasher.Do [l.InterpretVerify hasher path, r.InterpretVerify hasher path]
  | .partialNode _ l => l.InterpretVerify hasher path
  | .getCache pos => path.get pos
  | .put _ c => c.InterpretVerify hasher path
  | .mutate _ c => c.InterpretVerify hasher path
  | .collect _ c => c.InterpretVerify hasher path
  | .noOp _ => []
  | .useProvided pos => path.get pos

/-- The snapshot returned by an insertion (`apihttp.Snapshot` without the
event): the commitment `(historyDigest, hyperDigest, version)`. -/
structure Snapshot where
  HistoryDigest : List Nat
  HyperDigest : List Nat
  Version : Nat
  deriving DecidableEq, Repr

/-- Modelled from the spec: the balloon, the version counter, the leaf digests
of the history tree and the hyper tree; one hasher serves the events and both
trees. -/
structure Balloon where
  hasher : Hasher
  version : Nat
  history : List (List Nat)
  hyper : HyperState

/-- Modelled from the spec: `Balloon.Add(event)`.  The event is hashed, the
next version is assigned, both trees are updated and the commitment is
returned. -/
def Balloon.Add (b : Balloon) (event : List Nat) : Snapshot × Balloon :=
  let version := b.version
  let eventDigest := b.hasher.Do [event]
  let history := b.history ++ [eventDigest]
  let historyDigest := historyHash b.hasher history version (rootHeight version) 0
  let r := b.hyper.Add eventDigest version
  (⟨historyDigest, r.1, version⟩, ⟨b.hasher, version + 1, history, r.2⟩)

/-- The membership proof of the balloon (`balloon.MembershipProof`, the fields
that `apihttp.ToMembershipResult` reads). -/
structure MembershipProof where
  Exists : Bool
  Hyper : QueryProof
  History : AuditPath
  CurrentVersion : Nat
  QueryVersion : Nat
  ActualVersion : Nat
  KeyDigest : List Nat

/-- Modelled from the spec: `Balloon.QueryMembership(event, version)`.  A
query for a version beyond the current one is refused (`VersionGap`, here
`none`).  The actual version is the one returned by the hyper tree, the event
exists when it is at most the queried version, and the history path is then
the audit path of the actual version in the tree of the queried version. -/
def Balloon.QueryMembership (b : Balloon) (event : List Nat) (version : Nat) :
    Option MembershipProof :=
  if b.version ≤ version then none
  else
    let keyDigest := b.hasher.Do [event]
    let hyperProof := b.hyper.QueryMembership keyDigest
    match hyperProof.Value.bind BytesAsUint64 with
    | some actual =>
      if actual ≤ version then
        some ⟨true, hyperProof, ProveMembership b.hasher b.history actual version,
          b.version - 1, version, actual, keyDigest⟩
      else some ⟨false, hyperProof, [], b.version - 1, version, actual, keyDigest⟩
    | none => some ⟨false, hyperProof, [], b.version - 1, version, version, keyDigest⟩

/-- Modelled from the spec: `Verify(proof, commitment, event)`.  The hyper root
is recomputed from the hyper path and the value found, the history root from
the plan `PruneToVerify(actualVersion, queryVersion, digest)` over the history
path; both are compared with the commitment.  A proof without a value is not
accepted as a proof of membership. -/
def MembershipProof.Verify (p : MembershipProof) (hasher : Hasher)
    (leafHash : Position → List Nat → List Nat → List Nat) (event : List Nat)
    (commitment : Snapshot) : Bool :=
  let digest := hasher.Do [event]
  let hyperCorrect :=
    match p.Hyper.Value with
    | some value =>
      p.Hyper.Key == digest && p.Hyper.recompute hasher leafHash value == commitment.HyperDigest
    | none => false
  let historyCorrect :=
    (PruneToVerify p.ActualVersion p.QueryVersion digest).InterpretVerify hasher p.History ==
      commitment.HistoryDigest
  if p.Exists then hyperCorrect && historyCorrect else hyperCorrect

/-- Modelled from the spec: the balloon before any insertion (its constructor
is missing), at version 0 over an empty history and an empty hyper tree. -/
def NewBalloon (tree : HyperTree) (leafHash : Position → List Nat → List Nat → List Nat) :
    Balloon :=
  ⟨tree.hasher, 0, [], ⟨tree, leafHash, .empty⟩⟩

/-- The balloon after the insertion of the events in order, with the
commitments returned, oldest first. -/
def Balloon.AddAll (b : Balloon) : List (List Nat) → List Snapshot × Balloon
  | [] => ([], b)
  | event :: rest =>
    let r := b.Add event
    let rs := r.2.AddAll rest
    (r.1 :: rs.1, rs.2)

/-- The first position of a digest in a list of digests (the length of the
list when the digest does not occur). -/
def firstIndex (digest : List Nat) : List (List Nat) → Nat
  | [] => 0
  | d :: rest => if d = digest then 0 else firstIndex digest rest + 1

/-- The value the hyper tree holds for a digest after the insertion of the
digests `history` in order: the encoding of the first version of the digest. -/
def firstVersion (history : List (List Nat)) (digest : List Nat) : Option (List Nat) :=
  if digest ∈ history then some (Uint64AsBytes (firstIndex digest history)) else none

/-- The invariant of a balloon over the hyper tree parameters `tree` and
`leafHash`: one hasher, the version counter is the number of leaves, and the
hyper tree is well formed and holds for every digest its first version. -/
def Balloon.Inv (tree : HyperTree) (leafHash : Position → List Nat → List Nat → List Nat)
    (b : Balloon) : Prop :=
  b.hasher = tree.hasher ∧ b.hyper.tree = tree ∧ b.hyper.leafHash = leafHash ∧
    b.version = b.history.length ∧ b.hyper.wellFormed = true ∧
    ∀ digest, b.hyper.root.lookup digest tree.hasher.Len 0 = firstVersion b.history digest

/-- An event whose digest is a key of the hyper tree: `W / 8` bytes. -/
def validEvent (hasher : Hasher) (event : List Nat) : Prop :=
  (∀ x ∈ hasher.Do [event], x < 256) ∧ 8 * (hasher.Do [event]).length = hasher.Len

/-! ## The hyper tree operations of `tree.go`

`Add` and `RebuildCache` call the plan builders `pruneToInsert` and
`pruneToRebuild`, the interpreter and the store, none of which is among the
embedded sources: they are parameters. -/

/-- Modelled from the spec: the failure codes propagated to callers (a Go
`error`; `nil` is the absent failure). -/
inductive Failure where
  | StoreUnavailable
  | CorruptBatch
  | VersionGap
  | HashMismatch
  deriving DecidableEq, Repr

/-- The fields of the `pruningContext` that `Add` fills in.  The types of the
cache and of a mutation are declared outside the embedded sources. -/
structure pruningContext (Cache Mutation : Type) where
  Hasher : Hasher
  Cache : Cache
  DefaultHashes : List (List Nat)
  Mutations : List Mutation

/-- The method `HyperTree.Add(eventDigest, version)` of `tree.go`.  The plan
builder `pruneToInsert` and the interpreter (`ops.Pop().Interpret(ops, ctx)`)
are parameters; neither has an error result, so all either can do besides
returning is not to return (a panic or `log.Fatalf`), which is `none`.  The
interpreter works on the context, whose cache it may write to.  The result is
the triple `(rh, ctx.Mutations, nil)` that `Add` returns, with the cache after
the call. -/
def HyperTree.Add {Ops Cache Loader Mutation : Type}
    (pruneToInsert : List Nat → List Nat → Nat → Loader → Option Ops)
    (Interpret : Ops → pruningContext Cache Mutation →
      Option (List Nat × pruningContext Cache Mutation))
    (t : HyperTree) (cache : Cache) (batchLoader : Loader)
    (eventDigest : List Nat) (version : Nat) :
    Option ((List Nat × List Mutation × Option Failure) × Cache) :=
  let versionAsBytes := Uint64AsBytes version
  match pruneToInsert eventDigest versionAsBytes t.cacheHeightLimit batchLoader with
  | none => none
  | some ops =>
    let ctx : pruningContext Cache Mutation := ⟨t.hasher, cache, t.defaultHashes, []⟩
    match Interpret ops ctx with
    | none => none
    | some (rh, ctx1) => some ((rh, ctx1.Mutations, none), ctx1.Cache)

/-- The lower bound `start` of the range `RebuildCache` scans:
`make([]byte, 2+t.hasher.Len()/8)` with `start[1] = byte(t.cacheHeightLimit)`;
the length is computed on `uint16`, the conversion to `byte` keeps the low
eight bits. -/
def rebuildStart (t : HyperTree) : List Nat :=
  (List.replicate ((2 + t.hasher.Len / 8) % 2 ^ 16) 0).set 1 (t.cacheHeightLimit % 256)

/-- The upper bound `end` of the range `RebuildCache` scans:
`end[1] = byte(t.cacheHeightLimit + 1)`, the sum being a `uint16`. -/
def rebuildEnd (t : HyperTree) : List Nat :=
  (List.replicate ((2 + t.hasher.Len / 8) % 2 ^ 16) 0).set 1
    ((t.cacheHeightLimit + 1) % 2 ^ 16 % 256)

/-- The index `node.Key[2:]` that `RebuildCache` passes to `pruneToRebuild`;
the slice expression panics on a key of fewer than 2 bytes. -/
def rebuildIndex (key : List Nat) : Option (List Nat) :=
  if key.length < 2 then none else some (key.drop 2)

/-- The loop `for _, node := range nodes` of `RebuildCache`: every node is
replayed through `pruneToRebuild` and the interpreter, on a context without
mutations; the interpreter may write to the cache. -/
def rebuildLoop {Ops Cache Loader Mutation : Type}
    (pruneToRebuild : List Nat → List Nat → Nat → Loader → Option Ops)
    (Interpret : Ops → pruningContext Cache Mutation →
      Option (List Nat × pruningContext Cache Mutation))
    (t : HyperTree) (batchLoader : Loader) :
    List (List Nat × List Nat) → Cache → Option Cache
  | [], cache => some cache
  | node :: rest, cache =>
    match rebuildIndex node.1 with
    | none => none
    | some index =>
      match pruneToRebuild index node.2 t.cacheHeightLimit batchLoader with
      | none => none
      | some ops =>
        match Interpret ops ⟨t.hasher, cache, t.defaultHashes, []⟩ with
        | none => none
        | some (_, ctx1) =>
          rebuildLoop pruneToRebuild Interpret t batchLoader rest ctx1.Cache

/-- The method `HyperTree.RebuildCache` of `tree.go`: the nodes of the hyper
table between `start` and `end` are read with `GetRange` (a parameter, as are
the plan builder and the interpreter) and replayed.  A failing `GetRange` ends
the process (`log.Fatalf`), which is `none`; the result is the cache after the
warm-up. -/
def HyperTree.RebuildCache {Ops Cache Loader Mutation : Type}
    (GetRange : List Nat → List Nat → Except Failure (List (List Nat × List Nat)))
    (pruneToRebuild : List Nat → List Nat → Nat → Loader → Option Ops)
    (Interpret : Ops → pruningContext Cache Mutation →
      Option (List Nat × pruningContext Cache Mutation))
    (t : HyperTree) (cache : Cache) (batchLoader : Loader) : Option Cache :=
  match GetRange (rebuildStart t) (rebuildEnd t) with
  | .error _ => none
  | .ok nodes => rebuildLoop pruneToRebuild Interpret t batchLoader nodes cache

/-- The constructor `NewHyperTree(hasherF, store, cache)` of `tree.go`: the
fields are built (`initHyperTree`), the batch loader is
`NewDefaultBatchLoader(store, cache, cacheHeightLimit)`, and the cache is
warmed up by `tree.RebuildCache()` before the tree is returned.  The store
(read through `GetRange`), the plan builder, the interpreter and the
constructor of the batch loader are not among the embedded sources and are
parameters.  No tree is returned (`none`) when the fields cannot be built or
the warm-up does not return (`log.Fatalf` on a failing `GetRange`, a panic on
a key too short); the result is the tree with the warmed cache. -/
def NewHyperTree {Ops Cache Loader Mutation : Type}
    (GetRange : List Nat → List Nat → Except Failure (List (List Nat × List Nat)))
    (pruneToRebuild : List Nat → List Nat → Nat → Loader → Option Ops)
    (Interpret : Ops → pruningContext Cache Mutation →
      Option (List Nat × pruningContext Cache Mutation))
    (NewDefaultBatchLoader : Cache → Nat → Loader)
    (hasher : Hasher) (cache : Cache) : Option (HyperTree × Cache) :=
  match initHyperTree hasher with
  | none => none
  | some tree =>
    match HyperTree.RebuildCache GetRange pruneToRebuild Interpret tree cache
        (NewDefaultBatchLoader cache tree.cacheHeightLimit) with
    | none => none
    | some warmed => some (tree, warmed)

/-- The function `bytes.Compare` of the Go library: the three-way
lexicographic comparison of two byte slices, with result -1, 0 or +1. -/
def bytesCompare : List Nat → List Nat → Int
  | [], [] => 0
  | [], _ :: _ => -1
  | _ :: _, [] => 1
  | a :: as, b :: bs =>
    if a < b then -1 else if b < a then 1 else bytesCompare as bs

/-- Modelled from the spec: the keys that `GetRange(table, start, end)` returns
are those of the half-open range `[start, end)`, keys being ordered
lexicographically on raw bytes. -/
def inKeyRange (start stop key : List Nat) : Bool :=
  decide (bytesCompare start key ≤ 0) && decide (bytesCompare key stop < 0)

/-- Modelled from the spec: `GetRange(table, start, end)` on a store whose hyper
table holds the pairs `table` in key-ascending order: the pairs with a key in
`[start, end)`, in the order of the table. -/
def storeGetRange (table : List (List Nat × List Nat)) (start stop : List Nat) :
    Except Failure (List (List Nat × List Nat)) :=
  .ok (table.filter fun kv => inKeyRange start stop kv.1)

/-- The hyper table that holds the nodes `(height, index, value)`: every key has
the stored shape, the 2 big-endian bytes of the height followed by the index
bytes. -/
def hyperTable (nodes : List (Nat × List Nat × List Nat)) : List (List Nat × List Nat) :=
  nodes.map fun n => (Uint16AsBytes n.1 ++ n.2.1, n.2.2)

/-- A plan builder for the warm-up that returns what it is handed: the index,
the value and the cache height limit. -/
def recordRebuild (index value : List Nat) (cacheHeightLimit : Nat) (_batchLoader : Unit) :
    Option (List Nat × List Nat × Nat) :=
  some (index, value, cacheHeightLimit)

/-- An interpreter for the warm-up that appends the plan it is given to the
cache, so that the cache after the warm-up lists the nodes replayed, in order. -/
def recordInterpret (ops : List Nat × List Nat × Nat)
    (ctx : pruningContext (List (List Nat × List Nat × Nat)) Unit) :
    Option (List Nat × pruningContext (List (List Nat × List Nat × Nat)) Unit) :=
  some ([], { ctx with Cache := ctx.Cache ++ [ops] })

/-- Modelled from the spec: a plan builder that reads the root batch through
the batch loader, whose store read may fail (`none`); a failed read aborts the
building of the plan, the batch read is the plan otherwise. -/
def readRootPlan (eventDigest _value : List Nat) (_cacheHeightLimit : Nat)
    (batchLoader : Position → Option BatchNode) : Option BatchNode :=
  batchLoader ⟨0, 8 * eventDigest.length⟩

/-- An interpreter that yields the hash in slot 0 of the batch and stages no
mutation. -/
def rootSlotInterpret (ops : BatchNode) (ctx : pruningContext Unit Unit) :
    Option (List Nat × pruningContext Unit Unit) :=
  some (ops.GetElementAt 0, ctx)

/-- The function `util.BytesAsUint16`: `binary.BigEndian.Uint16(b)` reads the first 2 bytes
and panics on a shorter slice. -/
def BytesAsUint16 (b : List Nat) : Option Nat :=
  if b.length < 2 then none else some (bytesToNat (b.take 2))

/-- The decoding of a history-table key in `runServerVerify`:
`index := BytesAsUint64(Key[:8])` and `height := BytesAsUint16(Key[8:])`; the
slice expressions panic on a key of fewer than 8 bytes. -/
def decodeHistoryKey (key : List Nat) : Option (Nat × Nat) :=
  if key.length < 8 then none
  else
    match BytesAsUint64 (key.take 8), BytesAsUint16 (key.drop 8) with
    | some index, some height => some (index, height)
    | _, _ => none

/-! ## Position string ids (`balloon/common/position_test.go`) -/

/-- The digit table `ldigits` of the Go formatter (`fmt`), used by the verbs
`%x` and `%d`. -/
def ldigits : List Char := "0123456789abcdef".toList

/-- The verb `%x` on a byte slice (`fmtSbx` of the Go formatter): for every
byte `c` the two characters `digits[c>>4]` and `digits[c&0xF]` are appended. -/
def fmtSbx (b : List Nat) : List Char :=
  b.foldl (fun buf c => buf ++ [ldigits.getD (c / 16 % 16) '0', ldigits.getD (c % 16) '0']) []

/-- The loop of the verb `%d` (`fmtInteger` of the Go formatter, base 10): while
`u >= 10` the digit `'0' + u - next*10` with `next := u / 10` is written in
front of the buffer and `u` becomes `next`; at the end `digits[u]` is written.
The first argument bounds the number of iterations. -/
def fmtIntegerLoop : Nat → Nat → List Char → List Char
  | 0, u, buf => ldigits.getD u '0' :: buf
  | fuel + 1, u, buf =>
    if 10 ≤ u then fmtIntegerLoop fuel (u / 10) (Char.ofNat (48 + u - (u / 10) * 10) :: buf)
    else ldigits.getD u '0' :: buf

/-- The verb `%d` on an unsigned integer; `u` iterations are more than the loop
makes, as every iteration divides `u` by 10. -/
def fmtInteger (u : Nat) : List Char :=
  fmtIntegerLoop u u []

/-- The type `FakePosition` of `position_test.go`: index bytes and a height
(a `uint16`). -/
structure FakePosition where
  index : List Nat
  height : Nat
  deriving DecidableEq, Repr

/-- The method `FakePosition.StringId`: `fmt.Sprintf("%x|%d", p.index, p.height)`. -/
def FakePosition.StringId (p : FakePosition) : String :=
  String.mk (fmtSbx p.index ++ '|' :: fmtInteger p.height)

/-- The lowercase hexadecimal encoding of a byte slice as the specification words
it: two characters per byte, the high digit first. -/
def hexEncoding (b : List Nat) : List Char :=
  b.flatMap fun c => [Nat.digitChar (c / 16), Nat.digitChar (c % 16)]

/-! ## The versioned key comparator (`storage/rocks/comparator.go`) -/

/-- The method `VersionedKeyComparator.Compare(a, b)`.  A key shorter than 8
bytes is compared with `bytes.Compare` when one of the keys is empty and
makes the method panic otherwise (`none`).  Two keys of at least 8 bytes are
split into the user key and the 8-byte suffix; the user keys are compared
first, then the suffixes in reverse order, then the whole keys. -/
def VersionedKeyComparator.Compare (a b : List Nat) : Option Int :=
  if a.length < 8 ∨ b.length < 8 then
    if a.length = 0 ∨ b.length = 0 then some (bytesCompare a b)
    else none
  else
    let a1 := a.take (a.length - 8)
    let a2 := a.drop (a.length - 8)
    let b1 := b.take (b.length - 8)
    let b2 := b.drop (b.length - 8)
    let c1 := bytesCompare a1 b1
    if c1 ≠ 0 then some c1
    else if a2.length = 0 then
      if b2.length = 0 then some 0 else some (-1)
    else if b2.length = 0 then some 1
    else
      let c2 := bytesCompare b2 a2
      if c2 ≠ 0 then some c2
      else some (bytesCompare a b)

/-- The keys on which `Compare` is defined: the empty key and the keys that
carry the 8-byte suffix. -/
def validVersionedKey (a : List Nat) : Prop :=
  a.length = 0 ∨ 8 ≤ a.length

instance (a : List Nat) : Decidable (validVersionedKey a) := by
  unfold validVersionedKey; infer_instance

/-! ## Shell input (`shell/util/strings.go`)

A Go string is modelled by the list of its characters. -/

/-- The predicate `unicode.IsSpace` of the Go library: the white space
characters that `strings.TrimSpace` removes. -/
def isSpace (c : Char) : Bool :=
  let n := c.toNat
  n == 0x09 || n == 0x0a || n == 0x0b || n == 0x0c || n == 0x0d || n == 0x20 ||
  n == 0x85 || n == 0xa0 || n == 0x1680 || (0x2000 ≤ n && n ≤ 0x200a) ||
  n == 0x2028 || n == 0x2029 || n == 0x202f || n == 0x205f || n == 0x3000

/-- The function `strings.TrimSpace`: the string without its leading and
trailing white space. -/
def TrimSpace (s : List Char) : List Char :=
  ((s.dropWhile isSpace).reverse.dropWhile isSpace).reverse

/-- The function `strings.Split(s, " ")`: the pieces of `s` between the
spaces, one more than there are spaces; the empty string gives one empty
piece. -/
def splitSpace : List Char → List (List Char)
  | [] => [[]]
  | c :: cs =>
    if c = ' ' then [] :: splitSpace cs
    else
      match splitSpace cs with
      | [] => [[c]]
      | p :: ps => (c :: p) :: ps

/-- The loop `for i := 0; i < len(parts); i++` of `GetCommandAndAction` over the
remaining parts, with the variables `command`, `action`, `commandSet` and
`actionSet`; setting the action returns at once. -/
def commandActionLoop : List (List Char) → List Char → List Char → Bool → Bool →
    List Char × List Char
  | [], command, action, _, _ => (command, action)
  | part :: rest, command, action, commandSet, actionSet =>
    let trimmedPart := TrimSpace part
    if trimmedPart ≠ [] then
      if !commandSet then commandActionLoop rest trimmedPart action true actionSet
      else if !actionSet then (command, trimmedPart)
      else commandActionLoop rest command action commandSet actionSet
    else commandActionLoop rest command action commandSet actionSet

/-- The function `GetCommandAndAction(s)`: `s` is trimmed and split on the
space character, and the loop runs over the parts. -/
def GetCommandAndAction (s : String) : String × String :=
  let parts := splitSpace (TrimSpace s.data)
  let r := commandActionLoop parts [] [] false false
  (String.mk r.1, String.mk r.2)

/-- The function `util.AddPaddingToBytes(b, n)` for `n >= 0`: `b` itself when
`len(b)/8 >= n`; otherwise `tmp := make([]byte, n, n)` and
`copy(tmp[n-len(b):], b)`, where the slice expression panics (`none`) when
`n - len(b)` is negative. -/
def AddPaddingToBytes (b : List Nat) (n : Nat) : Option (List Nat) :=
  if n ≤ b.length / 8 then some b
  else if n < b.length then none
  else some (List.replicate (n - b.length) 0 ++ b)

/-- The function `util.Uint64AsPaddedBytes(i, n)`. -/
def Uint64AsPaddedBytes (i n : Nat) : Option (List Nat) :=
  AddPaddingToBytes (Uint64AsBytes i) n

/-- The function `util.Uint16AsPaddedBytes(i, n)`. -/
def Uint16AsPaddedBytes (i n : Nat) : Option (List Nat) :=
  AddPaddingToBytes (Uint16AsBytes i) n

/-- The function `errors.New` of the Go library: an error value carrying the
text. -/
structure GoError where
  text : String
  deriving DecidableEq, Repr

/-- The method `WALIterator.Status`.  The native call
`rocksdb_wal_iter_status(iter.it, &cErr)` is a parameter: it leaves `cErr` nil
(`none`) or sets it to an error string.  The value of `errors.New` is built
and dropped; the method ends with `return nil`. -/
def WALIterator.Status {It : Type} (rocksdb_wal_iter_status : It → Option String) (it : It) :
    Option GoError :=
  let cErr := rocksdb_wal_iter_status it
  let _dropped : Option GoError :=
    match cErr with
    | some text => some ⟨text⟩
    | none => none
  none

/-- The computation `numBits - min(24, (numBits/8)*4)` of `NewHyperTree` on
`uint16`, every operation taken modulo `2^16`. -/
def cacheHeightLimitOf (numBits : Nat) : Nat :=
  (numBits + 2 ^ 16 - min16 24 ((numBits / 8) * 4 % 2 ^ 16)) % 2 ^ 16

/-- The two ways in which a method locks the `sync.RWMutex` embedded in
`HyperTree`: `Lock()` for exclusive access and `RLock()` for shared access. -/
inductive LockOp where
  | Lock
  | RLock
  deriving DecidableEq, Repr

/-- The state of a `sync.RWMutex`: the number of readers holding it and whether
a writer holds it. -/
structure RWMutex where
  readers : Nat
  writer : Bool
  deriving DecidableEq, Repr

/-- The acquisition of a `sync.RWMutex` as the Go library documents it (the
lock is held by any number of readers or by a single writer): `Lock` proceeds
when nobody holds the lock, `RLock` when no writer does; `none` is a caller
that blocks. -/
def RWMutex.acquire (m : RWMutex) : LockOp → Option RWMutex
  | .Lock => if m.writer = false ∧ m.readers = 0 then some ⟨0, true⟩ else none
  | .RLock => if m.writer = false then some ⟨m.readers + 1, false⟩ else none

/-- The methods of `HyperTree` in `tree.go` that lock the tree. -/
inductive HyperTreeMethod where
  | Add
  | QueryMembership
  | RebuildCache
  | Close
  deriving DecidableEq, Repr

/-- The lock operation with which each method of `tree.go` starts: every one
of them calls `t.Lock()` (and defers `t.Unlock()`). -/
def HyperTreeMethod.lockOp : HyperTreeMethod → LockOp
  | .Add => .Lock
  | .QueryMembership => .Lock
  | .RebuildCache => .Lock
  | .Close => .Lock

/-! ## The integrity scan of `runServerVerify` (`cmd/server_verify.go`) -/

/-- The inner loop `for j := count; count < index; j++` of `runServerVerify`:
every pass prints `count` as a missing index and increments it (a `uint64`).
The first argument bounds the number of passes; the loop makes
`index - count` of them. -/
def gapLoop : Nat → Nat → Nat → List Nat → Nat × List Nat
  | 0, count, _, printed => (count, printed)
  | fuel + 1, count, index, printed =>
    if count < index then gapLoop fuel ((count + 1) % 2 ^ 64) index (printed ++ [count])
    else (count, printed)

/-- The body of the loop over the entries read: the key is decoded (a key too
short for the slice expressions panics); for an entry of height 0 the gap
loop runs and `count` is incremented once more.  The state is `count` with
the missing indices printed so far. -/
def scanEntry (key : List Nat) (st : Nat × List Nat) : Option (Nat × List Nat) :=
  match decodeHistoryKey key with
  | none => none
  | some (index, height) =>
    if height = 0 then
      let r := gapLoop (index - st.1) st.1 index st.2
      some ((r.1 + 1) % 2 ^ 64, r.2)
    else some st

/-- The loop `for i := 0; i < n; i++` over the keys of one read. -/
def scanEntries : List (List Nat) → Nat × List Nat → Option (Nat × List Nat)
  | [], st => some st
  | key :: rest, st =>
    match scanEntry key st with
    | none => none
    | some st1 => scanEntries rest st1

/-- The loop `for { ... }` over the reads of the table: a read that fails ends
the function with that error, a read of no entry (`n == 0`, also once the
reader is used up) ends the loop. -/
def scanReads : List (Except GoError (List (List Nat))) → Nat × List Nat →
    Option (Except GoError (Nat × List Nat))
  | [], st => some (.ok st)
  | .error err :: _, _ => some (.error err)
  | .ok [] :: _, st => some (.ok st)
  | .ok (key :: keys) :: rest, st =>
    match scanEntries (key :: keys) st with
    | none => none
    | some st1 => scanReads rest st1

/-- What a run of the scan prints and returns: the missing indices, the final
`count`, whether the line `Last index not reached` is printed, and the error
returned (`nil` is `none`). -/
structure ScanReport where
  gaps : List Nat
  count : Nat
  lastNotReached : Bool
  err : Option GoError
  deriving DecidableEq, Repr

/-- The function `runServerVerify` from `count := uint64(0)` on, given the index
of the last key and the results of the successive `reader.Read` calls (the
store is opened and `GetLast` is called before; the store is not among the
embedded sources).  A panic is `none`. -/
def runServerVerify (lastIndex : Nat) (reads : List (Except GoError (List (List Nat)))) :
    Option ScanReport :=
  match scanReads reads (0, []) with
  | none => none
  | some (.error err) => some ⟨[], 0, false, some err⟩
  | some (.ok (count, gaps)) =>
    some ⟨gaps, count, decide ((count + 2 ^ 64 - 1) % 2 ^ 64 ≠ lastIndex), none⟩

/-- The key of the history-table entry `(index, height)`. -/
def historyKey (e : Nat × Nat) : List Nat :=
  Uint64AsBytes e.1 ++ Uint16AsBytes e.2

/-- The indices of the entries of height 0, in the order of the entries. -/
def heightZeroIndices (entries : List (Nat × Nat)) : List Nat :=
  (entries.filter fun e => decide (e.2 = 0)).map Prod.fst

/-! ## The range loop of the consistency checker
(`testutils/consistency-checker/checker.go`) -/

/-- The fields `rangeStart`, `rangeEnd` and `interval` of the type `config`
(all `uint64`). -/
structure CheckerConfig where
  rangeStart : Nat
  rangeEnd : Nat
  interval : Nat
  deriving DecidableEq, Repr

/-- The function `defaultConfig`: the three fields are 0. -/
def defaultConfig : CheckerConfig :=
  ⟨0, 0, 0⟩

/-- The loop `for end := conf.rangeStart; end < conf.rangeEnd; { ... }` of the
checker command, from the value `endIdx` of `end` on; the client call
`qed.Incremental` is a parameter (the error it returns, if any).  A failing
query ends the command with its error; otherwise `end = end + conf.interval`
on `uint64`.  The result is the list of the queries issued and the error
returned (`nil` is `none`).  The first argument bounds the number of passes:
`none` is a loop still running after that many. -/
def checkerLoop (Incremental : Nat → Nat → Option GoError) (conf : CheckerConfig) :
    Nat → Nat → List (Nat × Nat) → Option (List (Nat × Nat) × Option GoError)
  | 0, _, _ => none
  | fuel + 1, endIdx, issued =>
    if endIdx < conf.rangeEnd then
      match Incremental conf.rangeStart endIdx with
      | some err => some (issued ++ [(conf.rangeStart, endIdx)], some err)
      | none =>
        checkerLoop Incremental conf fuel ((endIdx + conf.interval) % 2 ^ 64)
          (issued ++ [(conf.rangeStart, endIdx)])
    else some (issued, none)

/-- The body of the command `checkerCmd` once the client is created: the
range loop from `end := conf.rangeStart` on. -/
def checkerRun (Incremental : Nat → Nat → Option GoError) (conf : CheckerConfig)
    (fuel : Nat) : Option (List (Nat × Nat) × Option GoError) :=
  checkerLoop Incremental conf fuel conf.rangeStart []

/-- The end of a descent on the subtree `node` stored at `pos`: the plan ends
with a `NoOp` on an empty subtree and with a `UseProvided` holding the shortcut
leaf hash on a shortcut, which yields the value when the shortcut holds the
searched key.  A descent does not end on an inner node. -/
def stopsOn (leafHash : Position → List Nat → List Nat → List Nat) (index : List Nat)
    (pos : Position) (node : HyperNode) (op : HyperOp) : Prop :=
  match node with
  | .empty => op = .noOp pos
  | .shortcut key value =>
    op = .getProvidedHash pos (leafHash pos key value) (if key = index then some value else none)
  | .inner _ _ => False

end Qed

/-! # Theorems -/

namespace Qed

/-! ## Hashers -/

theorem xor_foldl_acc (l : List Nat) (acc : Nat) :
    l.foldl (fun sum b => sum ^^^ b) acc = acc ^^^ xorSum l := by
  unfold xorSum
  induction l generalizing acc with
  | nil => simp
  | cons x t ih =>
    simp only [List.foldl_cons]
    rw [ih (acc ^^^ x), ih (0 ^^^ x), Nat.zero_xor, Nat.xor_assoc]

theorem xorSum_append (a b : List Nat) : xorSum (a ++ b) = xorSum a ^^^ xorSum b := by
  unfold xorSum
  rw [List.foldl_append, xor_foldl_acc]
  rfl

theorem xorHasher_foldl_acc (xs : List (List Nat)) (acc : Nat) :
    xs.foldl (fun result elem => result ^^^ xorSum elem) acc = acc ^^^ xorSum xs.flatten := by
  induction xs generalizing acc with
  | nil => simp [xorSum]
  | cons x t ih =>
    simp only [List.foldl_cons, List.flatten_cons]
    rw [ih, xorSum_append, Nat.xor_assoc]

/-- C7: `XorHasher` depends only on the concatenation of its arguments: hashing
the slices `xs` gives the same digest as hashing their concatenation as one
slice, and in particular `XorHasher(a, b) = XorHasher(a || b)`. -/
theorem XorHasher_concat :
    (∀ xs : List (List Nat), XorHasher xs = XorHasher [xs.flatten]) ∧
    (∀ a b : List Nat, XorHasher [a, b] = XorHasher [a ++ b]) := by
  have h : ∀ xs : List (List Nat), XorHasher xs = XorHasher [xs.flatten] := by
    intro xs
    unfold XorHasher
    rw [xorHasher_foldl_acc]
    simp
  refine ⟨h, fun a b => ?_⟩
  rw [h [a, b]]
  simp

/-- C8 fails as stated: two empty slices hash to 210, their concatenation (one
empty slice) hashes to 98. -/
theorem Pearson_concat_counterexample : Pearson [[], []] ≠ Pearson [[] ++ []] := by
  decide

/-- C8 as amended: `Pearson` hashes every argument on its own and then hashes
the resulting bytes, so `Pearson(a, b)` is `T[T[h(a)] ^ h(b)]` with `h` the
table walk over one slice and `T` the table, while `Pearson(a || b)` is
`T[h(a || b)]`, the walk over `b` continued from `h(a)`. -/
theorem Pearson_two_level (a b : List Nat) :
    Pearson [a, b] = [pearsonStep (pearsonStep 0 (pearsonSlice a)) (pearsonSlice b)] ∧
    Pearson [a ++ b] = [pearsonStep 0 (b.foldl pearsonStep (pearsonSlice a))] := by
  constructor
  · rfl
  · simp [Pearson, pearsonSlice, List.foldl_append]

theorem beBytes_length (n v : Nat) : (beBytes n v).length = n := by
  induction n with
  | zero => rfl
  | succ k ih => simp [beBytes, ih]

/-- C9: every hasher returns a digest of fixed width, whatever the number and
the lengths of its arguments: `XorHasher` and `Pearson` return one byte,
`Sha256Hasher` returns 32 bytes. -/
theorem hasher_fixed_width (data : List (List Nat)) :
    (XorHasher data).length = 1 ∧ (Pearson data).length = 1 ∧
    (Sha256Hasher data).length = 32 := by
  refine ⟨rfl, rfl, ?_⟩
  simp [Sha256Hasher, sha256Sum, sha256Digest, beBytes_length]

/-! ## Default hashes -/

theorem defaultHashesLoop_spec (hasher : Hasher) (fuel : Nat) :
    ∀ (i : Nat) (dh : List (List Nat)), 1 ≤ i → dh.length = hasher.Len →
      hasher.Len ≤ i + fuel →
      (∀ k, 1 ≤ k → k < i → k < hasher.Len →
        dh[k]? = some (hasher.Do [dh.getD (k - 1) [], dh.getD (k - 1) []])) →
      (defaultHashesLoop hasher fuel i dh).length = hasher.Len ∧
      (defaultHashesLoop hasher fuel i dh)[0]? = dh[0]? ∧
      ∀ k, 1 ≤ k → k < hasher.Len →
        (defaultHashesLoop hasher fuel i dh)[k]? =
          some (hasher.Do [(defaultHashesLoop hasher fuel i dh).getD (k - 1) [],
            (defaultHashesLoop hasher fuel i dh).getD (k - 1) []]) := by
  induction fuel with
  | zero =>
    intro i dh _ hlen hfuel hinv
    refine ⟨hlen, rfl, fun k hk1 hk => ?_⟩
    exact hinv k hk1 (by omega) hk
  | succ n ih =>
    intro i dh hi hlen hfuel hinv
    unfold defaultHashesLoop
    by_cases hlt : i < hasher.Len
    · rw [if_pos hlt]
      have hstep := ih (i + 1)
        (dh.set i (hasher.Do [dh.getD (i - 1) [], dh.getD (i - 1) []]))
        (by omega) (by simpa using hlen) (by omega) (by
          intro k hk1 hk _
          have hpred : (dh.set i (hasher.Do [dh.getD (i - 1) [], dh.getD (i - 1) []])).getD
              (k - 1) [] = dh.getD (k - 1) [] := by
            simp only [List.getD_eq_getElem?_getD]
            rw [List.getElem?_set_ne (by omega)]
          rw [hpred]
          by_cases hki : k = i
          · subst hki
            rw [List.getElem?_set_self (by omega)]
          · rw [List.getElem?_set_ne (by omega)]
            exact hinv k hk1 (by omega) (by omega))
      refine ⟨hstep.1, ?_, hstep.2.2⟩
      rw [hstep.2.1, List.getElem?_set_ne (by omega)]
    · rw [if_neg hlt]
      refine ⟨hlen, rfl, fun k hk1 hk => ?_⟩
      exact hinv k hk1 (by omega) hk

theorem NewHyperTree_of_init {Ops Cache Loader Mutation : Type}
    (GetRange : List Nat → List Nat → Except Failure (List (List Nat × List Nat)))
    (pruneToRebuild : List Nat → List Nat → Nat → Loader → Option Ops)
    (Interpret : Ops → pruningContext Cache Mutation →
      Option (List Nat × pruningContext Cache Mutation))
    (NewDefaultBatchLoader : Cache → Nat → Loader) (hasher : Hasher) (cache : Cache)
    (t : HyperTree) (hinit : initHyperTree hasher = some t) :
    NewHyperTree GetRange pruneToRebuild Interpret NewDefaultBatchLoader hasher cache =
      (HyperTree.RebuildCache GetRange pruneToRebuild Interpret t cache
        (NewDefaultBatchLoader cache t.cacheHeightLimit)).map (fun warmed => (t, warmed)) := by
  unfold NewHyperTree
  rw [hinit]
  simp only
  cases hwarm : HyperTree.RebuildCache GetRange pruneToRebuild Interpret t cache
    (NewDefaultBatchLoader cache t.cacheHeightLimit) <;> rfl

theorem initHyperTree_eq (hasher : Hasher) (hW : 1 ≤ hasher.Len) :
    initHyperTree hasher = some ⟨hasher,
      (hasher.Len + 2 ^ 16 - min16 24 ((hasher.Len / 8) * 4 % 2 ^ 16)) % 2 ^ 16,
      defaultHashesLoop hasher hasher.Len 1
        ((List.replicate hasher.Len ([] : List Nat)).set 0 (hasher.Do [[0x0], [0x0]]))⟩ := by
  unfold initHyperTree
  simp only [List.length_replicate]
  rw [if_pos (by omega)]

/-- C10: for every hasher whose `Len()` is `W ≥ 1`, and whatever the store and
the cache, `NewHyperTree` builds a tree whose default-hash vector has exactly
`W` entries, with `defaultHashes[0] = H([0x00], [0x00])` and
`defaultHashes[i] = H(defaultHashes[i-1], defaultHashes[i-1])` for `1 ≤ i < W`;
the constructor returns that tree, with the warmed cache, exactly when the
cache warm-up (`RebuildCache`) returns. -/
theorem NewHyperTree_defaultHashes {Ops Cache Loader Mutation : Type}
    (GetRange : List Nat → List Nat → Except Failure (List (List Nat × List Nat)))
    (pruneToRebuild : List Nat → List Nat → Nat → Loader → Option Ops)
    (Interpret : Ops → pruningContext Cache Mutation →
      Option (List Nat × pruningContext Cache Mutation))
    (NewDefaultBatchLoader : Cache → Nat → Loader) (hasher : Hasher) (cache : Cache)
    (hW : 1 ≤ hasher.Len) :
    ∃ t, initHyperTree hasher = some t ∧
      NewHyperTree GetRange pruneToRebuild Interpret NewDefaultBatchLoader hasher cache =
        (HyperTree.RebuildCache GetRange pruneToRebuild Interpret t cache
          (NewDefaultBatchLoader cache t.cacheHeightLimit)).map (fun warmed => (t, warmed)) ∧
      t.defaultHashes.length = hasher.Len ∧
      t.defaultHashes[0]? = some (hasher.Do [[0x0], [0x0]]) ∧
      ∀ i, 1 ≤ i → i < hasher.Len → ∃ prev,
        t.defaultHashes[i - 1]? = some prev ∧
        t.defaultHashes[i]? = some (hasher.Do [prev, prev]) := by
  have hspec := defaultHashesLoop_spec hasher hasher.Len 1
    ((List.replicate hasher.Len ([] : List Nat)).set 0 (hasher.Do [[0x0], [0x0]]))
    (le_refl 1) (by simp) (by omega) (by intro k hk1 hk; omega)
  have hnew := initHyperTree_eq hasher hW
  refine ⟨_, hnew, NewHyperTree_of_init _ _ _ _ hasher cache _ hnew, hspec.1, ?_, ?_⟩
  · rw [hspec.2.1, List.getElem?_set_self (by simpa using hW)]
  · intro i hi1 hi
    have hlt : i - 1 < (defaultHashesLoop hasher hasher.Len 1
        ((List.replicate hasher.Len ([] : List Nat)).set 0
          (hasher.Do [[0x0], [0x0]]))).length := by
      rw [hspec.1]; omega
    refine ⟨_, List.getElem?_eq_getElem hlt, ?_⟩
    rw [hspec.2.2 i hi1 hi, List.getD_eq_getElem _ _ hlt]

/-- On a store whose hyper table is empty the constructor returns the tree of
the XOR hasher at width 8, every default hash being the byte 0: an instance of
`NewHyperTree_defaultHashes`. -/
theorem NewHyperTree_defaultHashes_witness :
    1 ≤ (Hasher.mk XorHasher 8).Len ∧
    NewHyperTree (storeGetRange []) recordRebuild recordInterpret (fun _ _ => ())
        (Hasher.mk XorHasher 8) [] =
      some (⟨⟨XorHasher, 8⟩, 4, List.replicate 8 [0x0]⟩, []) ∧
    ∃ t, initHyperTree (Hasher.mk XorHasher 8) = some t ∧
      NewHyperTree (storeGetRange []) recordRebuild recordInterpret (fun _ _ => ())
          (Hasher.mk XorHasher 8) [] =
        (HyperTree.RebuildCache (storeGetRange []) recordRebuild recordInterpret t []
          ((fun _ _ => ()) ([] : List (List Nat × List Nat × Nat))
            t.cacheHeightLimit)).map (fun warmed => (t, warmed)) ∧
      t.defaultHashes.length = (Hasher.mk XorHasher 8).Len ∧
      t.defaultHashes[0]? = some ((Hasher.mk XorHasher 8).Do [[0x0], [0x0]]) ∧
      ∀ i, 1 ≤ i → i < (Hasher.mk XorHasher 8).Len → ∃ prev,
        t.defaultHashes[i - 1]? = some prev ∧
        t.defaultHashes[i]? = some ((Hasher.mk XorHasher 8).Do [prev, prev]) :=
  ⟨by decide, rfl,
    NewHyperTree_defaultHashes (storeGetRange []) recordRebuild recordInterpret
      (fun _ _ => ()) (Hasher.mk XorHasher 8) [] (by decide)⟩

/-! ## History pruning plans -/

theorem ceilLog2Aux_spec (fuel : Nat) :
    ∀ h n, n ≤ 2 ^ (h + fuel) → (∀ k, k < h → 2 ^ k < n) →
      n ≤ 2 ^ ceilLog2Aux fuel h n ∧ ∀ k, k < ceilLog2Aux fuel h n → 2 ^ k < n := by
  induction fuel with
  | zero => intro h n hle hlt; exact ⟨by simpa using hle, hlt⟩
  | succ f ih =>
    intro h n hle hlt
    unfold ceilLog2Aux
    by_cases hn : n ≤ 2 ^ h
    · rw [if_pos hn]; exact ⟨hn, hlt⟩
    · rw [if_neg hn]
      refine ih (h + 1) n (by rw [Nat.add_assoc, Nat.add_comm 1 f]; exact hle) ?_
      intro k hk
      by_cases hkh : k = h
      · subst hkh; omega
      · exact hlt k (by omega)

theorem rootHeight_spec (version : Nat) :
    version + 1 ≤ 2 ^ rootHeight version ∧
      ∀ k, k < rootHeight version → 2 ^ k < version + 1 := by
  unfold rootHeight
  refine ceilLog2Aux_spec (version + 1) 0 (version + 1) ?_ (by intro k hk; omega)
  rw [Nat.zero_add]
  exact Nat.le_of_lt (Nat.lt_two_pow _)

theorem rootHeight_eq_clog (version : Nat) : rootHeight version = Nat.clog 2 (version + 1) := by
  have hs := rootHeight_spec version
  apply Nat.le_antisymm
  · by_contra hlt
    have h1 := hs.2 (Nat.clog 2 (version + 1)) (by omega)
    have h2 := Nat.le_pow_clog (by decide : 1 < 2) (version + 1)
    omega
  · exact (Nat.le_pow_iff_clog_le (by decide)).1 hs.1

theorem verifyTraverse_off_path (index version : Nat) (d : List Nat) (h i : Nat)
    (hoff : inSpan index i h = false) :
    verifyTraverse index version d h i = .getCache ⟨i, h⟩ := by
  cases h with
  | zero => simp [verifyTraverse, hoff]
  | succ k => simp [verifyTraverse, hoff]

theorem verifyTraverse_shape (index version : Nat) (d : List Nat) (hiv : index ≤ version) :
    ∀ h i, inSpan index i h = true →
      verifyShape index version d ⟨i, h⟩ (verifyTraverse index version d h i) = true ∧
      (verifyTraverse index version d h i).leaves = [.leaf ⟨index, 0⟩ d] := by
  intro h
  induction h with
  | zero =>
    intro i hin
    have hi : i = index := by
      simp [inSpan] at hin; omega
    subst hi
    simp [verifyTraverse, hin, verifyShape, Operation.leaves]
  | succ k ih =>
    intro i hin
    have hin' := hin
    simp only [inSpan, Bool.and_eq_true, decide_eq_true_eq] at hin'
    rw [verifyTraverse, if_pos hin]
    by_cases hpart : version < i + 2 ^ k
    · rw [if_pos hpart]
      have hl : inSpan index i k = true := by
        simp only [inSpan, Bool.and_eq_true, decide_eq_true_eq]; omega
      have := ih i hl
      simp [verifyShape, Operation.leaves, Position.Left, Position.Right, hpart, this]
    · rw [if_neg hpart]
      by_cases hleft : index < i + 2 ^ k
      · have hl : inSpan index i k = true := by
          simp only [inSpan, Bool.and_eq_true, decide_eq_true_eq]; omega
        have hr : inSpan index (i + 2 ^ k) k = false := by
          simp only [inSpan, Bool.and_eq_false_iff, decide_eq_false_iff_not]; omega
        have := ih i hl
        rw [verifyTraverse_off_path index version d k _ hr]
        simp [verifyShape, Operation.leaves, Position.Left, Position.Right, hleft, this]
        omega
      · have hl : inSpan index i k = false := by
          simp only [inSpan, Bool.and_eq_false_iff, decide_eq_false_iff_not]; omega
        have hr : inSpan index (i + 2 ^ k) k = true := by
          simp only [inSpan, Bool.and_eq_true, decide_eq_true_eq]
          rw [Nat.pow_succ] at hin'; omega
        have := ih (i + 2 ^ k) hr
        rw [verifyTraverse_off_path index version d k _ hl]
        simp [verifyShape, Operation.leaves, Position.Left, Position.Right, hleft, this]
        omega

/-- C4: for `index ≤ version`, `PruneToVerify(index, version, d)` is rooted at
`(0, ceil(log2(version+1)))` and follows the path to `(index, 0)`: the child
containing `index` is expanded down to the single leaf `Leaf((index,0), d)`,
the other child is a `GetCache` when it starts at or before `version`, and a
node whose right child starts beyond `version` is a `Partial` over its left
child.  In particular `PruneToVerify(6, 6, 0x06)` is the plan of scenario S6. -/
theorem PruneToVerify_shape (index version : Nat) (d : List Nat) (hiv : index ≤ version) :
    verifyShape index version d ⟨0, Nat.clog 2 (version + 1)⟩
        (PruneToVerify index version d) = true ∧
      (PruneToVerify index version d).leaves = [.leaf ⟨index, 0⟩ d] ∧
      PruneToVerify 6 6 [0x06] =
        .inner ⟨0, 3⟩ (.getCache ⟨0, 2⟩)
          (.inner ⟨4, 2⟩ (.getCache ⟨4, 1⟩)
            (.partialNode ⟨6, 1⟩ (.leaf ⟨6, 0⟩ [0x06]))) := by
  have hroot : inSpan index 0 (rootHeight version) = true := by
    have := (rootHeight_spec version).1
    simp only [inSpan, Bool.and_eq_true, decide_eq_true_eq]; omega
  have hs := verifyTraverse_shape index version d hiv (rootHeight version) 0 hroot
  rw [← rootHeight_eq_clog]
  exact ⟨hs.1, hs.2, by decide⟩

/-- Instance of `PruneToVerify_shape` at `index = 1`, `version = 7`, the last case of
`TestPruneToVerify`. -/
theorem PruneToVerify_shape_witness :
    1 ≤ 7 ∧
    verifyShape 1 7 [0x1] ⟨0, Nat.clog 2 (7 + 1)⟩ (PruneToVerify 1 7 [0x1]) = true ∧
      (PruneToVerify 1 7 [0x1]).leaves = [.leaf ⟨1, 0⟩ [0x1]] ∧
      PruneToVerify 6 6 [0x06] =
        .inner ⟨0, 3⟩ (.getCache ⟨0, 2⟩)
          (.inner ⟨4, 2⟩ (.getCache ⟨4, 1⟩)
            (.partialNode ⟨6, 1⟩ (.leaf ⟨6, 0⟩ [0x06]))) :=
  ⟨by decide, PruneToVerify_shape 1 7 [0x1] (by decide)⟩

/-- The six plans expected by `TestPruneToVerify`. -/
theorem PruneToVerify_test_cases :
    PruneToVerify 0 0 [0x0] = .leaf ⟨0, 0⟩ [0x0] ∧
    PruneToVerify 0 1 [0x0] = .inner ⟨0, 1⟩ (.leaf ⟨0, 0⟩ [0x0]) (.getCache ⟨1, 0⟩) ∧
    PruneToVerify 1 1 [0x1] = .inner ⟨0, 1⟩ (.getCache ⟨0, 0⟩) (.leaf ⟨1, 0⟩ [0x1]) ∧
    PruneToVerify 1 2 [0x1] =
      .inner ⟨0, 2⟩ (.inner ⟨0, 1⟩ (.getCache ⟨0, 0⟩) (.leaf ⟨1, 0⟩ [0x1]))
        (.getCache ⟨2, 1⟩) ∧
    PruneToVerify 6 6 [0x6] =
      .inner ⟨0, 3⟩ (.getCache ⟨0, 2⟩)
        (.inner ⟨4, 2⟩ (.getCache ⟨4, 1⟩) (.partialNode ⟨6, 1⟩ (.leaf ⟨6, 0⟩ [0x6]))) ∧
    PruneToVerify 1 7 [0x1] =
      .inner ⟨0, 3⟩
        (.inner ⟨0, 2⟩ (.inner ⟨0, 1⟩ (.getCache ⟨0, 0⟩) (.leaf ⟨1, 0⟩ [0x1]))
          (.getCache ⟨2, 1⟩))
        (.getCache ⟨4, 2⟩) := by
  decide

theorem incrementalEndTraverse_shape (start endIdx : Nat) :
    ∀ h i, incrementalEndShape start endIdx ⟨i, h⟩
        (incrementalEndTraverse start endIdx h i) = true ∧
      (incrementalEndTraverse start endIdx h i).leaves = [] := by
  intro h
  induction h with
  | zero => intro i; simp [incrementalEndTraverse, incrementalEndShape, Operation.leaves]
  | succ k ih =>
    intro i
    rw [incrementalEndTraverse]
    by_cases hon : (inSpan start i (k + 1) || inSpan endIdx i (k + 1)) = true
    · rw [if_pos hon]
      by_cases hpart : endIdx < i + 2 ^ k
      · rw [if_pos hpart]
        simp [incrementalEndShape, Operation.leaves, Position.Left, Position.Right, hpart,
          ih i]
        simpa using hon
      · rw [if_neg hpart]
        simp [incrementalEndShape, Operation.leaves, Position.Left, Position.Right,
          ih i, ih (i + 2 ^ k)]
        refine ⟨by simpa using hon, by omega⟩
    · rw [if_neg hon]
      simp only [Bool.not_eq_true] at hon
      simp [incrementalEndShape, Operation.leaves, hon]

theorem incrementalEndTraverse_reaches (start endIdx t : Nat)
    (ht : t = start ∨ t = endIdx) (hte : t ≤ endIdx) :
    ∀ h i, inSpan t i h = true →
      Operation.getCache ⟨t, 0⟩ ∈ (incrementalEndTraverse start endIdx h i).subOps := by
  intro h
  induction h with
  | zero =>
    intro i hin
    have hi : i = t := by simp [inSpan] at hin; omega
    subst hi
    simp [incrementalEndTraverse, Operation.subOps]
  | succ k ih =>
    intro i hin
    have hon : (inSpan start i (k + 1) || inSpan endIdx i (k + 1)) = true := by
      rcases ht with h1 | h1 <;> subst h1 <;> simp [hin]
    simp only [inSpan, Bool.and_eq_true, decide_eq_true_eq] at hin
    rw [incrementalEndTraverse, if_pos hon]
    by_cases hpart : endIdx < i + 2 ^ k
    · rw [if_pos hpart]
      have hl : inSpan t i k = true := by
        simp only [inSpan, Bool.and_eq_true, decide_eq_true_eq]; omega
      simp [Operation.subOps, ih i hl]
    · rw [if_neg hpart]
      by_cases hleft : t < i + 2 ^ k
      · have hl : inSpan t i k = true := by
          simp only [inSpan, Bool.and_eq_true, decide_eq_true_eq]; omega
        simp [Operation.subOps, ih i hl]
      · have hr : inSpan t (i + 2 ^ k) k = true := by
          simp only [inSpan, Bool.and_eq_true, decide_eq_true_eq]
          rw [Nat.pow_succ] at hin; omega
        simp [Operation.subOps, ih (i + 2 ^ k) hr]

/-- C6: for `start ≤ end`, `PruneToVerifyIncrementalEnd(start, end)` is rooted
at `(0, ceil(log2(end+1)))` and contains no `Leaf`; nodes above height 0 that
contain `start` or `end` are expanded, as `Partial` exactly when their right
child starts beyond `end`, every other node is a single `GetCache`, and both
`(start, 0)` and `(end, 0)` are reached and end in a `GetCache`.  The eight
plans of the test (`start = 0`, `end = 0..7`) are produced. -/
theorem PruneToVerifyIncrementalEnd_shape (start endIdx : Nat) (hse : start ≤ endIdx) :
    incrementalEndShape start endIdx ⟨0, Nat.clog 2 (endIdx + 1)⟩
        (PruneToVerifyIncrementalEnd start endIdx) = true ∧
      (PruneToVerifyIncrementalEnd start endIdx).leaves = [] ∧
      Operation.getCache ⟨start, 0⟩ ∈ (PruneToVerifyIncrementalEnd start endIdx).subOps ∧
      Operation.getCache ⟨endIdx, 0⟩ ∈ (PruneToVerifyIncrementalEnd start endIdx).subOps ∧
      ∀ c ∈ incrementalEndTestCases, PruneToVerifyIncrementalEnd c.1 c.2.1 = c.2.2 := by
  have hs := incrementalEndTraverse_shape start endIdx (rootHeight endIdx) 0
  have hspan : ∀ t, t ≤ endIdx → inSpan t 0 (rootHeight endIdx) = true := by
    intro t ht
    have := (rootHeight_spec endIdx).1
    simp only [inSpan, Bool.and_eq_true, decide_eq_true_eq]; omega
  rw [← rootHeight_eq_clog]
  refine ⟨hs.1, hs.2, ?_, ?_, by decide⟩
  · exact incrementalEndTraverse_reaches start endIdx start (Or.inl rfl) hse _ _ (hspan _ hse)
  · exact incrementalEndTraverse_reaches start endIdx endIdx (Or.inr rfl) (le_refl _) _ _
      (hspan _ (le_refl _))

/-- Instance of `PruneToVerifyIncrementalEnd_shape` at `start = 2`, `end = 6`, the pair of
versions of scenario S4. -/
theorem PruneToVerifyIncrementalEnd_shape_witness :
    2 ≤ 6 ∧
    incrementalEndShape 2 6 ⟨0, Nat.clog 2 (6 + 1)⟩ (PruneToVerifyIncrementalEnd 2 6) = true ∧
      (PruneToVerifyIncrementalEnd 2 6).leaves = [] ∧
      Operation.getCache ⟨2, 0⟩ ∈ (PruneToVerifyIncrementalEnd 2 6).subOps ∧
      Operation.getCache ⟨6, 0⟩ ∈ (PruneToVerifyIncrementalEnd 2 6).subOps ∧
      ∀ c ∈ incrementalEndTestCases, PruneToVerifyIncrementalEnd c.1 c.2.1 = c.2.2 :=
  ⟨by decide, PruneToVerifyIncrementalEnd_shape 2 6 (by decide)⟩

/-! ## Hyper search plans -/

/-- The seven plans expected by `TestPruneToFind`. -/
theorem PruneToFind_test_cases :
    ∀ c ∈ pruneToFindTestCases,
      (PruneToFind c.1 (NewFakeBatchLoader 1 c.2.1 c.2.2.1 4)).ListOps = c.2.2.2 := by
  decide!

/-- The seven audit paths expected by `TestSearchInterpretation`. -/
theorem SearchInterpretation_test_cases :
    ∀ c ∈ searchInterpretationTestCases, searchAuditPath c.1 c.2.1 c.2.2.1 = c.2.2.2 := by
  decide!

theorem bytesToNat_foldl_lt (b : List Nat) :
    ∀ acc, b.foldl (fun acc x => acc * 256 + x % 256) acc < (acc + 1) * 256 ^ b.length := by
  induction b with
  | nil => intro acc; simp
  | cons x t ih =>
    intro acc
    simp only [List.foldl_cons, List.length_cons]
    have h1 := ih (acc * 256 + x % 256)
    have h2 : x % 256 < 256 := Nat.mod_lt _ (by decide)
    have h3 : (acc * 256 + x % 256 + 1) * 256 ^ t.length ≤ (acc + 1) * 256 ^ (t.length + 1) := by
      have e : (acc + 1) * 256 ^ (t.length + 1) = ((acc + 1) * 256) * 256 ^ t.length := by
        rw [Nat.pow_succ, Nat.mul_assoc, Nat.mul_comm (256 ^ t.length) 256]
      rw [e]
      apply Nat.mul_le_mul_right
      omega
    omega

theorem bytesToNat_lt (b : List Nat) : bytesToNat b < 2 ^ (8 * b.length) := by
  have h := bytesToNat_foldl_lt b 0
  rw [Nat.pow_mul]
  simpa [bytesToNat] using h

theorem ancestor_eq (key idx h : Nat) (hdvd : 2 ^ h ∣ idx) (hlo : idx ≤ key)
    (hhi : key < idx + 2 ^ h) : key / 2 ^ h * 2 ^ h = idx := by
  obtain ⟨m, rfl⟩ := hdvd
  have : key / 2 ^ h = m := by
    apply Nat.div_eq_of_lt_le
    · rw [Nat.mul_comm]; exact hlo
    · rw [Nat.add_mul, Nat.one_mul, Nat.mul_comm]; exact hhi
  rw [this, Nat.mul_comm]

theorem AuditPath.insert_fresh (a : AuditPath) (pos : Position) (hash : List Nat)
    (hfresh : pos ∉ a.positions) :
    (a.insert pos hash).positions = a.positions ++ [pos] := by
  induction a with
  | nil => rfl
  | cons x t ih =>
    obtain ⟨p, h⟩ := x
    simp only [AuditPath.positions, List.map_cons, List.mem_cons, not_or] at hfresh
    have hne : ¬ p = pos := fun e => hfresh.1 e.symm
    simp only [AuditPath.insert, if_neg hne, AuditPath.positions, List.map_cons,
      List.cons_append, List.cons.injEq, true_and]
    exact ih hfresh.2

theorem discardBranch_interpret (pos : Position) (batch : BatchNode) (i : Nat) (ctx : Context) :
    ((discardBranch pos batch i).Interpret ctx).2 = ctx := by
  unfold discardBranch
  split <;> rfl

theorem findTraverse_cases (loader : Position → BatchNode) (index : List Nat)
    (h idx : Nat) (batch : BatchNode) (iBatch : Nat) :
    findTraverse loader index h idx batch iBatch = .noOp ⟨idx, h⟩ ∨
    (∃ hash found, findTraverse loader index h idx batch iBatch =
      .getProvidedHash ⟨idx, h⟩ hash found) ∨
    (∃ k b i, h = k + 1 ∧ bytesToNat index < idx + 2 ^ k ∧
      findTraverse loader index h idx batch iBatch =
        .innerHash ⟨idx, k + 1⟩ (findTraverse loader index k idx b (2 * i + 1))
          (.collectHash ⟨idx + 2 ^ k, k⟩ (discardBranch ⟨idx + 2 ^ k, k⟩ b (2 * i + 2)))) ∨
    (∃ k b i, h = k + 1 ∧ ¬ bytesToNat index < idx + 2 ^ k ∧
      findTraverse loader index h idx batch iBatch =
        .innerHash ⟨idx, k + 1⟩
          (.collectHash ⟨idx, k⟩ (discardBranch ⟨idx, k⟩ b (2 * i + 1)))
          (findTraverse loader index k (idx + 2 ^ k) b (2 * i + 2))) := by
  generalize hf : findTraverse loader index h idx batch iBatch = f
  cases h with
  | zero =>
    unfold findTraverse at hf
    simp only [] at hf
    generalize enterBatch loader ⟨idx, 0⟩ batch iBatch = e at hf
    by_cases h1 : batch.HasElementAt iBatch = false
    · left; rw [if_pos h1] at hf; exact hf.symm
    · rw [if_neg h1] at hf
      by_cases h2 : e.1.HasElementAt e.2 = false
      · left; rw [if_pos h2] at hf; exact hf.symm
      · rw [if_neg h2] at hf
        right; left
        by_cases h3 : e.1.HasLeafAt e.2 = true
        · rw [if_pos h3] at hf; exact ⟨_, _, hf.symm⟩
        · rw [if_neg h3] at hf; exact ⟨_, _, hf.symm⟩
  | succ k =>
    rw [findTraverse] at hf
    simp only [] at hf
    generalize enterBatch loader ⟨idx, k + 1⟩ batch iBatch = e at hf
    by_cases h1 : batch.HasElementAt iBatch = false
    · left; rw [if_pos h1] at hf; exact hf.symm
    · rw [if_neg h1] at hf
      by_cases h2 : e.1.HasElementAt e.2 = false
      · left; rw [if_pos h2] at hf; exact hf.symm
      · rw [if_neg h2] at hf
        right
        by_cases h3 : e.1.HasLeafAt e.2 = true
        · left; rw [if_pos h3] at hf; exact ⟨_, _, hf.symm⟩
        · rw [if_neg h3] at hf
          right
          by_cases h4 : bytesToNat index < idx + 2 ^ k
          · left; rw [if_pos h4] at hf; exact ⟨k, e.1, e.2, rfl, h4, hf.symm⟩
          · right; rw [if_neg h4] at hf; exact ⟨k, e.1, e.2, rfl, h4, hf.symm⟩

theorem Interpret_inner_snd (p : Position) (l r : HyperOp) (ctx : Context) :
    ((HyperOp.innerHash p l r).Interpret ctx).2 = (l.Interpret (r.Interpret ctx).2).2 := rfl

theorem Interpret_collect_positions (p : Position) (c : HyperOp) (ctx : Context) :
    ((HyperOp.collectHash p c).Interpret ctx).2.AuditPath =
      (c.Interpret ctx).2.AuditPath.insert p (c.Interpret ctx).1 := rfl

theorem Interpret_provided_path (p : Position) (hash : List Nat) (found : Option (List Nat))
    (ctx : Context) :
    ((HyperOp.getProvidedHash p hash found).Interpret ctx).2.AuditPath = ctx.AuditPath := by
  cases found <;> rfl

theorem stop_inner_of_ne (p : Position) (l r : HyperOp)
    (hr : ∀ q c, r ≠ .collectHash q c) : (HyperOp.innerHash p l r).stop = r.stop := by
  cases r with
  | collectHash q c => exact absurd rfl (hr q c)
  | _ => simp [HyperOp.stop]

theorem stop_inner_collect (p q : Position) (l c : HyperOp) :
    (HyperOp.innerHash p l (.collectHash q c)).stop = l.stop := by
  simp [HyperOp.stop]

theorem descentSiblings_nil (key h s : Nat) (hs : h ≤ s) : descentSiblings key h s = [] := by
  cases h with
  | zero => rfl
  | succ k => simp [descentSiblings, hs]

theorem descentSiblings_height (key : Nat) :
    ∀ h s, ∀ p ∈ descentSiblings key h s, p.height < h := by
  intro h
  induction h with
  | zero => intro s p hp; simp [descentSiblings] at hp
  | succ k ih =>
    intro s p hp
    unfold descentSiblings at hp
    split at hp
    · simp at hp
    · rcases List.mem_cons.1 hp with hp | hp
      · subst hp
        unfold keySibling
        simp only []
        split <;> simp
      · have := ih s p hp
        omega

theorem findTraverse_ne_collect (loader : Position → BatchNode) (index : List Nat)
    (h idx : Nat) (batch : BatchNode) (iBatch : Nat) (p : Position) (c : HyperOp) :
    findTraverse loader index h idx batch iBatch ≠ .collectHash p c := by
  rcases findTraverse_cases loader index h idx batch iBatch with
    h1 | ⟨_, _, h1⟩ | ⟨_, _, _, _, _, h1⟩ | ⟨_, _, _, _, _, h1⟩ <;> rw [h1] <;> simp

theorem findTraverse_collects (loader : Position → BatchNode) (index : List Nat) :
    ∀ (h idx : Nat) (batch : BatchNode) (iBatch : Nat) (ctx : Context),
      2 ^ h ∣ idx → idx ≤ bytesToNat index → bytesToNat index < idx + 2 ^ h →
      (∀ p ∈ ctx.AuditPath.positions, h ≤ p.height) →
      ∃ s, s ≤ h ∧
        endsAt (findTraverse loader index h idx batch iBatch).stop (bytesToNat index) s ∧
        List.Perm ((findTraverse loader index h idx batch iBatch).Interpret ctx).2.AuditPath.positions
          (ctx.AuditPath.positions ++ descentSiblings (bytesToNat index) h s) := by
  intro h
  induction h with
  | zero =>
    intro idx batch iBatch ctx hdvd hlo hhi _
    refine ⟨0, le_refl 0, ?_, ?_⟩
    · unfold endsAt
      rw [ancestor_eq _ idx 0 hdvd hlo hhi]
      rcases findTraverse_cases loader index 0 idx batch iBatch with
        h1 | ⟨_, _, h1⟩ | ⟨k, _, _, hk, _⟩ | ⟨k, _, _, hk, _⟩
      · rw [h1]; exact Or.inl rfl
      · rw [h1]; exact Or.inr ⟨_, _, rfl⟩
      · omega
      · omega
    · rw [descentSiblings_nil _ 0 0 (le_refl 0), List.append_nil]
      rcases findTraverse_cases loader index 0 idx batch iBatch with
        h1 | ⟨_, _, h1⟩ | ⟨k, _, _, hk, _⟩ | ⟨k, _, _, hk, _⟩
      · rw [h1]; exact List.Perm.refl _
      · rw [h1, Interpret_provided_path]
      · omega
      · omega
  | succ n ih =>
    intro idx batch iBatch ctx hdvd hlo hhi hctx
    have hanc := ancestor_eq _ idx (n + 1) hdvd hlo hhi
    rcases findTraverse_cases loader index (n + 1) idx batch iBatch with
      h1 | ⟨_, _, h1⟩ | ⟨k, b, i, hk, hlt, h1⟩ | ⟨k, b, i, hk, hge, h1⟩
    · refine ⟨n + 1, le_refl _, ?_, ?_⟩
      · unfold endsAt; rw [h1, hanc]; exact Or.inl rfl
      · rw [h1, descentSiblings_nil _ _ _ (le_refl _), List.append_nil]
        exact List.Perm.refl _
    · refine ⟨n + 1, le_refl _, ?_, ?_⟩
      · unfold endsAt; rw [h1, hanc]; exact Or.inr ⟨_, _, rfl⟩
      · rw [h1, descentSiblings_nil _ _ _ (le_refl _), List.append_nil,
          Interpret_provided_path]
    · have hkn : k = n := by omega
      subst hkn
      have hsib : keySibling (bytesToNat index) k = ⟨idx + 2 ^ k, k⟩ := by
        unfold keySibling
        simp only [hanc]
        rw [if_pos hlt]
      have hdvd' : 2 ^ k ∣ idx := Dvd.dvd.trans ⟨2, by rw [Nat.pow_succ]⟩ hdvd
      have hfresh : (⟨idx + 2 ^ k, k⟩ : Position) ∉ ctx.AuditPath.positions := by
        intro hmem
        have := hctx _ hmem
        simp at this
      obtain ⟨s, hs, hstop, hperm⟩ := ih idx b (2 * i + 1)
        ((HyperOp.collectHash ⟨idx + 2 ^ k, k⟩
          (discardBranch ⟨idx + 2 ^ k, k⟩ b (2 * i + 2))).Interpret ctx).2
        hdvd' hlo hlt (by
          intro p hp
          rw [Interpret_collect_positions, discardBranch_interpret,
            AuditPath.insert_fresh _ _ _ hfresh] at hp
          rcases List.mem_append.1 hp with hp | hp
          · have := hctx p hp; omega
          · simp at hp; subst hp; exact le_refl _)
      refine ⟨s, by omega, ?_, ?_⟩
      · rw [h1, stop_inner_collect]; exact hstop
      · rw [h1, Interpret_inner_snd]
        refine hperm.trans ?_
        rw [Interpret_collect_positions, discardBranch_interpret,
          AuditPath.insert_fresh _ _ _ hfresh]
        have hds : descentSiblings (bytesToNat index) (k + 1) s =
            ⟨idx + 2 ^ k, k⟩ :: descentSiblings (bytesToNat index) k s := by
          rw [descentSiblings, if_neg (by omega), hsib]
        rw [hds, List.append_assoc]
        exact List.Perm.refl _
    · have hkn : k = n := by omega
      subst hkn
      have hsib : keySibling (bytesToNat index) k = ⟨idx, k⟩ := by
        unfold keySibling
        simp only [hanc]
        rw [if_neg hge]
      have hdvd' : 2 ^ k ∣ idx + 2 ^ k :=
        Dvd.dvd.add (Dvd.dvd.trans ⟨2, by rw [Nat.pow_succ]⟩ hdvd) (dvd_refl _)
      obtain ⟨s, hs, hstop, hperm⟩ := ih (idx + 2 ^ k) b (2 * i + 2) ctx hdvd' (by omega)
        (by rw [Nat.pow_succ] at hhi; omega)
        (by intro p hp; have := hctx p hp; omega)
      have hfresh : (⟨idx, k⟩ : Position) ∉
          ((findTraverse loader index k (idx + 2 ^ k) b (2 * i + 2)).Interpret
            ctx).2.AuditPath.positions := by
        intro hmem
        rcases List.mem_append.1 (hperm.subset hmem) with hp | hp
        · have := hctx _ hp; simp at this
        · have := descentSiblings_height _ _ _ _ hp; simp at this
      refine ⟨s, by omega, ?_, ?_⟩
      · rw [h1, stop_inner_of_ne _ _ _ (findTraverse_ne_collect _ _ _ _ _ _)]
        exact hstop
      · rw [h1, Interpret_inner_snd, Interpret_collect_positions, discardBranch_interpret,
          AuditPath.insert_fresh _ _ _ hfresh]
        have hds : descentSiblings (bytesToNat index) (k + 1) s =
            ⟨idx, k⟩ :: descentSiblings (bytesToNat index) k s := by
          rw [descentSiblings, if_neg (by omega), hsib]
        rw [hds]
        refine (List.Perm.append_right _ hperm).trans ?_
        rw [List.append_assoc]
        exact List.Perm.append_left _ (List.perm_append_singleton _ _)

/-! ## The hyper tree: batches and nodes -/

theorem path_slot (p : List Bool) (hp : p.length ≤ 4) :
    slotOfPath 0 p < 31 ∧ pathOfSlot 5 (slotOfPath 0 p) = p ∧ (slotOfPath 0 p = 0 ↔ p = []) := by
  rcases p with _ | ⟨b1, _ | ⟨b2, _ | ⟨b3, _ | ⟨b4, _ | ⟨b5, rest⟩⟩⟩⟩⟩
  · decide
  · cases b1 <;> decide
  · cases b1 <;> cases b2 <;> decide
  · cases b1 <;> cases b2 <;> cases b3 <;> decide
  · cases b1 <;> cases b2 <;> cases b3 <;> cases b4 <;> decide
  · simp at hp

theorem slotOfPath_append (i : Nat) (p q : List Bool) :
    slotOfPath i (p ++ q) = slotOfPath (slotOfPath i p) q := by
  simp [slotOfPath, List.foldl_append]

theorem subtreeAt_self (h idx : Nat) (node : HyperNode) :
    subtreeAt ⟨idx, h⟩ h idx node = node := by
  cases h with
  | zero => simp [subtreeAt]
  | succ k => simp [subtreeAt]

theorem subtreeAt_above (target : Position) :
    ∀ (H I : Nat) (node : HyperNode), H < target.height →
      subtreeAt target H I node = .empty := by
  intro H
  induction H with
  | zero =>
    intro I node hlt
    have : target ≠ ⟨I, 0⟩ := by
      intro e; rw [e] at hlt; simp at hlt
    simp [subtreeAt, this]
  | succ H' ih =>
    intro I node hlt
    rw [subtreeAt, if_neg (by omega)]
    split
    · exact ih _ _ (by omega)
    · exact ih _ _ (by omega)

theorem grid_step (idx I k H' : Nat) (hdvd : 2 ^ (k + 1) ∣ idx) (hI : 2 ^ (H' + 1) ∣ I)
    (hk : k + 1 ≤ H') (hlt : idx < I + 2 ^ H') : idx + 2 ^ k < I + 2 ^ H' := by
  have h1 : 2 ^ (k + 1) ∣ 2 ^ H' := Nat.pow_dvd_pow 2 hk
  have h2 : 2 ^ (k + 1) ∣ I :=
    Dvd.dvd.trans (Nat.pow_dvd_pow 2 (by omega)) hI
  obtain ⟨a, ha⟩ := hdvd
  obtain ⟨b, hb⟩ := Dvd.dvd.add h2 h1
  rw [ha, hb] at hlt
  have hab : a < b := Nat.lt_of_mul_lt_mul_left hlt
  have h3 : 2 ^ (k + 1) * (a + 1) ≤ 2 ^ (k + 1) * b := Nat.mul_le_mul_left _ hab
  have h4 : 2 ^ k < 2 ^ (k + 1) := Nat.pow_lt_pow_right (by decide) (by omega)
  rw [ha, hb]
  rw [Nat.mul_add, Nat.mul_one] at h3
  omega

theorem subtreeAt_child (idx k : Nat) (l r : HyperNode) (hdvd : 2 ^ (k + 1) ∣ idx) :
    ∀ (H I : Nat) (node : HyperNode), 2 ^ H ∣ I →
      subtreeAt ⟨idx, k + 1⟩ H I node = .inner l r →
      subtreeAt ⟨idx, k⟩ H I node = l ∧ subtreeAt ⟨idx + 2 ^ k, k⟩ H I node = r := by
  intro H
  induction H with
  | zero =>
    intro I node _ hsub
    simp [subtreeAt] at hsub
  | succ H' ih =>
    intro I node hI hsub
    have hkH : k + 1 ≤ H' + 1 := by
      by_contra hcon
      rw [subtreeAt_above _ _ _ _ (by simp; omega)] at hsub
      exact HyperNode.noConfusion hsub
    rw [subtreeAt] at hsub
    have hpos := Nat.two_pow_pos k
    by_cases hk : k + 1 = H' + 1
    · have hkH : k = H' := by omega
      subst hkH
      simp only [if_true] at hsub
      by_cases hidx : idx = I
      · subst hidx
        simp only [if_true] at hsub
        subst hsub
        constructor
        · rw [subtreeAt, if_neg (by simp), if_pos (by simp)]
          exact subtreeAt_self k idx l
        · rw [subtreeAt, if_neg (by simp), if_neg (by simp)]
          exact subtreeAt_self k (idx + 2 ^ k) r
      · simp [hidx] at hsub
    · simp only [hk, if_false] at hsub
      have hk' : k + 1 ≤ H' := by omega
      have hI' : 2 ^ H' ∣ I := Dvd.dvd.trans (Nat.pow_dvd_pow 2 (by omega)) hI
      by_cases hlt : idx < I + 2 ^ H'
      · rw [if_pos hlt] at hsub
        have := ih I node.left hI' hsub
        have hlt' := grid_step idx I k H' hdvd hI hk' hlt
        constructor
        · rw [subtreeAt, if_neg (by simp; omega), if_pos (by simpa using hlt)]
          exact this.1
        · rw [subtreeAt, if_neg (by simp; omega), if_pos (by simp; omega)]
          exact this.2
      · rw [if_neg hlt] at hsub
        have := ih (I + 2 ^ H') node.right (Dvd.dvd.add hI' (dvd_refl _)) hsub
        constructor
        · rw [subtreeAt, if_neg (by simp; omega), if_neg (by simpa using hlt)]
          exact this.1
        · rw [subtreeAt, if_neg (by simp; omega), if_neg (by simp; omega)]
          exact this.2
theorem discardBranch_eq_siblingOp (t : HyperTree)
    (leafHash : Position → List Nat → List Nat → List Nat) (b1 : BatchNode) (slot d : Nat)
    (pos : Position) (r : HyperNode)
    (hentry : b1 slot = slotEntry t leafHash pos.height pos.index d r []) :
    discardBranch pos b1 slot = siblingOp t leafHash pos r := by
  cases r with
  | empty =>
    simp [discardBranch, BatchNode.HasElementAt, hentry, slotEntry, siblingOp]
  | shortcut key value =>
    simp [discardBranch, BatchNode.HasElementAt, BatchNode.GetElementAt, hentry, slotEntry,
      siblingOp, hyperHash]
  | inner l r =>
    simp [discardBranch, BatchNode.HasElementAt, BatchNode.GetElementAt, hentry, slotEntry,
      siblingOp]

theorem batchAt_agree (t : HyperTree) (leafHash : Position → List Nat → List Nat → List Nat)
    (W : Nat) (root : HyperNode) (pos : Position) (q : List Bool) (hq : q.length ≤ 4) :
    batchAt t leafHash W root pos (slotOfPath 0 q) =
      slotEntry t leafHash pos.height pos.index 0 (subtreeAt pos W 0 root) q := by
  have h := path_slot q hq
  simp [batchAt, h.1, h.2.1]

theorem enterBatch_spec (t : HyperTree) (leafHash : Position → List Nat → List Nat → List Nat)
    (W : Nat) (root : HyperNode) (h idx : Nat) (sub : HyperNode) (batch : BatchNode)
    (p : List Bool) (hp : p.length ≤ 4) (hmod : (h + p.length) % 4 = 0)
    (hsub : subtreeAt ⟨idx, h⟩ W 0 root = sub)
    (hagree : ∀ q, p.length + q.length ≤ 4 →
      batch (slotOfPath 0 (p ++ q)) = slotEntry t leafHash h idx p.length sub q) :
    ∃ (b1 : BatchNode) (p1 : List Bool),
      enterBatch (batchAt t leafHash W root) ⟨idx, h⟩ batch (slotOfPath 0 p) =
        (b1, slotOfPath 0 p1) ∧
      p1.length < 4 ∧ (h + p1.length) % 4 = 0 ∧
      ∀ q, p1.length + q.length ≤ 4 →
        b1 (slotOfPath 0 (p1 ++ q)) = slotEntry t leafHash h idx p1.length sub q := by
  have hps := path_slot p hp
  by_cases h4 : p.length = 4
  · refine ⟨batchAt t leafHash W root ⟨idx, h⟩, [], ?_, by simp, ?_, ?_⟩
    · have hne : p ≠ [] := by intro e; rw [e] at h4; simp at h4
      have hpos : 0 < slotOfPath 0 p := by
        have := hps.2.2
        rcases Nat.eq_zero_or_pos (slotOfPath 0 p) with h0 | h0
        · exact absurd (this.1 h0) hne
        · exact h0
      have hm : h % 4 = 0 := by omega
      have hc : 0 < slotOfPath 0 p ∧ (⟨idx, h⟩ : Position).height % 4 = 0 := ⟨hpos, hm⟩
      rw [enterBatch, if_pos hc]
      rfl
    · simp; omega
    · intro q hq
      have := batchAt_agree t leafHash W root ⟨idx, h⟩ q (by simpa using hq)
      simpa [hsub] using this
  · refine ⟨batch, p, ?_, by omega, hmod, hagree⟩
    have : ¬ (0 < slotOfPath 0 p ∧ (⟨idx, h⟩ : Position).height % 4 = 0) := by
      intro ⟨hpos, hm⟩
      have hne : p ≠ [] := by
        intro e; rw [e] at hpos; simp [slotOfPath] at hpos
      have hlen : 0 < p.length := List.length_pos.2 hne
      simp only [] at hm
      omega
    rw [enterBatch, if_neg this]
theorem findTraverse_eq_treeFind (t : HyperTree)
    (leafHash : Position → List Nat → List Nat → List Nat) (index : List Nat) (W : Nat)
    (root : HyperNode) :
    ∀ (h idx : Nat) (sub : HyperNode) (batch : BatchNode) (p : List Bool),
      p.length ≤ 4 → (h + p.length) % 4 = 0 → 2 ^ h ∣ idx →
      subtreeAt ⟨idx, h⟩ W 0 root = sub →
      (∀ q, p.length + q.length ≤ 4 →
        batch (slotOfPath 0 (p ++ q)) = slotEntry t leafHash h idx p.length sub q) →
      findTraverse (batchAt t leafHash W root) index h idx batch (slotOfPath 0 p) =
        treeFind t leafHash index h idx sub := by
  intro h
  induction h with
  | zero =>
    intro idx sub batch p hp hmod hdvd hsub hagree
    obtain ⟨b1, p1, he, hp1, hmod1, hagree1⟩ :=
      enterBatch_spec t leafHash W root 0 idx sub batch p hp hmod hsub hagree
    have h0 := hagree [] (by simpa using hp)
    have h1 := hagree1 [] (by simp; omega)
    rw [List.append_nil] at h0 h1
    rw [findTraverse]
    simp only [he]
    cases sub with
    | empty => simp [BatchNode.HasElementAt, h0, slotEntry, treeFind]
    | shortcut key value =>
      have hk := hagree1 [false] (by simp; omega)
      have hv := hagree1 [true] (by simp; omega)
      rw [slotOfPath_append] at hk hv
      have hk' : b1 (2 * slotOfPath 0 p1 + 1) = some ⟨key, 2⟩ := by
        simpa [slotOfPath, slotEntry, hp1] using hk
      have hv' : b1 (2 * slotOfPath 0 p1 + 2) = some ⟨value, 2⟩ := by
        simpa [slotOfPath, slotEntry, hp1] using hv
      have hne : p1.length ≠ 4 := by omega
      simp [BatchNode.HasElementAt, BatchNode.HasLeafAt, BatchNode.GetElementAt,
        BatchNode.GetLeafKVAt, h0, h1, hk', hv', slotEntry, treeFind, hne]
    | inner l r =>
      simp [BatchNode.HasElementAt, BatchNode.HasLeafAt, BatchNode.GetElementAt,
        h0, h1, slotEntry, treeFind]
  | succ k ih =>
    intro idx sub batch p hp hmod hdvd hsub hagree
    obtain ⟨b1, p1, he, hp1, hmod1, hagree1⟩ :=
      enterBatch_spec t leafHash W root (k + 1) idx sub batch p hp hmod hsub hagree
    have h0 := hagree [] (by simpa using hp)
    have h1 := hagree1 [] (by simp; omega)
    rw [List.append_nil] at h0 h1
    rw [findTraverse]
    simp only [he]
    cases sub with
    | empty => simp [BatchNode.HasElementAt, h0, slotEntry, treeFind]
    | shortcut key value =>
      have hk := hagree1 [false] (by simp; omega)
      have hv := hagree1 [true] (by simp; omega)
      rw [slotOfPath_append] at hk hv
      have hk' : b1 (2 * slotOfPath 0 p1 + 1) = some ⟨key, 2⟩ := by
        simpa [slotOfPath, slotEntry, hp1] using hk
      have hv' : b1 (2 * slotOfPath 0 p1 + 2) = some ⟨value, 2⟩ := by
        simpa [slotOfPath, slotEntry, hp1] using hv
      have hne : p1.length ≠ 4 := by omega
      simp [BatchNode.HasElementAt, BatchNode.HasLeafAt, BatchNode.GetElementAt,
        BatchNode.GetLeafKVAt, h0, h1, hk', hv', slotEntry, treeFind, hne]
    | inner l r =>
      have hch := subtreeAt_child idx k l r hdvd W 0 root (dvd_zero _) hsub
      have hdl : 2 ^ k ∣ idx := Dvd.dvd.trans ⟨2, by rw [Nat.pow_succ]⟩ hdvd
      have hdr : 2 ^ k ∣ idx + 2 ^ k := Dvd.dvd.add hdl (dvd_refl _)
      have hsl : 2 * slotOfPath 0 p1 + 1 = slotOfPath 0 (p1 ++ [false]) := by
        rw [slotOfPath_append]; simp [slotOfPath]
      have hsr : 2 * slotOfPath 0 p1 + 2 = slotOfPath 0 (p1 ++ [true]) := by
        rw [slotOfPath_append]; simp [slotOfPath]
      have hal : ∀ q, (p1 ++ [false]).length + q.length ≤ 4 →
          b1 (slotOfPath 0 ((p1 ++ [false]) ++ q)) =
            slotEntry t leafHash k idx (p1 ++ [false]).length l q := by
        intro q hq
        have := hagree1 (false :: q) (by simp at hq ⊢; omega)
        simpa [slotEntry] using this
      have har : ∀ q, (p1 ++ [true]).length + q.length ≤ 4 →
          b1 (slotOfPath 0 ((p1 ++ [true]) ++ q)) =
            slotEntry t leafHash k (idx + 2 ^ k) (p1 ++ [true]).length r q := by
        intro q hq
        have := hagree1 (true :: q) (by simp at hq ⊢; omega)
        simpa [slotEntry] using this
      have hrecl := ih idx l b1 (p1 ++ [false]) (by simp; omega) (by simp; omega) hdl
        hch.1 hal
      have hrecr := ih (idx + 2 ^ k) r b1 (p1 ++ [true]) (by simp; omega) (by simp; omega) hdr
        hch.2 har
      have hdl' := discardBranch_eq_siblingOp t leafHash b1 (2 * slotOfPath 0 p1 + 1)
        (p1.length + 1) ⟨idx, k⟩ l (by
          have := hal [] (by simp; omega)
          rw [List.append_nil] at this
          rw [hsl]; simpa using this)
      have hdr' := discardBranch_eq_siblingOp t leafHash b1 (2 * slotOfPath 0 p1 + 2)
        (p1.length + 1) ⟨idx + 2 ^ k, k⟩ r (by
          have := har [] (by simp; omega)
          rw [List.append_nil] at this
          rw [hsr]; simpa using this)
      simp only [BatchNode.HasElementAt, BatchNode.HasLeafAt, h0, h1, slotEntry, treeFind]
      simp only [Option.isSome_some, Bool.true_eq_false, if_false, beq_iff_eq, zero_ne_one,
        Bool.false_eq_true]
      rw [hdl', hdr', hsl, hsr, hrecl, hrecr]
/-- The batches of the tree built by inserting the leaves of the test are the
batches written out in `search_test.go`, slot by slot. -/
theorem inserted_trees_give_test_batches :
    sameBatch (searchTestState oneLeafTree) oneLeafCached oneLeafStored ⟨0, 8⟩ = true ∧
    sameBatch (searchTestState oneLeafTree) oneLeafCached oneLeafStored ⟨0, 4⟩ = true ∧
    sameBatch (searchTestState twoLeavesTree) twoLeavesCached twoLeavesStored ⟨0, 8⟩ = true ∧
    sameBatch (searchTestState twoLeavesTree) twoLeavesCached twoLeavesStored ⟨0, 4⟩ = true ∧
    sameBatch (searchTestState twoLeavesTree) twoLeavesCached twoLeavesStored ⟨0, 0⟩ = true ∧
    sameBatch (searchTestState twoLeavesTree) twoLeavesCached twoLeavesStored ⟨1, 0⟩ = true ∧
    sameBatch (searchTestState threeLeavesTree) threeLeavesCached threeLeavesStored ⟨0, 8⟩ = true ∧
    sameBatch (searchTestState threeLeavesTree) threeLeavesCached threeLeavesStored ⟨0, 4⟩ = true := by
  decide!
theorem PruneToFind_eq_treeFind (s : HyperState) (index : List Nat)
    (hW : 8 * index.length = s.tree.hasher.Len) :
    PruneToFind index s.batchLoader =
      treeFind s.tree s.leafHash index s.tree.hasher.Len 0 s.root := by
  unfold PruneToFind HyperState.batchLoader
  rw [hW]
  have h := findTraverse_eq_treeFind s.tree s.leafHash index s.tree.hasher.Len s.root
    s.tree.hasher.Len 0 s.root
    (batchAt s.tree s.leafHash s.tree.hasher.Len s.root ⟨0, s.tree.hasher.Len⟩) []
    (by simp) (by simp; omega) (dvd_zero _) (subtreeAt_self _ _ _) (by
      intro q hq
      have := batchAt_agree s.tree s.leafHash s.tree.hasher.Len s.root
        ⟨0, s.tree.hasher.Len⟩ q (by simpa using hq)
      simpa [subtreeAt_self] using this)
  simpa [slotOfPath] using h

theorem bytesToNat_foldl_inj (a : List Nat) :
    ∀ (b : List Nat) (x y : Nat), a.length = b.length →
      (∀ c ∈ a, c < 256) → (∀ c ∈ b, c < 256) →
      a.foldl (fun acc c => acc * 256 + c % 256) x =
        b.foldl (fun acc c => acc * 256 + c % 256) y → x = y ∧ a = b := by
  induction a with
  | nil =>
    intro b x y hlen _ _ heq
    cases b with
    | nil => exact ⟨by simpa using heq, rfl⟩
    | cons _ _ => simp at hlen
  | cons u a' ih =>
    intro b x y hlen ha hb heq
    cases b with
    | nil => simp at hlen
    | cons w b' =>
      simp only [List.foldl_cons] at heq
      have hu : u < 256 := ha u (List.mem_cons_self _ _)
      have hw : w < 256 := hb w (List.mem_cons_self _ _)
      have := ih b' _ _ (by simpa using hlen)
        (fun c hc => ha c (List.mem_cons_of_mem _ hc))
        (fun c hc => hb c (List.mem_cons_of_mem _ hc)) heq
      obtain ⟨h1, h2⟩ := this
      rw [Nat.mod_eq_of_lt hu, Nat.mod_eq_of_lt hw] at h1
      refine ⟨by omega, ?_⟩
      have : u = w := by omega
      rw [this, h2]

theorem validKey_inj (n : Nat) (a b : List Nat) (ha : validKey n a = true)
    (hb : validKey n b = true) (heq : bytesToNat a = bytesToNat b) : a = b := by
  simp only [validKey, Bool.and_eq_true, beq_iff_eq, List.all_eq_true, decide_eq_true_eq] at ha hb
  exact (bytesToNat_foldl_inj a b 0 0 (by omega) ha.2 hb.2 heq).2

theorem Interpret_preserves (op : HyperOp) :
    ∀ ctx : Context, (op.Interpret ctx).2.Hasher = ctx.Hasher ∧
      (op.Interpret ctx).2.DefaultHashes = ctx.DefaultHashes := by
  induction op with
  | innerHash p l r ihl ihr =>
    intro ctx
    rw [Interpret_inner_snd]
    exact ⟨(ihl _).1.trans (ihr _).1, (ihl _).2.trans (ihr _).2⟩
  | collectHash p c ih => intro ctx; exact ih ctx
  | getDefaultHash p => intro ctx; exact ⟨rfl, rfl⟩
  | getProvidedHash p h f => intro ctx; cases f <;> exact ⟨rfl, rfl⟩
  | noOp p => intro ctx; exact ⟨rfl, rfl⟩

theorem AuditPath.insert_fresh_eq (a : AuditPath) (pos : Position) (hash : List Nat)
    (hfresh : pos ∉ a.positions) : a.insert pos hash = a ++ [(pos, hash)] := by
  induction a with
  | nil => rfl
  | cons x t ih =>
    obtain ⟨p, h⟩ := x
    simp only [AuditPath.positions, List.map_cons, List.mem_cons, not_or] at hfresh
    have hne : ¬ p = pos := fun e => hfresh.1 e.symm
    simp only [AuditPath.insert, if_neg hne, List.cons_append, List.cons.injEq, true_and]
    exact ih hfresh.2

theorem AuditPath.get_of_mem (a : AuditPath) (pos : Position) (hash : List Nat)
    (hnd : a.positions.Nodup) (hmem : (pos, hash) ∈ a) : a.get pos = hash := by
  induction a with
  | nil => simp at hmem
  | cons x t ih =>
    obtain ⟨p, h⟩ := x
    simp only [AuditPath.positions, List.map_cons, List.nodup_cons] at hnd
    rcases List.mem_cons.1 hmem with heq | hin
    · injection heq with h1 h2
      subst h1; subst h2
      simp [AuditPath.get]
    · have hne : ¬ p = pos := by
        intro e
        subst e
        exact hnd.1 (List.mem_map.2 ⟨(p, hash), hin, rfl⟩)
      simp only [AuditPath.get, if_neg hne]
      exact ih hnd.2 hin

theorem siblingOp_interpret (t : HyperTree)
    (leafHash : Position → List Nat → List Nat → List Nat) (pos : Position) (n : HyperNode)
    (ctx : Context) (hh : ctx.Hasher = t.hasher) (hdh : ctx.DefaultHashes = t.defaultHashes) :
    (siblingOp t leafHash pos n).Interpret ctx =
      (hyperHash t leafHash pos.height pos.index n, ctx) := by
  cases n with
  | empty => simp [siblingOp, HyperOp.Interpret, hyperHash, hdh, hh]
  | shortcut k v => simp [siblingOp, HyperOp.Interpret]
  | inner l r => simp [siblingOp, HyperOp.Interpret]

theorem treeAudit_height (t : HyperTree)
    (leafHash : Position → List Nat → List Nat → List Nat) (index : List Nat) :
    ∀ (h idx : Nat) (n : HyperNode), ∀ e ∈ treeAudit t leafHash index h idx n,
      e.1.height < h := by
  intro h
  induction h with
  | zero => intro idx n e he; cases n <;> simp [treeAudit] at he
  | succ k ih =>
    intro idx n e he
    cases n with
    | empty => simp [treeAudit] at he
    | shortcut a b => simp [treeAudit] at he
    | inner l r =>
      rw [treeAudit] at he
      split at he
      · rcases List.mem_cons.1 he with h1 | h1
        · subst h1; simp
        · have := ih _ _ _ h1; omega
      · rcases List.mem_cons.1 he with h1 | h1
        · subst h1; simp
        · have := ih _ _ _ h1; omega

theorem treeFind_interpret (t : HyperTree)
    (leafHash : Position → List Nat → List Nat → List Nat) (index : List Nat) :
    ∀ (h idx : Nat) (n : HyperNode) (ctx : Context),
      ctx.Hasher = t.hasher →
      ctx.DefaultHashes = t.defaultHashes →
      (∀ p ∈ ctx.AuditPath.positions, h ≤ p.height) →
      List.Perm ((treeFind t leafHash index h idx n).Interpret ctx).2.AuditPath
        (ctx.AuditPath ++ treeAudit t leafHash index h idx n) ∧
      (∀ v, n.lookup index h idx = some v →
        ((treeFind t leafHash index h idx n).Interpret ctx).2.Value = some v) ∧
      (n.lookup index h idx = none →
        ((treeFind t leafHash index h idx n).Interpret ctx).2.Value = ctx.Value) := by
  intro h
  induction h with
  | zero =>
    intro idx n ctx _ _ _
    cases n with
    | empty => simp [treeFind, treeAudit, HyperOp.Interpret, HyperNode.lookup]
    | shortcut k v =>
      by_cases hk : k = index
      · simp [treeFind, treeAudit, HyperOp.Interpret, HyperNode.lookup, hk]
      · simp [treeFind, treeAudit, HyperOp.Interpret, HyperNode.lookup, hk]
    | inner l r => simp [treeFind, treeAudit, HyperOp.Interpret, HyperNode.lookup]
  | succ k ih =>
    intro idx n ctx hh hdh hctx
    cases n with
    | empty => simp [treeFind, treeAudit, HyperOp.Interpret, HyperNode.lookup]
    | shortcut a v =>
      by_cases hk : a = index
      · simp [treeFind, treeAudit, HyperOp.Interpret, HyperNode.lookup, hk]
      · simp [treeFind, treeAudit, HyperOp.Interpret, HyperNode.lookup, hk]
    | inner l r =>
      by_cases hlt : bytesToNat index < idx + 2 ^ k
      · simp only [treeFind, treeAudit, HyperNode.lookup, if_pos hlt]
        have hfresh : (⟨idx + 2 ^ k, k⟩ : Position) ∉ ctx.AuditPath.positions := by
          intro hmem
          have := hctx _ hmem
          simp at this
        have hc1 : ((HyperOp.collectHash ⟨idx + 2 ^ k, k⟩
            (siblingOp t leafHash ⟨idx + 2 ^ k, k⟩ r)).Interpret ctx).2 =
            { ctx with AuditPath := ctx.AuditPath ++
              [(⟨idx + 2 ^ k, k⟩, hyperHash t leafHash k (idx + 2 ^ k) r)] } := by
          simp only [HyperOp.Interpret, siblingOp_interpret t leafHash _ r ctx hh hdh]
          rw [AuditPath.insert_fresh_eq _ _ _ hfresh]
        rw [Interpret_inner_snd, hc1]
        have := ih idx l { ctx with AuditPath := ctx.AuditPath ++
              [(⟨idx + 2 ^ k, k⟩, hyperHash t leafHash k (idx + 2 ^ k) r)] } hh hdh (by
            intro p hp
            simp only [AuditPath.positions, List.map_append, List.map_cons, List.map_nil,
              List.mem_append, List.mem_singleton] at hp
            rcases hp with hp | hp
            · have := hctx p hp; omega
            · subst hp; exact le_refl _)
        refine ⟨?_, this.2.1, this.2.2⟩
        refine this.1.trans ?_
        simp only [List.append_assoc, List.singleton_append]
        exact List.Perm.refl _
      · simp only [treeFind, treeAudit, HyperNode.lookup, if_neg hlt]
        have hrec := ih (idx + 2 ^ k) r ctx hh hdh (by
          intro p hp; have := hctx p hp; omega)
        have hdh2 := (Interpret_preserves (treeFind t leafHash index k (idx + 2 ^ k) r) ctx).2
        have hh2 := (Interpret_preserves (treeFind t leafHash index k (idx + 2 ^ k) r) ctx).1
        have hfresh : (⟨idx, k⟩ : Position) ∉
            ((treeFind t leafHash index k (idx + 2 ^ k) r).Interpret ctx).2.AuditPath.positions := by
          intro hmem
          obtain ⟨e, he, hep⟩ := List.mem_map.1 hmem
          rcases List.mem_append.1 (hrec.1.subset he) with hp | hp
          · have := hctx _ (List.mem_map.2 ⟨e, hp, hep⟩); simp at this
          · have := treeAudit_height t leafHash index _ _ _ e hp
            rw [hep] at this; simp at this
        rw [Interpret_inner_snd]
        simp only [HyperOp.Interpret,
          siblingOp_interpret t leafHash _ l _ (hh2.trans hh) (hdh2.trans hdh)]
        rw [AuditPath.insert_fresh_eq _ _ _ hfresh]
        refine ⟨?_, hrec.2.1, hrec.2.2⟩
        refine (List.Perm.append_right _ hrec.1).trans ?_
        rw [List.append_assoc]
        exact List.Perm.append_left _ (List.perm_append_singleton _ _)
theorem lookup_empty (index : List Nat) (h idx : Nat) :
    HyperNode.empty.lookup index h idx = none := by
  cases h <;> rfl

theorem hyperInsert_lookup (limit : Nat) (index value : List Nat) (n : Nat)
    (hvalid : validKey n index = true) :
    ∀ (h idx : Nat) (node : HyperNode), node.wellFormed n h idx = true →
      idx ≤ bytesToNat index → bytesToNat index < idx + 2 ^ h →
      node.lookup index h idx = none →
      (hyperInsert limit index value h idx node).lookup index h idx = some value := by
  intro h
  induction h with
  | zero =>
    intro idx node hwf hlo hhi hnone
    cases node with
    | empty => simp [hyperInsert, HyperNode.lookup]
    | shortcut key v =>
      simp only [HyperNode.wellFormed, Bool.and_eq_true, decide_eq_true_eq] at hwf
      have hk : key = index := validKey_inj n key index hwf.1.1 hvalid (by
        simp at hhi; omega)
      simp [HyperNode.lookup, hk] at hnone
    | inner l r => simp [HyperNode.wellFormed] at hwf
  | succ k ih =>
    intro idx node hwf hlo hhi hnone
    cases node with
    | empty =>
      rw [hyperInsert]
      by_cases hlim : k + 1 ≤ limit
      · simp [hlim, HyperNode.lookup]
      · rw [if_neg hlim]
        by_cases hlt : bytesToNat index < idx + 2 ^ k
        · rw [if_pos hlt, HyperNode.lookup, if_pos hlt]
          exact ih idx .empty rfl hlo hlt (lookup_empty _ _ _)
        · rw [if_neg hlt, HyperNode.lookup, if_neg hlt]
          exact ih (idx + 2 ^ k) .empty rfl (by omega) (by rw [Nat.pow_succ] at hhi; omega)
            (lookup_empty _ _ _)
    | shortcut key v =>
      simp only [HyperNode.wellFormed, Bool.and_eq_true, decide_eq_true_eq] at hwf
      have hne : ¬ key = index := by
        intro e; simp [HyperNode.lookup, e] at hnone
      rw [hyperInsert, if_neg hne]
      simp only []
      by_cases hlt : bytesToNat index < idx + 2 ^ k
      · rw [if_pos hlt, HyperNode.lookup, if_pos hlt]
        apply ih idx _ _ hlo hlt
        · split
          · simp [HyperNode.lookup, hne]
          · exact lookup_empty _ _ _
        · split
          · simp only [HyperNode.wellFormed, Bool.and_eq_true, decide_eq_true_eq]
            exact ⟨⟨hwf.1.1, hwf.1.2⟩, by assumption⟩
          · rfl
      · rw [if_neg hlt, HyperNode.lookup, if_neg hlt]
        apply ih (idx + 2 ^ k) _ _ (by omega) (by rw [Nat.pow_succ] at hhi; omega)
        · split
          · exact lookup_empty _ _ _
          · simp [HyperNode.lookup, hne]
        · split
          · rfl
          · simp only [HyperNode.wellFormed, Bool.and_eq_true, decide_eq_true_eq]
            refine ⟨⟨hwf.1.1, by omega⟩, ?_⟩
            have := hwf.2
            rw [Nat.pow_succ] at this; omega
    | inner l r =>
      simp only [HyperNode.wellFormed, Bool.and_eq_true, decide_eq_true_eq,
        Nat.add_sub_cancel] at hwf
      rw [hyperInsert]
      by_cases hlt : bytesToNat index < idx + 2 ^ k
      · rw [if_pos hlt, HyperNode.lookup, if_pos hlt]
        rw [HyperNode.lookup, if_pos hlt] at hnone
        exact ih idx l hwf.1.2 hlo hlt hnone
      · rw [if_neg hlt, HyperNode.lookup, if_neg hlt]
        rw [HyperNode.lookup, if_neg hlt] at hnone
        exact ih (idx + 2 ^ k) r hwf.2 (by omega) (by rw [Nat.pow_succ] at hhi; omega) hnone
theorem wellFormed_empty (n h idx : Nat) : HyperNode.empty.wellFormed n h idx = true := rfl

theorem hyperInsert_wellFormed (limit : Nat) (index value : List Nat) (n : Nat)
    (hvalid : validKey n index = true) :
    ∀ (h idx : Nat) (node : HyperNode), node.wellFormed n h idx = true →
      idx ≤ bytesToNat index → bytesToNat index < idx + 2 ^ h →
      (hyperInsert limit index value h idx node).wellFormed n h idx = true := by
  intro h
  induction h with
  | zero =>
    intro idx node hwf hlo hhi
    cases node with
    | empty => simp [hyperInsert, HyperNode.wellFormed, hvalid, hlo]; simpa using hhi
    | shortcut key v => simpa [hyperInsert] using hwf
    | inner l r => simpa [hyperInsert] using hwf
  | succ k ih =>
    intro idx node hwf hlo hhi
    have hhi' : bytesToNat index < idx + 2 ^ k + 2 ^ k := by
      rw [Nat.pow_succ] at hhi; omega
    cases node with
    | empty =>
      rw [hyperInsert]
      by_cases hlim : k + 1 ≤ limit
      · simp [hlim, HyperNode.wellFormed, hvalid, hlo, hhi]
      · rw [if_neg hlim]
        by_cases hlt : bytesToNat index < idx + 2 ^ k
        · rw [if_pos hlt]
          simp only [HyperNode.wellFormed, Bool.and_eq_true, decide_eq_true_eq,
            Nat.add_sub_cancel]
          exact ⟨⟨by omega, ih idx .empty rfl hlo hlt⟩, trivial⟩
        · rw [if_neg hlt]
          simp only [HyperNode.wellFormed, Bool.and_eq_true, decide_eq_true_eq,
            Nat.add_sub_cancel]
          exact ⟨⟨by omega, trivial⟩, ih (idx + 2 ^ k) .empty rfl (by omega) hhi'⟩
    | shortcut key v =>
      rw [hyperInsert]
      by_cases hk : key = index
      · rw [if_pos hk]; exact hwf
      · rw [if_neg hk]
        simp only [HyperNode.wellFormed, Bool.and_eq_true, decide_eq_true_eq] at hwf
        have hkhi : bytesToNat key < idx + 2 ^ k + 2 ^ k := by
          have := hwf.2; rw [Nat.pow_succ] at this; omega
        simp only []
        by_cases hlt : bytesToNat index < idx + 2 ^ k
        · rw [if_pos hlt]
          by_cases hkl : bytesToNat key < idx + 2 ^ k
          · simp only [if_pos hkl, HyperNode.wellFormed, Bool.and_eq_true, decide_eq_true_eq,
              Nat.add_sub_cancel]
            refine ⟨⟨by omega, ih idx _ ?_ hlo hlt⟩, trivial⟩
            simp only [HyperNode.wellFormed, Bool.and_eq_true, decide_eq_true_eq]
            exact ⟨⟨hwf.1.1, hwf.1.2⟩, hkl⟩
          · simp only [if_neg hkl, HyperNode.wellFormed, Bool.and_eq_true, decide_eq_true_eq,
              Nat.add_sub_cancel]
            exact ⟨⟨by omega, ih idx _ rfl hlo hlt⟩, ⟨hwf.1.1, by omega⟩, hkhi⟩
        · rw [if_neg hlt]
          by_cases hkl : bytesToNat key < idx + 2 ^ k
          · simp only [if_pos hkl, HyperNode.wellFormed, Bool.and_eq_true, decide_eq_true_eq,
              Nat.add_sub_cancel]
            exact ⟨⟨by omega, ⟨hwf.1.1, hwf.1.2⟩, hkl⟩, ih (idx + 2 ^ k) _ rfl (by omega) hhi'⟩
          · simp only [if_neg hkl, HyperNode.wellFormed, Bool.and_eq_true, decide_eq_true_eq,
              Nat.add_sub_cancel]
            refine ⟨⟨by omega, trivial⟩, ih (idx + 2 ^ k) _ ?_ (by omega) hhi'⟩
            simp only [HyperNode.wellFormed, Bool.and_eq_true, decide_eq_true_eq]
            exact ⟨⟨hwf.1.1, by omega⟩, hkhi⟩
    | inner l r =>
      simp only [HyperNode.wellFormed, Bool.and_eq_true, decide_eq_true_eq,
        Nat.add_sub_cancel] at hwf
      rw [hyperInsert]
      by_cases hlt : bytesToNat index < idx + 2 ^ k
      · rw [if_pos hlt]
        simp only [HyperNode.wellFormed, Bool.and_eq_true, decide_eq_true_eq,
          Nat.add_sub_cancel]
        exact ⟨⟨by omega, ih idx l hwf.1.2 hlo hlt⟩, hwf.2⟩
      · rw [if_neg hlt]
        simp only [HyperNode.wellFormed, Bool.and_eq_true, decide_eq_true_eq,
          Nat.add_sub_cancel]
        exact ⟨⟨by omega, hwf.1.2⟩, ih (idx + 2 ^ k) r hwf.2 (by omega) hhi'⟩

theorem hyperInsert_present (limit : Nat) (index value : List Nat) :
    ∀ (h idx : Nat) (node : HyperNode) (x : List Nat),
      node.lookup index h idx = some x →
      hyperInsert limit index value h idx node = node := by
  intro h
  induction h with
  | zero =>
    intro idx node x hx
    cases node with
    | empty => simp [HyperNode.lookup] at hx
    | shortcut key v => rfl
    | inner l r => rfl
  | succ k ih =>
    intro idx node x hx
    cases node with
    | empty => simp [HyperNode.lookup] at hx
    | shortcut key v =>
      have hk : key = index := by
        by_contra hne; simp [HyperNode.lookup, hne] at hx
      rw [hyperInsert, if_pos hk]
    | inner l r =>
      rw [hyperInsert]
      by_cases hlt : bytesToNat index < idx + 2 ^ k
      · rw [HyperNode.lookup, if_pos hlt] at hx
        rw [if_pos hlt, ih idx l x hx]
      · rw [HyperNode.lookup, if_neg hlt] at hx
        rw [if_neg hlt, ih (idx + 2 ^ k) r x hx]

theorem stopHeight_le (index : List Nat) :
    ∀ (h idx : Nat) (n : HyperNode), n.stopHeight index h idx ≤ h := by
  intro h
  induction h with
  | zero => intro idx n; cases n <;> simp [HyperNode.stopHeight]
  | succ k ih =>
    intro idx n
    cases n with
    | empty => simp [HyperNode.stopHeight]
    | shortcut a b => simp [HyperNode.stopHeight]
    | inner l r =>
      rw [HyperNode.stopHeight]
      split
      · have := ih idx l; omega
      · have := ih (idx + 2 ^ k) r; omega

theorem treeAudit_length (t : HyperTree)
    (leafHash : Position → List Nat → List Nat → List Nat) (index : List Nat) :
    ∀ (h idx : Nat) (n : HyperNode),
      (treeAudit t leafHash index h idx n).length + n.stopHeight index h idx = h := by
  intro h
  induction h with
  | zero => intro idx n; cases n <;> simp [treeAudit, HyperNode.stopHeight]
  | succ k ih =>
    intro idx n
    cases n with
    | empty => simp [treeAudit, HyperNode.stopHeight]
    | shortcut a b => simp [treeAudit, HyperNode.stopHeight]
    | inner l r =>
      rw [treeAudit, HyperNode.stopHeight]
      split
      · have := ih idx l; simp only [List.length_cons]; omega
      · have := ih (idx + 2 ^ k) r; simp only [List.length_cons]; omega

theorem treeAudit_nodup (t : HyperTree)
    (leafHash : Position → List Nat → List Nat → List Nat) (index : List Nat) :
    ∀ (h idx : Nat) (n : HyperNode),
      ((treeAudit t leafHash index h idx n).map Prod.fst).Nodup := by
  intro h
  induction h with
  | zero => intro idx n; cases n <;> simp [treeAudit]
  | succ k ih =>
    intro idx n
    cases n with
    | empty => simp [treeAudit]
    | shortcut a b => simp [treeAudit]
    | inner l r =>
      rw [treeAudit]
      split
      · simp only [List.map_cons, List.nodup_cons]
        refine ⟨?_, ih idx l⟩
        intro hmem
        obtain ⟨e, he, hep⟩ := List.mem_map.1 hmem
        have := treeAudit_height t leafHash index _ _ _ e he
        rw [hep] at this; simp at this
      · simp only [List.map_cons, List.nodup_cons]
        refine ⟨?_, ih (idx + 2 ^ k) r⟩
        intro hmem
        obtain ⟨e, he, hep⟩ := List.mem_map.1 hmem
        have := treeAudit_height t leafHash index _ _ _ e he
        rw [hep] at this; simp at this

theorem hyperVerifyTraverse_eq (t : HyperTree)
    (leafHash : Position → List Nat → List Nat → List Nat) (index value : List Nat)
    (path : AuditPath) :
    ∀ (h idx : Nat) (n : HyperNode), n.lookup index h idx = some value →
      (∀ e ∈ treeAudit t leafHash index h idx n, path.get e.1 = e.2) →
      hyperVerifyTraverse t.hasher leafHash index value path (n.stopHeight index h idx) h idx =
        hyperHash t leafHash h idx n := by
  intro h
  induction h with
  | zero =>
    intro idx n hl _
    cases n with
    | empty => simp [HyperNode.lookup] at hl
    | shortcut a b =>
      have hk : a = index ∧ b = value := by
        by_cases hk : a = index
        · simp [HyperNode.lookup, hk] at hl; exact ⟨hk, hl⟩
        · simp [HyperNode.lookup, hk] at hl
      simp [hyperVerifyTraverse, hyperHash, hk.1, hk.2]
    | inner l r => simp [HyperNode.lookup] at hl
  | succ k ih =>
    intro idx n hl hpath
    cases n with
    | empty => simp [HyperNode.lookup] at hl
    | shortcut a b =>
      have hk : a = index ∧ b = value := by
        by_cases hk : a = index
        · simp [HyperNode.lookup, hk] at hl; exact ⟨hk, hl⟩
        · simp [HyperNode.lookup, hk] at hl
      simp [hyperVerifyTraverse, hyperHash, HyperNode.stopHeight, hk.1, hk.2]
    | inner l r =>
      rw [hyperVerifyTraverse, HyperNode.stopHeight, hyperHash]
      simp only [Nat.add_sub_cancel]
      by_cases hlt : bytesToNat index < idx + 2 ^ k
      · rw [HyperNode.lookup, if_pos hlt] at hl
        rw [treeAudit, if_pos hlt] at hpath
        have hs := stopHeight_le index k idx l
        rw [if_pos hlt, if_neg (by omega), if_pos hlt]
        rw [ih idx l hl (fun e he => hpath e (List.mem_cons_of_mem _ he))]
        have := hpath _ (List.mem_cons_self _ _)
        simp only [] at this
        rw [this]
      · rw [HyperNode.lookup, if_neg hlt] at hl
        rw [treeAudit, if_neg hlt] at hpath
        have hs := stopHeight_le index k (idx + 2 ^ k) r
        rw [if_neg hlt, if_neg (by omega), if_neg hlt]
        rw [ih (idx + 2 ^ k) r hl (fun e he => hpath e (List.mem_cons_of_mem _ he))]
        have := hpath _ (List.mem_cons_self _ _)
        simp only [] at this
        rw [this]

theorem QueryMembership_spec (s : HyperState) (D : List Nat)
    (hW : 8 * D.length = s.tree.hasher.Len) :
    (s.QueryMembership D).Key = D ∧
    (s.QueryMembership D).Value = s.root.lookup D s.tree.hasher.Len 0 ∧
    List.Perm (s.QueryMembership D).AuditPath
      (treeAudit s.tree s.leafHash D s.tree.hasher.Len 0 s.root) := by
  have h := treeFind_interpret s.tree s.leafHash D s.tree.hasher.Len 0 s.root
    ⟨s.tree.hasher, s.tree.defaultHashes, [], none⟩ rfl rfl
    (by intro p hp; simp [AuditPath.positions] at hp)
  unfold HyperState.QueryMembership
  simp only [PruneToFind_eq_treeFind s D hW]
  refine ⟨trivial, ?_, by simpa using h.1⟩
  cases hl : s.root.lookup D s.tree.hasher.Len 0 with
  | none => exact h.2.2 hl
  | some x => exact h.2.1 x hl

theorem recompute_eq_rootHash (s : HyperState) (D value : List Nat)
    (hW : 8 * D.length = s.tree.hasher.Len)
    (hl : s.root.lookup D s.tree.hasher.Len 0 = some value) :
    (s.QueryMembership D).recompute s.tree.hasher s.leafHash value = s.rootHash := by
  obtain ⟨hkey, _, hperm⟩ := QueryMembership_spec s D hW
  have hlen := treeAudit_length s.tree s.leafHash D s.tree.hasher.Len 0 s.root
  have hnd : (s.QueryMembership D).AuditPath.positions.Nodup :=
    (List.Perm.nodup_iff (List.Perm.map Prod.fst hperm)).2
      (treeAudit_nodup s.tree s.leafHash D _ _ _)
  have hget : ∀ e ∈ treeAudit s.tree s.leafHash D s.tree.hasher.Len 0 s.root,
      (s.QueryMembership D).AuditPath.get e.1 = e.2 := by
    intro e he
    exact AuditPath.get_of_mem _ e.1 e.2 hnd (hperm.symm.subset he)
  have hstop : 8 * D.length - (s.QueryMembership D).AuditPath.length =
      s.root.stopHeight D s.tree.hasher.Len 0 := by
    rw [hperm.length_eq, hW]; omega
  unfold QueryProof.recompute HyperState.rootHash
  rw [hkey, hstop, hW]
  exact hyperVerifyTraverse_eq s.tree s.leafHash D value _ _ _ _ hl hget
theorem ancestor_lt_iff (key j m : Nat) (hdvd : 2 ^ j ∣ m) :
    key / 2 ^ j * 2 ^ j < m ↔ key < m := by
  have hpos : 0 < 2 ^ j := Nat.pow_pos (by decide)
  have h1 : key / 2 ^ j * 2 ^ j ≤ key := Nat.div_mul_le_self key (2 ^ j)
  constructor
  · intro hlt
    obtain ⟨c, rfl⟩ := hdvd
    rw [Nat.mul_comm (2 ^ j) c] at hlt ⊢
    have hq : key / 2 ^ j < c := Nat.lt_of_mul_lt_mul_right hlt
    exact (Nat.div_lt_iff_lt_mul hpos).1 hq
  · intro hlt
    omega

theorem subtreeAt_descend (key idx k j : Nat) (l r : HyperNode) (hdvd : 2 ^ (k + 1) ∣ idx)
    (hj : j ≤ k) :
    subtreeAt ⟨key / 2 ^ j * 2 ^ j, j⟩ (k + 1) idx (.inner l r) =
      if key < idx + 2 ^ k then subtreeAt ⟨key / 2 ^ j * 2 ^ j, j⟩ k idx l
      else subtreeAt ⟨key / 2 ^ j * 2 ^ j, j⟩ k (idx + 2 ^ k) r := by
  have hd : 2 ^ j ∣ idx + 2 ^ k :=
    Dvd.dvd.add (Dvd.dvd.trans (Nat.pow_dvd_pow 2 (by omega)) hdvd) (Nat.pow_dvd_pow 2 hj)
  rw [subtreeAt, if_neg (by show ¬ j = k + 1; omega)]
  simp only [HyperNode.left, HyperNode.right, ancestor_lt_iff key j _ hd]

theorem treeFind_ne_collect (t : HyperTree)
    (leafHash : Position → List Nat → List Nat → List Nat) (index : List Nat)
    (h idx : Nat) (n : HyperNode) (p : Position) (c : HyperOp) :
    treeFind t leafHash index h idx n ≠ .collectHash p c := by
  cases h <;> cases n <;> simp [treeFind]
  split <;> simp

theorem treeFind_descent (t : HyperTree)
    (leafHash : Position → List Nat → List Nat → List Nat) (index : List Nat) (N : Nat) :
    ∀ (h idx : Nat) (n : HyperNode), n.wellFormed N h idx = true → 2 ^ h ∣ idx →
      idx ≤ bytesToNat index → bytesToNat index < idx + 2 ^ h →
      (∀ j, n.stopHeight index h idx < j → j ≤ h →
        ∃ l r, subtreeAt ⟨bytesToNat index / 2 ^ j * 2 ^ j, j⟩ h idx n = .inner l r) ∧
      stopsOn leafHash index
        ⟨bytesToNat index / 2 ^ (n.stopHeight index h idx) * 2 ^ (n.stopHeight index h idx),
          n.stopHeight index h idx⟩
        (subtreeAt
          ⟨bytesToNat index / 2 ^ (n.stopHeight index h idx) * 2 ^ (n.stopHeight index h idx),
            n.stopHeight index h idx⟩ h idx n)
        (treeFind t leafHash index h idx n).stop ∧
      (treeAudit t leafHash index h idx n).map Prod.fst =
        descentSiblings (bytesToNat index) h (n.stopHeight index h idx) := by
  intro h
  induction h with
  | zero =>
    intro idx n hwf _ hlo hhi
    have hkey : bytesToNat index = idx := by simp at hhi; omega
    have hs : n.stopHeight index 0 idx = 0 := by cases n <;> simp [HyperNode.stopHeight]
    rw [hs]
    refine ⟨fun j h1 h2 => by omega, ?_, by cases n <;> simp [treeAudit, descentSiblings]⟩
    simp only [pow_zero, Nat.div_one, Nat.mul_one, hkey, subtreeAt, if_true]
    cases n with
    | empty => simp [stopsOn, treeFind, HyperOp.stop]
    | shortcut a v => simp [stopsOn, treeFind, HyperOp.stop]
    | inner l r => simp [HyperNode.wellFormed] at hwf
  | succ k ih =>
    intro idx n hwf hdvd hlo hhi
    have hanc := ancestor_eq (bytesToNat index) idx (k + 1) hdvd hlo hhi
    have htop : ∀ m : HyperNode, subtreeAt ⟨idx, k + 1⟩ (k + 1) idx m = m := by
      intro m; simp [subtreeAt]
    cases n with
    | empty =>
      have hs : HyperNode.empty.stopHeight index (k + 1) idx = k + 1 := by
        simp [HyperNode.stopHeight]
      rw [hs, hanc, htop]
      refine ⟨fun j h1 h2 => by omega, by simp [stopsOn, treeFind, HyperOp.stop], ?_⟩
      simp [treeAudit, descentSiblings]
    | shortcut a v =>
      have hs : (HyperNode.shortcut a v).stopHeight index (k + 1) idx = k + 1 := by
        simp [HyperNode.stopHeight]
      rw [hs, hanc, htop]
      refine ⟨fun j h1 h2 => by omega, by simp [stopsOn, treeFind, HyperOp.stop], ?_⟩
      simp [treeAudit, descentSiblings]
    | inner l r =>
      simp only [HyperNode.wellFormed, Bool.and_eq_true, decide_eq_true_eq,
        Nat.add_sub_cancel] at hwf
      have hdvd' : 2 ^ k ∣ idx := Dvd.dvd.trans ⟨2, by rw [Nat.pow_succ]⟩ hdvd
      by_cases hlt : bytesToNat index < idx + 2 ^ k
      · obtain ⟨h1, h2, h3⟩ := ih idx l hwf.1.2 hdvd' hlo hlt
        have hle := stopHeight_le index k idx l
        have hs : (HyperNode.inner l r).stopHeight index (k + 1) idx =
            l.stopHeight index k idx := by
          rw [HyperNode.stopHeight, if_pos hlt]
        rw [hs]
        refine ⟨?_, ?_, ?_⟩
        · intro j hj1 hj2
          by_cases hjk : j = k + 1
          · subst hjk
            rw [hanc, htop]
            exact ⟨l, r, rfl⟩
          · rw [subtreeAt_descend _ _ _ _ _ _ hdvd (by omega), if_pos hlt]
            exact h1 j hj1 (by omega)
        · rw [subtreeAt_descend _ _ _ _ _ _ hdvd hle, if_pos hlt]
          simp only [treeFind, if_pos hlt, stop_inner_collect]
          exact h2
        · simp only [treeAudit, if_pos hlt, List.map_cons, h3]
          rw [descentSiblings, if_neg (by omega)]
          congr 1
          unfold keySibling
          simp only [hanc]
          rw [if_pos hlt]
      · have hdvd2 : 2 ^ k ∣ idx + 2 ^ k := Dvd.dvd.add hdvd' (dvd_refl _)
        obtain ⟨h1, h2, h3⟩ := ih (idx + 2 ^ k) r hwf.2 hdvd2 (by omega)
          (by rw [Nat.pow_succ] at hhi; omega)
        have hle := stopHeight_le index k (idx + 2 ^ k) r
        have hs : (HyperNode.inner l r).stopHeight index (k + 1) idx =
            r.stopHeight index k (idx + 2 ^ k) := by
          rw [HyperNode.stopHeight, if_neg hlt]
        rw [hs]
        refine ⟨?_, ?_, ?_⟩
        · intro j hj1 hj2
          by_cases hjk : j = k + 1
          · subst hjk
            rw [hanc, htop]
            exact ⟨l, r, rfl⟩
          · rw [subtreeAt_descend _ _ _ _ _ _ hdvd (by omega), if_neg hlt]
            exact h1 j hj1 (by omega)
        · rw [subtreeAt_descend _ _ _ _ _ _ hdvd hle, if_neg hlt]
          simp only [treeFind, if_neg hlt]
          rw [stop_inner_of_ne _ _ _ (fun q c => treeFind_ne_collect _ _ _ _ _ _ q c)]
          exact h2
        · simp only [treeAudit, if_neg hlt, List.map_cons, h3]
          rw [descentSiblings, if_neg (by omega)]
          congr 1
          unfold keySibling
          simp only [hanc]
          rw [if_neg hlt]

/-- C5: for every key and every state of the batches, interpreting
`PruneToFind(key)` collects into the audit path exactly the siblings of the
nodes on the path of the key from the root (height `W`) down to the node of
height `s` at which the descent stops on an empty subtree (`NoOp`) or a
shortcut (`UseProvided`): one position per height `W-1, ..., s`, nothing else.
For the batches of a well-formed tree of nodes the height `s` is the height of
the first node on the path of the key that is not an inner node: every node of
the path above `s` is an inner node, the node at `s` is an empty subtree, on
which the plan ends with `NoOp`, or a shortcut, on which it ends with
`UseProvided` and the shortcut leaf hash.
On the batches of a tree holding only `(0x00, 0)`, with `W = 8`, default hashes
0 and the XOR hasher, the search for `0x01` collects exactly the positions
`(128,7), (64,6), (32,5), (16,4)`. -/
theorem PruneToFind_collects_siblings (index : List Nat) (loader : Position → BatchNode)
    (hasher : Hasher) (defaultHashes : List (List Nat)) :
    (∃ s, s ≤ 8 * index.length ∧
      endsAt (PruneToFind index loader).stop (bytesToNat index) s ∧
      List.Perm
        ((PruneToFind index loader).Interpret
          ⟨hasher, defaultHashes, [], none⟩).2.AuditPath.positions
        (descentSiblings (bytesToNat index) (8 * index.length) s)) ∧
    (∀ st : HyperState, 8 * index.length = st.tree.hasher.Len → st.wellFormed = true →
      ∃ s, s ≤ 8 * index.length ∧
        (∀ j, s < j → j ≤ 8 * index.length →
          ∃ l r, subtreeAt ⟨bytesToNat index / 2 ^ j * 2 ^ j, j⟩ st.tree.hasher.Len 0 st.root =
            .inner l r) ∧
        stopsOn st.leafHash index ⟨bytesToNat index / 2 ^ s * 2 ^ s, s⟩
          (subtreeAt ⟨bytesToNat index / 2 ^ s * 2 ^ s, s⟩ st.tree.hasher.Len 0 st.root)
          (PruneToFind index st.batchLoader).stop ∧
        List.Perm
          ((PruneToFind index st.batchLoader).Interpret
            ⟨st.tree.hasher, st.tree.defaultHashes, [], none⟩).2.AuditPath.positions
          (descentSiblings (bytesToNat index) (8 * index.length) s)) ∧
    (searchAuditPath [0x01] oneLeafCached oneLeafStored).positions =
      [⟨128, 7⟩, ⟨64, 6⟩, ⟨32, 5⟩, ⟨16, 4⟩] := by
  refine ⟨?_, ?_, by decide!⟩
  · have h := findTraverse_collects loader index (8 * index.length) 0
      (loader ⟨0, 8 * index.length⟩) 0 ⟨hasher, defaultHashes, [], none⟩
      (dvd_zero _) (Nat.zero_le _) (by simpa using bytesToNat_lt index)
      (by intro p hp; simp [AuditPath.positions] at hp)
    simpa [PruneToFind, AuditPath.positions] using h
  · intro st hW hwf
    have hlt : bytesToNat index < 0 + 2 ^ st.tree.hasher.Len := by
      rw [← hW]; simpa using bytesToNat_lt index
    obtain ⟨h1, h2, h3⟩ := treeFind_descent st.tree st.leafHash index (st.tree.hasher.Len / 8)
      st.tree.hasher.Len 0 st.root hwf (dvd_zero _) (Nat.zero_le _) hlt
    have hint := treeFind_interpret st.tree st.leafHash index st.tree.hasher.Len 0 st.root
      ⟨st.tree.hasher, st.tree.defaultHashes, [], none⟩ rfl rfl
      (by intro p hp; simp [AuditPath.positions] at hp)
    refine ⟨st.root.stopHeight index st.tree.hasher.Len 0, ?_, ?_, ?_, ?_⟩
    · rw [hW]; exact stopHeight_le index _ _ _
    · intro j hj1 hj2
      exact h1 j hj1 (by omega)
    · rw [PruneToFind_eq_treeFind st index hW]
      exact h2
    · rw [PruneToFind_eq_treeFind st index hW, hW, ← h3]
      have hp := List.Perm.map Prod.fst hint.1
      simpa [AuditPath.positions] using hp

/-- In the tree that holds the digests `0x00` and `0x01` (the XOR hasher,
`W = 8`), the search for `0x01` goes through inner nodes down to height 0,
where the shortcut of the key sits, and collects one sibling per height
`7, ..., 0`: an instance of `PruneToFind_collects_siblings`. -/
theorem PruneToFind_collects_siblings_witness :
    8 * [0x01].length = (searchTestState twoLeavesTree).tree.hasher.Len ∧
    (searchTestState twoLeavesTree).wellFormed = true ∧
    ∃ s, s ≤ 8 ∧
      (∀ j, s < j → j ≤ 8 →
        ∃ l r, subtreeAt ⟨1 / 2 ^ j * 2 ^ j, j⟩ 8 0 twoLeavesTree = .inner l r) ∧
      stopsOn (searchTestState twoLeavesTree).leafHash [0x01] ⟨1 / 2 ^ s * 2 ^ s, s⟩
        (subtreeAt ⟨1 / 2 ^ s * 2 ^ s, s⟩ 8 0 twoLeavesTree)
        (PruneToFind [0x01] (searchTestState twoLeavesTree).batchLoader).stop ∧
      List.Perm
        ((PruneToFind [0x01] (searchTestState twoLeavesTree).batchLoader).Interpret
          ⟨⟨XorHasher, 8⟩, List.replicate 9 [0x0], [], none⟩).2.AuditPath.positions
        (descentSiblings 1 8 s) :=
  ⟨by decide, by decide,
    (PruneToFind_collects_siblings [0x01] (fun _ _ => none) ⟨XorHasher, 8⟩ []).2.1
      (searchTestState twoLeavesTree) (by decide) (by decide)⟩

theorem validKey_of_digest (W : Nat) (D : List Nat) (hbytes : ∀ b ∈ D, b < 256)
    (hW : 8 * D.length = W) : validKey (W / 8) D = true := by
  simp only [validKey, Bool.and_eq_true, beq_iff_eq, List.all_eq_true, decide_eq_true_eq]
  exact ⟨by omega, hbytes⟩

/-- C2 fails as stated: in the tree that holds the digest `0x12` at version 0,
`Add(0x12, 5)` succeeds, and the value then found for `0x12` is the encoding of
0, not of 5: a digest that is added again keeps its first version (property 4
and scenario S3 of the spec; on a duplicate the insertion is a no-op). -/
theorem Add_QueryMembership_counterexample :
    ((((searchTestState .empty).Add [0x12] 0).2.Add [0x12] 5).2.QueryMembership [0x12]).Value =
        some (Uint64AsBytes 0) ∧
      ((((searchTestState .empty).Add [0x12] 0).2.Add [0x12] 5).2.QueryMembership [0x12]).Value ≠
        some (Uint64AsBytes 5) := by
  decide!

/-- C2 as amended: for every digest `D` and every version `v`, on a well-formed
tree.  When the tree does not hold `D` yet (the membership query finds no
value), after `Add(D, v)` the membership query for `D` finds the 8 big-endian
bytes of `v`, its audit path recomputes the root digest returned by that `Add`,
and the tree stays well formed.  When the tree already holds `D` with the
value `x`, after `Add(D, v)` the value found is still `x`, the first one
stored; the audit path recomputes, with `x`, the root digest returned by that
`Add`, which is the root digest the tree had before, the nodes being left as
they were. -/
theorem Add_QueryMembership_value (s : HyperState) (D : List Nat) (v : Nat)
    (hbytes : ∀ b ∈ D, b < 256) (hW : 8 * D.length = s.tree.hasher.Len)
    (hwf : s.wellFormed = true) :
    ((s.QueryMembership D).Value = none →
      ((s.Add D v).2.QueryMembership D).Value = some (Uint64AsBytes v) ∧
      ((s.Add D v).2.QueryMembership D).recompute s.tree.hasher s.leafHash (Uint64AsBytes v) =
        (s.Add D v).1 ∧
      (s.Add D v).2.wellFormed = true) ∧
    (∀ x, (s.QueryMembership D).Value = some x →
      ((s.Add D v).2.QueryMembership D).Value = some x ∧
      ((s.Add D v).2.QueryMembership D).recompute s.tree.hasher s.leafHash x = (s.Add D v).1 ∧
      (s.Add D v).1 = s.rootHash ∧
      (s.Add D v).2.root = s.root) := by
  have hvalid := validKey_of_digest _ D hbytes hW
  have hspan : bytesToNat D < 0 + 2 ^ s.tree.hasher.Len := by
    have := bytesToNat_lt D
    rw [hW] at this
    simpa using this
  refine ⟨?_, ?_⟩
  · intro hfresh
    have hnone : s.root.lookup D s.tree.hasher.Len 0 = none := by
      rw [← (QueryMembership_spec s D hW).2.1]; exact hfresh
    have hl := hyperInsert_lookup s.tree.cacheHeightLimit D (Uint64AsBytes v) _ hvalid
      s.tree.hasher.Len 0 s.root hwf (Nat.zero_le _) hspan hnone
    have hwf' := hyperInsert_wellFormed s.tree.cacheHeightLimit D (Uint64AsBytes v) _ hvalid
      s.tree.hasher.Len 0 s.root hwf (Nat.zero_le _) hspan
    refine ⟨?_, ?_, hwf'⟩
    · rw [(QueryMembership_spec (s.Add D v).2 D hW).2.1]
      exact hl
    · exact recompute_eq_rootHash (s.Add D v).2 D (Uint64AsBytes v) hW hl
  · intro x hx
    have hsome : s.root.lookup D s.tree.hasher.Len 0 = some x := by
      rw [← (QueryMembership_spec s D hW).2.1]; exact hx
    have hsame : hyperInsert s.tree.cacheHeightLimit D (Uint64AsBytes v) s.tree.hasher.Len 0
        s.root = s.root := hyperInsert_present _ _ _ _ _ _ x hsome
    have hstate : (s.Add D v).2 = s := by
      simp only [HyperState.Add, hsame]
    have hroot : (s.Add D v).1 = s.rootHash := by
      simp only [HyperState.Add, HyperState.rootHash, hsame]
    rw [hstate, hroot]
    exact ⟨hx, recompute_eq_rootHash s D x hW hsome, rfl, rfl⟩

/-- Instance of `Add_QueryMembership_value` on the tree of the search test that holds the
digest `0x00` with the value `0x00`: the digest `0x01`, not yet held, is found
with the version 1 it is added with, and the digest `0x00` keeps its value when
it is added again with version 1. -/
theorem Add_QueryMembership_value_witness :
    ((∀ b ∈ [0x01], b < 256) ∧ 8 * [0x01].length = (searchTestState oneLeafTree).tree.hasher.Len ∧
      (searchTestState oneLeafTree).wellFormed = true ∧
      ((searchTestState oneLeafTree).QueryMembership [0x01]).Value = none ∧
      ((searchTestState oneLeafTree).QueryMembership [0x00]).Value = some [0]) ∧
    ((((searchTestState oneLeafTree).Add [0x01] 1).2.QueryMembership [0x01]).Value =
        some (Uint64AsBytes 1) ∧
      (((searchTestState oneLeafTree).Add [0x01] 1).2.QueryMembership [0x01]).recompute
          (searchTestState oneLeafTree).tree.hasher (searchTestState oneLeafTree).leafHash
          (Uint64AsBytes 1) =
        ((searchTestState oneLeafTree).Add [0x01] 1).1 ∧
      ((searchTestState oneLeafTree).Add [0x01] 1).2.wellFormed = true) ∧
    ((((searchTestState oneLeafTree).Add [0x00] 1).2.QueryMembership [0x00]).Value =
        some [0] ∧
      (((searchTestState oneLeafTree).Add [0x00] 1).2.QueryMembership [0x00]).recompute
          (searchTestState oneLeafTree).tree.hasher (searchTestState oneLeafTree).leafHash [0] =
        ((searchTestState oneLeafTree).Add [0x00] 1).1 ∧
      ((searchTestState oneLeafTree).Add [0x00] 1).1 = (searchTestState oneLeafTree).rootHash ∧
      ((searchTestState oneLeafTree).Add [0x00] 1).2.root = (searchTestState oneLeafTree).root) :=
  ⟨⟨by decide, by decide, by decide!, by decide!, by decide!⟩,
    (Add_QueryMembership_value (searchTestState oneLeafTree) [0x01] 1 (by decide) (by decide)
      (by decide!)).1 (by decide!),
    (Add_QueryMembership_value (searchTestState oneLeafTree) [0x00] 1 (by decide) (by decide)
      (by decide!)).2 [0] (by decide!)⟩

/-! ## The history tree -/

theorem historyHash_congr (hasher : Hasher) (l1 l2 : List (List Nat)) (version : Nat)
    (hl : ∀ x, x ≤ version → l1.getD x [] = l2.getD x []) :
    ∀ h i, i ≤ version →
      historyHash hasher l1 version h i = historyHash hasher l2 version h i := by
  intro h
  induction h with
  | zero => intro i hi; simp only [historyHash]; rw [hl i hi]
  | succ k ih =>
    intro i hi
    rw [historyHash, historyHash]
    by_cases hp : version < i + 2 ^ k
    · rw [if_pos hp, if_pos hp]; exact ih i hi
    · rw [if_neg hp, if_neg hp, ih i hi, ih (i + 2 ^ k) (by omega)]

theorem historyAudit_height (hasher : Hasher) (leaves : List (List Nat)) (index version : Nat) :
    ∀ h i, ∀ e ∈ historyAudit hasher leaves index version h i, e.1.height < h := by
  intro h
  induction h with
  | zero => intro i e he; simp [historyAudit] at he
  | succ k ih =>
    intro i e he
    rw [historyAudit] at he
    split at he
    · have := ih _ e he; omega
    · split at he
      · rcases List.mem_cons.1 he with h1 | h1
        · subst h1; simp
        · have := ih _ e h1; omega
      · rcases List.mem_cons.1 he with h1 | h1
        · subst h1; simp
        · have := ih _ e h1; omega

theorem historyAudit_nodup (hasher : Hasher) (leaves : List (List Nat)) (index version : Nat) :
    ∀ h i, ((historyAudit hasher leaves index version h i).map Prod.fst).Nodup := by
  intro h
  induction h with
  | zero => intro i; simp [historyAudit]
  | succ k ih =>
    intro i
    rw [historyAudit]
    split
    · exact ih i
    · split
      · simp only [List.map_cons, List.nodup_cons]
        refine ⟨?_, ih i⟩
        intro hmem
        obtain ⟨e, he, hep⟩ := List.mem_map.1 hmem
        have := historyAudit_height hasher leaves index version _ _ e he
        rw [hep] at this; simp at this
      · simp only [List.map_cons, List.nodup_cons]
        refine ⟨?_, ih (i + 2 ^ k)⟩
        intro hmem
        obtain ⟨e, he, hep⟩ := List.mem_map.1 hmem
        have := historyAudit_height hasher leaves index version _ _ e he
        rw [hep] at this; simp at this

theorem verifyTraverse_interpret (hasher : Hasher) (leaves : List (List Nat))
    (index version : Nat) (hiv : index ≤ version) (path : AuditPath) :
    ∀ h i, inSpan index i h = true →
      (∀ e ∈ historyAudit hasher leaves index version h i, path.get e.1 = e.2) →
      (verifyTraverse index version (leaves.getD index []) h i).InterpretVerify hasher path =
        historyHash hasher leaves version h i := by
  intro h
  induction h with
  | zero =>
    intro i hin _
    have hi : i = index := by simp [inSpan] at hin; omega
    subst hi
    simp [verifyTraverse, hin, Operation.InterpretVerify, historyHash]
  | succ k ih =>
    intro i hin hpath
    have hin' := hin
    simp only [inSpan, Bool.and_eq_true, decide_eq_true_eq] at hin'
    rw [verifyTraverse, if_pos hin, historyHash]
    rw [historyAudit] at hpath
    by_cases hp : version < i + 2 ^ k
    · rw [if_pos hp] at hpath ⊢
      rw [if_pos hp]
      have hl : inSpan index i k = true := by
        simp only [inSpan, Bool.and_eq_true, decide_eq_true_eq]; omega
      simpa [Operation.InterpretVerify] using ih i hl hpath
    · rw [if_neg hp] at hpath ⊢
      rw [if_neg hp]
      by_cases hleft : index < i + 2 ^ k
      · rw [if_pos hleft] at hpath
        have hl : inSpan index i k = true := by
          simp only [inSpan, Bool.and_eq_true, decide_eq_true_eq]; omega
        have hr : inSpan index (i + 2 ^ k) k = false := by
          simp only [inSpan, Bool.and_eq_false_iff, decide_eq_false_iff_not]; omega
        have h1 := ih i hl (fun e he => hpath e (List.mem_cons_of_mem _ he))
        have h2 := hpath _ (List.mem_cons_self _ _)
        simp only [] at h2
        rw [verifyTraverse_off_path index version _ k _ hr]
        simp only [Operation.InterpretVerify]
        rw [h1, h2]
      · rw [if_neg hleft] at hpath
        have hl : inSpan index i k = false := by
          simp only [inSpan, Bool.and_eq_false_iff, decide_eq_false_iff_not]; omega
        have hr : inSpan index (i + 2 ^ k) k = true := by
          simp only [inSpan, Bool.and_eq_true, decide_eq_true_eq]
          rw [Nat.pow_succ] at hin'; omega
        have h1 := ih (i + 2 ^ k) hr (fun e he => hpath e (List.mem_cons_of_mem _ he))
        have h2 := hpath _ (List.mem_cons_self _ _)
        simp only [] at h2
        rw [verifyTraverse_off_path index version _ k _ hl]
        simp only [Operation.InterpretVerify]
        rw [h1, h2]

theorem history_proof_verifies (hasher : Hasher) (leaves : List (List Nat))
    (index version : Nat) (hiv : index ≤ version) :
    (PruneToVerify index version (leaves.getD index [])).InterpretVerify hasher
        (ProveMembership hasher leaves index version) =
      historyHash hasher leaves version (rootHeight version) 0 := by
  have hroot : inSpan index 0 (rootHeight version) = true := by
    have := (rootHeight_spec version).1
    simp only [inSpan, Bool.and_eq_true, decide_eq_true_eq]; omega
  refine verifyTraverse_interpret hasher leaves index version hiv _ _ _ hroot ?_
  intro e he
  exact AuditPath.get_of_mem _ e.1 e.2 (historyAudit_nodup hasher leaves index version _ _) he
theorem bytesToNat_foldl_acc (l : List Nat) :
    ∀ acc, l.foldl (fun acc x => acc * 256 + x % 256) acc =
      acc * 256 ^ l.length + bytesToNat l := by
  unfold bytesToNat
  induction l with
  | nil => intro acc; simp
  | cons x t ih =>
    intro acc
    simp only [List.foldl_cons, List.length_cons]
    rw [ih (acc * 256 + x % 256), ih (0 * 256 + x % 256), Nat.pow_succ]
    ring

theorem bytesToNat_beBytes (n v : Nat) : bytesToNat (beBytes n v) = v % 256 ^ n := by
  induction n with
  | zero => simp [beBytes, bytesToNat, Nat.mod_one]
  | succ k ih =>
    have h := bytesToNat_foldl_acc (beBytes k v) (0 * 256 + v / 256 ^ k % 256 % 256)
    simp only [beBytes, bytesToNat, List.foldl_cons]
    rw [h, ih, beBytes_length, Nat.mod_pow_succ]
    simp only [Nat.zero_mul, Nat.zero_add, Nat.mod_mod]
    ring

theorem BytesAsUint64_Uint64AsBytes (v : Nat) (hv : v < 2 ^ 64) :
    BytesAsUint64 (Uint64AsBytes v) = some v := by
  have hlen : (beBytes 8 v).length = 8 := beBytes_length 8 v
  have htake : (beBytes 8 v).take 8 = beBytes 8 v := by
    rw [List.take_of_length_le (by omega)]
  unfold BytesAsUint64 Uint64AsBytes
  rw [if_neg (by omega), htake, bytesToNat_beBytes]
  have : (256 : Nat) ^ 8 = 2 ^ 64 := by norm_num
  rw [this, Nat.mod_eq_of_lt hv]

theorem hyperInsert_lookup_other (limit : Nat) (index value other : List Nat)
    (hne : other ≠ index) :
    ∀ (h idx : Nat) (node : HyperNode),
      (hyperInsert limit index value h idx node).lookup other h idx = node.lookup other h idx := by
  intro h
  induction h with
  | zero =>
    intro idx node
    cases node with
    | empty => simp [hyperInsert, HyperNode.lookup, Ne.symm hne]
    | shortcut key v => rfl
    | inner l r => rfl
  | succ k ih =>
    intro idx node
    cases node with
    | empty =>
      rw [hyperInsert]
      by_cases hlim : k + 1 ≤ limit
      · simp [hlim, HyperNode.lookup, Ne.symm hne]
      · rw [if_neg hlim]
        rw [lookup_empty]
        by_cases hlt : bytesToNat index < idx + 2 ^ k
        · rw [if_pos hlt, HyperNode.lookup]
          split
          · rw [ih, lookup_empty]
          · exact lookup_empty _ _ _
        · rw [if_neg hlt, HyperNode.lookup]
          split
          · exact lookup_empty _ _ _
          · rw [ih, lookup_empty]
    | shortcut key v =>
      rw [hyperInsert]
      by_cases hk : key = index
      · rw [if_pos hk]
      · rw [if_neg hk]
        simp only []
        have hsc : ∀ h' i', (HyperNode.shortcut key v).lookup other h' i' =
            if key = other then some v else none := by
          intro h' i'; cases h' <;> rfl
        rw [hsc]
        by_cases hlt : bytesToNat index < idx + 2 ^ k
        · rw [if_pos hlt, HyperNode.lookup]
          by_cases hol : bytesToNat other < idx + 2 ^ k
          · rw [if_pos hol, ih]
            by_cases hkl : bytesToNat key < idx + 2 ^ k
            · rw [if_pos hkl, hsc]
            · rw [if_neg hkl, lookup_empty]
              have : ¬ key = other := by intro e; rw [e] at hkl; exact hkl hol
              rw [if_neg this]
          · rw [if_neg hol]
            by_cases hkl : bytesToNat key < idx + 2 ^ k
            · rw [if_pos hkl, lookup_empty]
              have : ¬ key = other := by intro e; rw [e] at hkl; exact hol hkl
              rw [if_neg this]
            · rw [if_neg hkl, hsc]
        · rw [if_neg hlt, HyperNode.lookup]
          by_cases hol : bytesToNat other < idx + 2 ^ k
          · rw [if_pos hol]
            by_cases hkl : bytesToNat key < idx + 2 ^ k
            · rw [if_pos hkl, hsc]
            · rw [if_neg hkl, lookup_empty]
              have : ¬ key = other := by intro e; rw [e] at hkl; exact hkl hol
              rw [if_neg this]
          · rw [if_neg hol, ih]
            by_cases hkl : bytesToNat key < idx + 2 ^ k
            · rw [if_pos hkl, lookup_empty]
              have : ¬ key = other := by intro e; rw [e] at hkl; exact hol hkl
              rw [if_neg this]
            · rw [if_neg hkl, hsc]
    | inner l r =>
      rw [hyperInsert]
      by_cases hlt : bytesToNat index < idx + 2 ^ k
      · rw [if_pos hlt, HyperNode.lookup, HyperNode.lookup]
        split
        · exact ih idx l
        · rfl
      · rw [if_neg hlt, HyperNode.lookup, HyperNode.lookup]
        split
        · rfl
        · exact ih (idx + 2 ^ k) r

/-! ## The balloon -/

theorem firstIndex_append_of_mem (digest : List Nat) (l1 l2 : List (List Nat))
    (hmem : digest ∈ l1) : firstIndex digest (l1 ++ l2) = firstIndex digest l1 := by
  induction l1 with
  | nil => simp at hmem
  | cons d t ih =>
    rw [List.cons_append, firstIndex, firstIndex]
    by_cases hd : d = digest
    · rw [if_pos hd, if_pos hd]
    · rw [if_neg hd, if_neg hd, ih]
      rcases List.mem_cons.1 hmem with h | h
      · exact absurd h.symm hd
      · exact h

theorem firstIndex_append_of_not_mem (digest : List Nat) (l1 l2 : List (List Nat))
    (hmem : digest ∉ l1) :
    firstIndex digest (l1 ++ l2) = l1.length + firstIndex digest l2 := by
  induction l1 with
  | nil => simp
  | cons d t ih =>
    simp only [List.mem_cons, not_or] at hmem
    have hd : ¬ d = digest := fun e => hmem.1 e.symm
    rw [List.cons_append, firstIndex, if_neg hd, ih hmem.2, List.length_cons]
    omega

theorem firstIndex_lt (digest : List Nat) (l : List (List Nat)) (hmem : digest ∈ l) :
    firstIndex digest l < l.length ∧ l.getD (firstIndex digest l) [] = digest := by
  induction l with
  | nil => simp at hmem
  | cons d t ih =>
    simp only [firstIndex]
    by_cases hd : d = digest
    · rw [if_pos hd]; simp [hd]
    · rw [if_neg hd]
      rcases List.mem_cons.1 hmem with h | h
      · exact absurd h.symm hd
      · have := ih h
        simp only [List.length_cons, List.getD_cons_succ]
        exact ⟨by omega, this.2⟩

theorem firstIndex_le_of_getD (digest : List Nat) (l : List (List Nat)) :
    ∀ i, i < l.length → l.getD i [] = digest → firstIndex digest l ≤ i := by
  induction l with
  | nil => intro i hi; simp at hi
  | cons d t ih =>
    intro i hi hget
    simp only [firstIndex]
    by_cases hd : d = digest
    · rw [if_pos hd]; omega
    · rw [if_neg hd]
      cases i with
      | zero => simp at hget; exact absurd hget hd
      | succ j =>
        simp only [List.getD_cons_succ] at hget
        have := ih j (by simpa using hi) hget
        omega

theorem Balloon.inv_new (tree : HyperTree)
    (leafHash : Position → List Nat → List Nat → List Nat) :
    (NewBalloon tree leafHash).Inv tree leafHash := by
  refine ⟨rfl, rfl, rfl, rfl, rfl, ?_⟩
  intro digest
  simp [NewBalloon, lookup_empty, firstVersion]

theorem Balloon.inv_add (tree : HyperTree)
    (leafHash : Position → List Nat → List Nat → List Nat) (b : Balloon)
    (hinv : b.Inv tree leafHash) (event : List Nat) (hev : validEvent tree.hasher event) :
    (b.Add event).2.Inv tree leafHash := by
  obtain ⟨hh, ht, hlh, hver, hwf, hlook⟩ := hinv
  have hvalid := validKey_of_digest _ _ hev.1 hev.2
  have hspan : bytesToNat (tree.hasher.Do [event]) < 0 + 2 ^ tree.hasher.Len := by
    have := bytesToNat_lt (tree.hasher.Do [event])
    rw [hev.2] at this
    simpa using this
  refine ⟨hh, ht, hlh, ?_, ?_, ?_⟩
  · simp [Balloon.Add, hver]
  · simp only [Balloon.Add, HyperState.Add, HyperState.wellFormed, hh, ht]
    refine hyperInsert_wellFormed _ _ _ _ hvalid _ _ _ ?_ (Nat.zero_le _) hspan
    simpa [HyperState.wellFormed, ht] using hwf
  · intro digest
    simp only [Balloon.Add, HyperState.Add, hh, ht]
    by_cases hd : digest = tree.hasher.Do [event]
    · subst hd
      by_cases hmem : tree.hasher.Do [event] ∈ b.history
      · have hl := hlook (tree.hasher.Do [event])
        rw [firstVersion, if_pos hmem] at hl
        rw [hyperInsert_present _ _ _ _ _ _ _ hl, hl, firstVersion,
          if_pos (List.mem_append_left _ hmem), firstIndex_append_of_mem _ _ _ hmem]
      · have hl := hlook (tree.hasher.Do [event])
        rw [firstVersion, if_neg hmem] at hl
        rw [hyperInsert_lookup _ _ _ _ hvalid _ _ _ (by
            simpa [HyperState.wellFormed, ht] using hwf) (Nat.zero_le _) hspan hl,
          firstVersion, if_pos (by simp), firstIndex_append_of_not_mem _ _ _ hmem, hver]
        simp [firstIndex]
    · rw [hyperInsert_lookup_other _ _ _ _ hd, hlook digest, firstVersion, firstVersion]
      by_cases hmem : digest ∈ b.history
      · rw [if_pos hmem, if_pos (List.mem_append_left _ hmem),
          firstIndex_append_of_mem _ _ _ hmem]
      · rw [if_neg hmem, if_neg (by simp [hmem, hd])]

theorem Balloon.AddAll_inv (tree : HyperTree)
    (leafHash : Position → List Nat → List Nat → List Nat) :
    ∀ (events : List (List Nat)) (b : Balloon), b.Inv tree leafHash →
      (∀ e ∈ events, validEvent tree.hasher e) →
      (b.AddAll events).2.Inv tree leafHash ∧
      (b.AddAll events).2.history = b.history ++ events.map (fun e => tree.hasher.Do [e]) := by
  intro events
  induction events with
  | nil => intro b hinv _; exact ⟨hinv, by simp [Balloon.AddAll]⟩
  | cons e rest ih =>
    intro b hinv hev
    have h1 := Balloon.inv_add tree leafHash b hinv e (hev e (List.mem_cons_self _ _))
    have h2 := ih (b.Add e).2 h1 (fun x hx => hev x (List.mem_cons_of_mem _ hx))
    refine ⟨h2.1, ?_⟩
    rw [Balloon.AddAll, h2.2]
    simp [Balloon.Add, hinv.1]

theorem Balloon.AddAll_snapshot (tree : HyperTree)
    (leafHash : Position → List Nat → List Nat → List Nat) :
    ∀ (events : List (List Nat)) (b : Balloon), b.Inv tree leafHash →
      (∀ e ∈ events, validEvent tree.hasher e) →
      ∀ k, k < events.length → ∃ c, (b.AddAll events).1[k]? = some c ∧
        c.Version = b.version + k ∧
        c.HistoryDigest = historyHash tree.hasher (b.AddAll events).2.history (b.version + k)
          (rootHeight (b.version + k)) 0 ∧
        (k + 1 = events.length → c.HyperDigest = (b.AddAll events).2.hyper.rootHash) := by
  intro events
  induction events with
  | nil => intro b _ _ k hk; simp at hk
  | cons e rest ih =>
    intro b hinv hev k hk
    have h1 := Balloon.inv_add tree leafHash b hinv e (hev e (List.mem_cons_self _ _))
    have hev' : ∀ x ∈ rest, validEvent tree.hasher x :=
      fun x hx => hev x (List.mem_cons_of_mem _ hx)
    have hall := Balloon.AddAll_inv tree leafHash rest (b.Add e).2 h1 hev'
    cases k with
    | zero =>
      refine ⟨(b.Add e).1, by simp [Balloon.AddAll], rfl, ?_, ?_⟩
      · rw [Balloon.AddAll]
        simp only [hall.2]
        simp only [Balloon.Add, hinv.1, Nat.add_zero]
        apply historyHash_congr
        · intro x hx
          rw [hinv.2.2.2.1] at hx
          exact (List.getD_append (b.history ++ [tree.hasher.Do [e]]) _ [] x (by
            simp; omega)).symm
        · exact Nat.zero_le _
      · intro hlen
        have : rest = [] := by
          cases rest with
          | nil => rfl
          | cons _ _ => simp at hlen
        subst this
        simp [Balloon.AddAll, Balloon.Add, HyperState.Add]
    | succ k' =>
      obtain ⟨c, hc1, hc2, hc3, hc4⟩ := ih (b.Add e).2 h1 hev' k' (by simpa using hk)
      refine ⟨c, by simpa [Balloon.AddAll] using hc1, ?_, ?_, ?_⟩
      · rw [hc2]; simp [Balloon.Add]; omega
      · have hv : (b.Add e).2.version + k' = b.version + (k' + 1) := by
          simp [Balloon.Add]; omega
        rw [hc3, hv]
        rfl
      · intro hlen
        exact hc4 (by simpa using hlen)
theorem Balloon.QueryMembership_eq (tree : HyperTree)
    (leafHash : Position → List Nat → List Nat → List Nat) (b : Balloon)
    (hinv : b.Inv tree leafHash) (event : List Nat) (hev : validEvent tree.hasher event)
    (j : Nat) (hj : j < b.version) (hlen : b.version ≤ 2 ^ 64)
    (hmem : tree.hasher.Do [event] ∈ b.history)
    (hle : firstIndex (tree.hasher.Do [event]) b.history ≤ j) :
    (b.hyper.QueryMembership (tree.hasher.Do [event])).Value =
        some (Uint64AsBytes (firstIndex (tree.hasher.Do [event]) b.history)) ∧
      b.QueryMembership event j = some ⟨true, b.hyper.QueryMembership (tree.hasher.Do [event]),
        ProveMembership tree.hasher b.history (firstIndex (tree.hasher.Do [event]) b.history) j,
        b.version - 1, j, firstIndex (tree.hasher.Do [event]) b.history,
        tree.hasher.Do [event]⟩ := by
  obtain ⟨hh, ht, hlh, hver, hwf, hlook⟩ := hinv
  have hW : 8 * (tree.hasher.Do [event]).length = b.hyper.tree.hasher.Len := by
    rw [ht]; exact hev.2
  have hval : (b.hyper.QueryMembership (tree.hasher.Do [event])).Value =
      some (Uint64AsBytes (firstIndex (tree.hasher.Do [event]) b.history)) := by
    rw [(QueryMembership_spec b.hyper _ hW).2.1, ht, hlook, firstVersion, if_pos hmem]
  have hlt := (firstIndex_lt _ _ hmem).1
  have hbytes := BytesAsUint64_Uint64AsBytes
    (firstIndex (tree.hasher.Do [event]) b.history) (by omega)
  refine ⟨hval, ?_⟩
  unfold Balloon.QueryMembership
  rw [if_neg (by omega)]
  simp only [hh, hval, Option.some_bind, hbytes, if_pos hle]

theorem membership_proof_parts (tree : HyperTree)
    (leafHash : Position → List Nat → List Nat → List Nat) (b : Balloon)
    (hinv : b.Inv tree leafHash) (event : List Nat) (hev : validEvent tree.hasher event)
    (j : Nat) (hmem : tree.hasher.Do [event] ∈ b.history)
    (hle : firstIndex (tree.hasher.Do [event]) b.history ≤ j) :
    (b.hyper.QueryMembership (tree.hasher.Do [event])).Key = tree.hasher.Do [event] ∧
      (b.hyper.QueryMembership (tree.hasher.Do [event])).recompute tree.hasher leafHash
          (Uint64AsBytes (firstIndex (tree.hasher.Do [event]) b.history)) =
        b.hyper.rootHash ∧
      (PruneToVerify (firstIndex (tree.hasher.Do [event]) b.history) j
          (tree.hasher.Do [event])).InterpretVerify tree.hasher
          (ProveMembership tree.hasher b.history
            (firstIndex (tree.hasher.Do [event]) b.history) j) =
        historyHash tree.hasher b.history j (rootHeight j) 0 := by
  obtain ⟨hh, ht, hlh, hver, hwf, hlook⟩ := hinv
  have hW : 8 * (tree.hasher.Do [event]).length = b.hyper.tree.hasher.Len := by
    rw [ht]; exact hev.2
  have hl : b.hyper.root.lookup (tree.hasher.Do [event]) b.hyper.tree.hasher.Len 0 =
      some (Uint64AsBytes (firstIndex (tree.hasher.Do [event]) b.history)) := by
    rw [ht, hlook, firstVersion, if_pos hmem]
  have hrec := recompute_eq_rootHash b.hyper _ _ hW hl
  rw [ht, hlh] at hrec
  have hget := (firstIndex_lt _ _ hmem).2
  have hhis := history_proof_verifies tree.hasher b.history
    (firstIndex (tree.hasher.Do [event]) b.history) j hle
  rw [hget] at hhis
  exact ⟨(QueryMembership_spec b.hyper _ hW).1, hrec, hhis⟩

/-- C1 fails as stated: after the events `"A"`, `"B"` (XOR hasher, width 8),
the balloon answers the query for `"A"` at version 0 with a proof of
membership (`exists = true`, actual version 0), and that proof does not verify
against the commitment of version 0: the hyper path is read from the one hyper
tree there is, which holds `"B"` too, and recomputes the hyper digest of the
commitment of version 1, not the older one of version 0. -/
theorem membership_older_commitment_counterexample :
    (((NewBalloon (searchTestState .empty).tree (searchTestState .empty).leafHash).AddAll
        [[0x41], [0x42]]).2.QueryMembership [0x41] 0).map (fun p =>
      (p.Exists, p.ActualVersion,
        p.Verify (searchTestState .empty).tree.hasher (searchTestState .empty).leafHash [0x41]
          (((NewBalloon (searchTestState .empty).tree (searchTestState .empty).leafHash).AddAll
            [[0x41], [0x42]]).1.getD 0 ⟨[], [], 0⟩))) = some (true, 0, false) := by
  decide!

/-- C1 as amended: after the events `e0..en` have been added, for all
`i ≤ j ≤ n` the balloon answers the membership query for `ei` at version `j`
with a proof of membership: `exists = true`, the actual version is the first
version at which the digest of `ei` was added (at most `i`), the query version
is `j`, the current version is `n`, and the value found in the hyper tree is
the 8-byte encoding of the actual version.  The history path of the proof
recomputes the history digest of the commitment of version `j`, and the hyper
path recomputes the hyper digest of the current commitment (version `n`): the
hyper tree has one state, which `HyperTree.QueryMembership(eventDigest)` reads
without a version.  So the proof verifies against the history digest of
commitment `j` together with the current hyper digest, and it verifies against
the commitment of version `j` itself exactly when the hyper digest of that
commitment is the current one, as it is for `j = n`. -/
theorem membership_proof_verifies (tree : HyperTree)
    (leafHash : Position → List Nat → List Nat → List Nat) (events : List (List Nat))
    (i j : Nat) (hij : i ≤ j) (hj : j < events.length) (hlen : events.length ≤ 2 ^ 64)
    (hev : ∀ e ∈ events, validEvent tree.hasher e) :
    ∃ proof cj cn,
      ((NewBalloon tree leafHash).AddAll events).2.QueryMembership (events.getD i []) j =
        some proof ∧
      ((NewBalloon tree leafHash).AddAll events).1[j]? = some cj ∧
      ((NewBalloon tree leafHash).AddAll events).1[events.length - 1]? = some cn ∧
      proof.Exists = true ∧
      proof.KeyDigest = tree.hasher.Do [events.getD i []] ∧
      proof.ActualVersion =
        firstIndex (tree.hasher.Do [events.getD i []])
          (events.map fun e => tree.hasher.Do [e]) ∧
      proof.ActualVersion ≤ i ∧
      proof.QueryVersion = j ∧
      proof.CurrentVersion = events.length - 1 ∧
      proof.Hyper.Key = tree.hasher.Do [events.getD i []] ∧
      proof.Hyper.Value = some (Uint64AsBytes proof.ActualVersion) ∧
      proof.Hyper.recompute tree.hasher leafHash (Uint64AsBytes proof.ActualVersion) =
        cn.HyperDigest ∧
      (PruneToVerify proof.ActualVersion j (tree.hasher.Do [events.getD i []])).InterpretVerify
        tree.hasher proof.History = cj.HistoryDigest ∧
      proof.Verify tree.hasher leafHash (events.getD i [])
        ⟨cj.HistoryDigest, cn.HyperDigest, j⟩ = true ∧
      (proof.Verify tree.hasher leafHash (events.getD i []) cj = true ↔
        cj.HyperDigest = cn.HyperDigest) ∧
      (j + 1 = events.length →
        proof.Verify tree.hasher leafHash (events.getD i []) cj = true) := by
  have hinv0 := Balloon.inv_new tree leafHash
  obtain ⟨hinv, hhist⟩ := Balloon.AddAll_inv tree leafHash events _ hinv0 hev
  have hhist' : ((NewBalloon tree leafHash).AddAll events).2.history =
      events.map (fun e => tree.hasher.Do [e]) := by
    rw [hhist]; rfl
  have hver : ((NewBalloon tree leafHash).AddAll events).2.version = events.length := by
    rw [hinv.2.2.2.1, hhist']; simp
  have hi : i < events.length := by omega
  have hget : events.getD i [] = events[i] := List.getD_eq_getElem _ _ hi
  have hmemE : events[i] ∈ events := List.getElem_mem hi
  have hmem : tree.hasher.Do [events[i]] ∈
      ((NewBalloon tree leafHash).AddAll events).2.history := by
    rw [hhist']; exact List.mem_map_of_mem _ hmemE
  have hlei : firstIndex (tree.hasher.Do [events[i]])
      ((NewBalloon tree leafHash).AddAll events).2.history ≤ i :=
    firstIndex_le_of_getD (tree.hasher.Do [events[i]])
      ((NewBalloon tree leafHash).AddAll events).2.history i (by rw [hhist']; simpa using hi)
      (by rw [hhist', List.getD_eq_getElem _ _ (by simpa using hi)]; simp)
  have hle : firstIndex (tree.hasher.Do [events[i]])
      ((NewBalloon tree leafHash).AddAll events).2.history ≤ j := by omega
  obtain ⟨cj, hcj1, hcj2, hcj3, hcj4⟩ :=
    Balloon.AddAll_snapshot tree leafHash events _ hinv0 hev j hj
  obtain ⟨cn, hcn1, _, _, hcn4⟩ :=
    Balloon.AddAll_snapshot tree leafHash events _ hinv0 hev (events.length - 1) (by omega)
  have hcn := hcn4 (by omega)
  have hzero : (NewBalloon tree leafHash).version = 0 := rfl
  rw [hzero, Nat.zero_add] at hcj2 hcj3
  obtain ⟨hval, hq⟩ := Balloon.QueryMembership_eq tree leafHash _ hinv events[i]
    (hev _ hmemE) j (by omega) (by omega) hmem hle
  obtain ⟨hkey, hrec, hhis⟩ := membership_proof_parts tree leafHash _ hinv events[i]
    (hev _ hmemE) j hmem hle
  rw [← hcn] at hrec
  rw [← hcj3] at hhis
  have hverify : ∀ c : Snapshot, c.HistoryDigest = cj.HistoryDigest →
      (MembershipProof.mk true
        (((NewBalloon tree leafHash).AddAll events).2.hyper.QueryMembership
          (tree.hasher.Do [events[i]]))
        (ProveMembership tree.hasher ((NewBalloon tree leafHash).AddAll events).2.history
          (firstIndex (tree.hasher.Do [events[i]])
            ((NewBalloon tree leafHash).AddAll events).2.history) j)
        (((NewBalloon tree leafHash).AddAll events).2.version - 1) j
        (firstIndex (tree.hasher.Do [events[i]])
          ((NewBalloon tree leafHash).AddAll events).2.history)
        (tree.hasher.Do [events[i]])).Verify tree.hasher leafHash events[i] c =
        (cn.HyperDigest == c.HyperDigest) := by
    intro c hc
    simp only [MembershipProof.Verify, hval, hkey, hrec, hhis, hc, beq_self_eq_true,
      Bool.true_and, Bool.and_true, if_true]
  rw [hget]
  refine ⟨_, cj, cn, hq, hcj1, hcn1, rfl, rfl, by rw [hhist'], hlei, rfl, by rw [hver],
    hkey, hval, hrec, hhis, ?_, ?_, ?_⟩
  · rw [hverify ⟨cj.HistoryDigest, cn.HyperDigest, j⟩ rfl]; simp
  · rw [hverify cj rfl]
    simp only [beq_iff_eq]
    exact eq_comm
  · intro hlast
    rw [hverify cj rfl, hcn, hcj4 hlast]
    simp

/-- Instance of `membership_proof_verifies` for the events `"A"`, `"B"`, `"A"` (XOR hasher,
width 8), the proof of the first event at version 1. -/
theorem membership_proof_verifies_witness :
    (0 ≤ 1 ∧ 1 < [[0x41], [0x42], [0x41]].length ∧
      [[0x41], [0x42], [0x41]].length ≤ 2 ^ 64 ∧
      ∀ e ∈ [[0x41], [0x42], [0x41]], validEvent (searchTestState .empty).tree.hasher e) ∧
    ∃ proof cj cn,
      ((NewBalloon (searchTestState .empty).tree (searchTestState .empty).leafHash).AddAll
        [[0x41], [0x42], [0x41]]).2.QueryMembership ([[0x41], [0x42], [0x41]].getD 0 []) 1 =
        some proof ∧
      ((NewBalloon (searchTestState .empty).tree (searchTestState .empty).leafHash).AddAll
        [[0x41], [0x42], [0x41]]).1[1]? = some cj ∧
      ((NewBalloon (searchTestState .empty).tree (searchTestState .empty).leafHash).AddAll
        [[0x41], [0x42], [0x41]]).1[[[0x41], [0x42], [0x41]].length - 1]? = some cn ∧
      proof.Exists = true ∧
      proof.ActualVersion = 0 ∧
      proof.QueryVersion = 1 ∧
      proof.CurrentVersion = 2 ∧
      proof.Hyper.Value = some (Uint64AsBytes 0) ∧
      (PruneToVerify 0 1 [0x41]).InterpretVerify (searchTestState .empty).tree.hasher
        proof.History = cj.HistoryDigest ∧
      proof.Verify (searchTestState .empty).tree.hasher (searchTestState .empty).leafHash
        ([[0x41], [0x42], [0x41]].getD 0 []) ⟨cj.HistoryDigest, cn.HyperDigest, 1⟩ = true :=
  have hev : ∀ e ∈ [[0x41], [0x42], [0x41]],
      validEvent (searchTestState .empty).tree.hasher e := by
    intro e he
    simp only [List.mem_cons, List.mem_singleton, List.not_mem_nil, or_false] at he
    rcases he with rfl | rfl | rfl <;> exact ⟨by decide, by decide⟩
  ⟨⟨by decide, by decide, by decide, hev⟩,
    let ⟨proof, cj, cn, h1, h2, h3, h4, _, h6, _, h8, h9, _, h11, _, h13, h14, _, _⟩ :=
      membership_proof_verifies (searchTestState .empty).tree (searchTestState .empty).leafHash
        [[0x41], [0x42], [0x41]] 0 1 (by decide) (by decide) (by decide) hev
    ⟨proof, cj, cn, h1, h2, h3, h4, h6, h8, h9, by rw [h11, h6]; rfl, by rw [← h13, h6]; rfl,
      h14⟩⟩

/-- C3: when a digest that the tree does not hold is added at version `v1`
and then added again at version `v2`, the membership query still finds the
first version `v1`, and the second insertion leaves the tree and its root as
they were.  For `Add("A")`, `Add("A")` on the balloon the proof has
`exists = true`, `actualVersion = 0` and `currentVersion = 1` (scenario S3, with
the XOR hasher at width 8). -/
theorem readd_keeps_first_version (s : HyperState) (D : List Nat) (v1 v2 : Nat)
    (hbytes : ∀ b ∈ D, b < 256) (hW : 8 * D.length = s.tree.hasher.Len)
    (hwf : s.wellFormed = true) (hfresh : (s.QueryMembership D).Value = none) :
    (((s.Add D v1).2.Add D v2).2.QueryMembership D).Value = some (Uint64AsBytes v1) ∧
      ((s.Add D v1).2.Add D v2).2.root = (s.Add D v1).2.root ∧
      ((s.Add D v1).2.Add D v2).1 = (s.Add D v1).1 ∧
      (((NewBalloon (searchTestState .empty).tree (searchTestState .empty).leafHash).AddAll
          [[0x41], [0x41]]).2.QueryMembership [0x41] 1).map
        (fun p => (p.Exists, p.ActualVersion, p.CurrentVersion)) = some (true, 0, 1) := by
  have hvalid := validKey_of_digest _ D hbytes hW
  have hspan : bytesToNat D < 0 + 2 ^ s.tree.hasher.Len := by
    have := bytesToNat_lt D
    rw [hW] at this
    simpa using this
  have hnone : s.root.lookup D s.tree.hasher.Len 0 = none := by
    rw [← (QueryMembership_spec s D hW).2.1]; exact hfresh
  have hl : (s.Add D v1).2.root.lookup D s.tree.hasher.Len 0 = some (Uint64AsBytes v1) :=
    hyperInsert_lookup s.tree.cacheHeightLimit D (Uint64AsBytes v1) _ hvalid
      s.tree.hasher.Len 0 s.root hwf (Nat.zero_le _) hspan hnone
  have h1 : ((s.Add D v1).2.QueryMembership D).Value = some (Uint64AsBytes v1) := by
    rw [(QueryMembership_spec (s.Add D v1).2 D hW).2.1]; exact hl
  have hsame : ((s.Add D v1).2.Add D v2).2.root = (s.Add D v1).2.root :=
    hyperInsert_present _ _ _ _ _ _ _ hl
  have hstate : ((s.Add D v1).2.Add D v2).2 = (s.Add D v1).2 := by
    cases hs : (s.Add D v1).2 with
    | mk t lh root =>
      rw [hs] at hsame
      simp only [HyperState.Add] at hsame ⊢
      rw [hsame]
  refine ⟨by rw [hstate]; exact h1, hsame, ?_, by decide!⟩
  show ((s.Add D v1).2.Add D v2).2.rootHash = (s.Add D v1).2.rootHash
  rw [hstate]

/-- Instance of `readd_keeps_first_version` on the tree of the search test that holds the
digest `0x00`, for the digest `0x01` added at the versions 1 and 2. -/
theorem readd_keeps_first_version_witness :
    ((∀ b ∈ [0x01], b < 256) ∧ 8 * [0x01].length = (searchTestState oneLeafTree).tree.hasher.Len ∧
      (searchTestState oneLeafTree).wellFormed = true ∧
      ((searchTestState oneLeafTree).QueryMembership [0x01]).Value = none) ∧
    ((((searchTestState oneLeafTree).Add [0x01] 1).2.Add [0x01] 2).2.QueryMembership [0x01]).Value =
        some (Uint64AsBytes 1) ∧
      (((searchTestState oneLeafTree).Add [0x01] 1).2.Add [0x01] 2).2.root =
        ((searchTestState oneLeafTree).Add [0x01] 1).2.root ∧
      (((searchTestState oneLeafTree).Add [0x01] 1).2.Add [0x01] 2).1 =
        ((searchTestState oneLeafTree).Add [0x01] 1).1 ∧
      (((NewBalloon (searchTestState .empty).tree (searchTestState .empty).leafHash).AddAll
          [[0x41], [0x41]]).2.QueryMembership [0x41] 1).map
        (fun p => (p.Exists, p.ActualVersion, p.CurrentVersion)) = some (true, 0, 1) :=
  ⟨⟨by decide, by decide, by decide!, by decide!⟩,
    readd_keeps_first_version (searchTestState oneLeafTree) [0x01] 1 2 (by decide) (by decide)
      (by decide!) (by decide!)⟩

/-- The SHA-256 digests of the empty input and of `"abc"` (written as the two
slices `"ab"`, `"c"`), the test vectors of FIPS 180-4. -/
theorem Sha256Hasher_test_vectors :
    Sha256Hasher [] =
      [0xe3, 0xb0, 0xc4, 0x42, 0x98, 0xfc, 0x1c, 0x14, 0x9a, 0xfb, 0xf4, 0xc8, 0x99, 0x6f,
       0xb9, 0x24, 0x27, 0xae, 0x41, 0xe4, 0x64, 0x9b, 0x93, 0x4c, 0xa4, 0x95, 0x99, 0x1b,
       0x78, 0x52, 0xb8, 0x55] ∧
    Sha256Hasher [[0x61, 0x62], [0x63]] =
      [0xba, 0x78, 0x16, 0xbf, 0x8f, 0x01, 0xcf, 0xea, 0x41, 0x41, 0x40, 0xde, 0x5d, 0xae,
       0x22, 0x23, 0xb0, 0x03, 0x61, 0xa3, 0x96, 0x17, 0x7a, 0x9c, 0xb4, 0x10, 0xff, 0x61,
       0xf2, 0x00, 0x15, 0xad] := by
  decide!

theorem lookupTable_byte : ∀ i, i < 256 → lookupTable.getD i 0 < 256 := by
  decide!

theorem beBytes_byte (n v : Nat) : ∀ x ∈ beBytes n v, x < 256 := by
  induction n with
  | zero => intro x hx; simp [beBytes] at hx
  | succ k ih =>
    intro x hx
    simp only [beBytes, List.mem_cons] at hx
    rcases hx with h | h
    · rw [h]; exact Nat.mod_lt _ (by decide)
    · exact ih x h

theorem xorSum_byte (elem : List Nat) (h : ∀ b ∈ elem, b < 256) : xorSum elem < 256 := by
  unfold xorSum
  have : ∀ acc, acc < 2 ^ 8 → elem.foldl (fun sum b => sum ^^^ b) acc < 2 ^ 8 := by
    induction elem with
    | nil => intro acc hacc; simpa using hacc
    | cons x t ih =>
      intro acc hacc
      simp only [List.foldl_cons]
      exact ih (fun b hb => h b (List.mem_cons_of_mem _ hb)) _
        (Nat.xor_lt_two_pow hacc (h x (List.mem_cons_self _ _)))
  exact this 0 (by decide)

theorem xorFold_byte (data : List (List Nat)) (h : ∀ d ∈ data, ∀ b ∈ d, b < 256) :
    ∀ acc, acc < 2 ^ 8 → data.foldl (fun result elem => result ^^^ xorSum elem) acc < 2 ^ 8 := by
  induction data with
  | nil => intro acc hacc; simpa using hacc
  | cons d t ih =>
    intro acc hacc
    simp only [List.foldl_cons]
    exact ih (fun e he => h e (List.mem_cons_of_mem _ he)) _
      (Nat.xor_lt_two_pow hacc (xorSum_byte d (h d (List.mem_cons_self _ _))))

/-- The digests are byte slices: every element of a digest of `Pearson` and of
`Sha256Hasher` is below 256, and so is the digest of `XorHasher` when the
arguments are byte slices. -/
theorem hasher_digest_bytes (data : List (List Nat)) :
    (∀ x ∈ Pearson data, x < 256) ∧ (∀ x ∈ Sha256Hasher data, x < 256) ∧
    ((∀ d ∈ data, ∀ b ∈ d, b < 256) → ∀ x ∈ XorHasher data, x < 256) := by
  refine ⟨?_, ?_, ?_⟩
  · intro x hx
    simp only [Pearson, List.mem_singleton] at hx
    rw [hx]
    cases hl : List.map pearsonSlice data with
    | nil => simp
    | cons a t =>
      rw [← List.dropLast_append_getLast (List.cons_ne_nil a t), List.foldl_append]
      simp only [List.foldl_cons, List.foldl_nil, pearsonStep]
      exact lookupTable_byte _ (Nat.mod_lt _ (by decide))
  · intro x hx
    simp only [Sha256Hasher, sha256Sum, sha256Digest, List.mem_append] at hx
    rcases hx with ((((((h | h) | h) | h) | h) | h) | h) | h <;> exact beBytes_byte _ _ x h
  · intro hbytes x hx
    simp only [XorHasher, List.mem_singleton] at hx
    rw [hx]
    exact xorFold_byte data hbytes 0 (by decide)

/-! ## The hyper tree operations -/

/-- C11: with the XOR hasher and `W = 8`, whatever the store and the cache,
`NewHyperTree` builds a default-hash vector of eight entries, each the single
byte `0x00`; in particular `defaultHashes[W-1] = 0x00`.  That byte is the hyper
root of an untouched tree over this vector: the root hash of the tree without
nodes, and the hash to which the search plan of the untouched tree is
interpreted; so it is on the empty batches and the nine default hashes of the
search test. -/
theorem NewHyperTree_xor_defaultHashes {Ops Cache Loader Mutation : Type}
    (GetRange : List Nat → List Nat → Except Failure (List (List Nat × List Nat)))
    (pruneToRebuild : List Nat → List Nat → Nat → Loader → Option Ops)
    (Interpret : Ops → pruningContext Cache Mutation →
      Option (List Nat × pruningContext Cache Mutation))
    (NewDefaultBatchLoader : Cache → Nat → Loader) (cache : Cache) :
    ∃ t, initHyperTree ⟨XorHasher, 8⟩ = some t ∧
      NewHyperTree GetRange pruneToRebuild Interpret NewDefaultBatchLoader ⟨XorHasher, 8⟩ cache =
        (HyperTree.RebuildCache GetRange pruneToRebuild Interpret t cache
          (NewDefaultBatchLoader cache t.cacheHeightLimit)).map (fun warmed => (t, warmed)) ∧
      t.defaultHashes.length = 8 ∧
      (∀ d ∈ t.defaultHashes, d = [0x00]) ∧
      t.defaultHashes[8 - 1]? = some [0x00] ∧
      (∀ leafHash : Position → List Nat → List Nat → List Nat,
        (HyperState.mk t leafHash .empty).rootHash = [0x00] ∧
        ((PruneToFind [0x00] (HyperState.mk t leafHash .empty).batchLoader).Interpret
          ⟨t.hasher, t.defaultHashes, [], none⟩).1 = [0x00]) ∧
      ((PruneToFind [0x00] (NewFakeBatchLoader 1 [] [] 4)).Interpret searchTestContext).1
        = [0x00] := by
  have hinit : initHyperTree ⟨XorHasher, 8⟩ =
      some ⟨⟨XorHasher, 8⟩, 4, List.replicate 8 [0x00]⟩ := rfl
  refine ⟨_, hinit, NewHyperTree_of_init _ _ _ _ _ cache _ hinit, by decide, ?_, by decide,
    ?_, by decide⟩
  · intro d hd
    exact List.eq_of_mem_replicate hd
  · intro leafHash
    refine ⟨?_, ?_⟩
    · rw [HyperState.rootHash, hyperHash]
      show defaultHashAt ⟨XorHasher, 8⟩ (List.replicate 8 [0x00]) 8 = [0x00]
      decide
    · rw [PruneToFind_eq_treeFind
        ⟨⟨⟨XorHasher, 8⟩, 4, List.replicate 8 [0x00]⟩, leafHash, .empty⟩ [0x00] rfl,
        treeFind]
      show ((HyperOp.noOp ⟨0, 8⟩).Interpret
        ⟨⟨XorHasher, 8⟩, List.replicate 8 [0x00], [], none⟩).1 = [0x00]
      decide

theorem cacheHeightLimit_eq (W : Nat) (h16 : W < 2 ^ 16) :
    (W + 2 ^ 16 - min16 24 ((W / 8) * 4 % 2 ^ 16)) % 2 ^ 16 = W - min 24 ((W / 8) * 4) := by
  unfold min16
  split <;> omega

/-- C12: for every hasher whose `Len()` is `W` (a `uint16`, at least 1), and
whatever the store and the cache, `NewHyperTree` sets
`cacheHeightLimit = W - min(24, (W/8)*4)`, the division being integer division
and no operation wrapping around; the limit is 4 for `W = 8` and 232 for
`W = 256`.  The limit is handed to the batch loader and to the warm-up, and
the constructor returns the tree exactly when the warm-up returns. -/
theorem NewHyperTree_cacheHeightLimit {Ops Cache Loader Mutation : Type}
    (GetRange : List Nat → List Nat → Except Failure (List (List Nat × List Nat)))
    (pruneToRebuild : List Nat → List Nat → Nat → Loader → Option Ops)
    (Interpret : Ops → pruningContext Cache Mutation →
      Option (List Nat × pruningContext Cache Mutation))
    (NewDefaultBatchLoader : Cache → Nat → Loader) (hasher : Hasher) (cache : Cache)
    (hW : 1 ≤ hasher.Len) (h16 : hasher.Len < 2 ^ 16) :
    ∃ t, initHyperTree hasher = some t ∧
      NewHyperTree GetRange pruneToRebuild Interpret NewDefaultBatchLoader hasher cache =
        (HyperTree.RebuildCache GetRange pruneToRebuild Interpret t cache
          (NewDefaultBatchLoader cache (hasher.Len - min 24 ((hasher.Len / 8) * 4)))).map
          (fun warmed => (t, warmed)) ∧
      t.cacheHeightLimit = hasher.Len - min 24 ((hasher.Len / 8) * 4) ∧
      (hasher.Len = 8 → t.cacheHeightLimit = 4) ∧
      (hasher.Len = 256 → t.cacheHeightLimit = 232) := by
  have hlim := cacheHeightLimit_eq hasher.Len h16
  have hinit := initHyperTree_eq hasher hW
  have hnew := NewHyperTree_of_init GetRange pruneToRebuild Interpret NewDefaultBatchLoader
    hasher cache _ hinit
  refine ⟨_, hinit, ?_, hlim, ?_, ?_⟩
  · rw [hnew]
    exact congrArg (fun c => (HyperTree.RebuildCache GetRange pruneToRebuild Interpret _ cache
      (NewDefaultBatchLoader cache c)).map _) hlim
  · intro h8; simp only [hlim, h8]; decide
  · intro h256; simp only [hlim, h256]; decide

/-- On a store whose hyper table is empty the constructor returns a tree over
SHA-256 (`W = 256`) with the cache height limit 232: an instance of
`NewHyperTree_cacheHeightLimit`. -/
theorem NewHyperTree_cacheHeightLimit_witness :
    1 ≤ (Hasher.mk Sha256Hasher 256).Len ∧ (Hasher.mk Sha256Hasher 256).Len < 2 ^ 16 ∧
    ∃ t, initHyperTree ⟨Sha256Hasher, 256⟩ = some t ∧
      NewHyperTree (storeGetRange []) recordRebuild recordInterpret (fun _ _ => ())
          ⟨Sha256Hasher, 256⟩ [] =
        (HyperTree.RebuildCache (storeGetRange []) recordRebuild recordInterpret t []
          ((fun _ _ => ()) ([] : List (List Nat × List Nat × Nat))
            (256 - min 24 ((256 / 8) * 4)))).map (fun warmed => (t, warmed)) ∧
      t.cacheHeightLimit = 256 - min 24 ((256 / 8) * 4) ∧
      ((256 : Nat) = 8 → t.cacheHeightLimit = 4) ∧
      ((256 : Nat) = 256 → t.cacheHeightLimit = 232) :=
  ⟨by decide, by decide,
    NewHyperTree_cacheHeightLimit (storeGetRange []) recordRebuild recordInterpret
      (fun _ _ => ()) ⟨Sha256Hasher, 256⟩ [] (by decide) (by decide)⟩

/-- C13: for every version `v`, every event digest, every plan builder and
every interpreter, `HyperTree.Add` builds its plan by handing to the plan
builder the digest, the value `Uint64AsBytes(v)`, the cache height limit and the
batch loader, and returns what the interpreter makes of that plan: `Add` does
not return when the plan builder does not.  A plan builder that returns the
value it is handed shows `Uint64AsBytes(v)`, whatever the digest; the value
has exactly 8 bytes, in big-endian order: byte `k` is `(v >> 8*(7-k)) mod 256`. -/
theorem Add_value_is_version_bytes {Ops Cache Loader Mutation : Type}
    (pruneToInsert : List Nat → List Nat → Nat → Loader → Option Ops)
    (Interpret : Ops → pruningContext Cache Mutation →
      Option (List Nat × pruningContext Cache Mutation))
    (t : HyperTree) (cache : Cache) (batchLoader : Loader)
    (eventDigest : List Nat) (v : Nat) :
    HyperTree.Add pruneToInsert Interpret t cache batchLoader eventDigest v =
      (pruneToInsert eventDigest (Uint64AsBytes v) t.cacheHeightLimit batchLoader).bind
        (fun ops => (Interpret ops ⟨t.hasher, cache, t.defaultHashes, []⟩).map
          (fun r => ((r.1, r.2.Mutations, none), r.2.Cache))) ∧
    HyperTree.Add (fun _ value _ (_ : Unit) => some value)
        (fun ops (ctx : pruningContext Unit Unit) => some (ops, ctx)) t () () eventDigest v
      = some ((Uint64AsBytes v, [], none), ()) ∧
    (Uint64AsBytes v).length = 8 ∧
    ∀ k, k < 8 → (Uint64AsBytes v)[k]? = some ((v >>> (8 * (7 - k))) % 256) := by
  refine ⟨?_, rfl, rfl, ?_⟩
  · cases hp : pruneToInsert eventDigest (Uint64AsBytes v) t.cacheHeightLimit batchLoader with
    | none => simp [HyperTree.Add, hp]
    | some ops =>
      cases hi : Interpret ops ⟨t.hasher, cache, t.defaultHashes, []⟩ with
      | none => simp [HyperTree.Add, hp, hi]
      | some r =>
        obtain ⟨rh, ctx1⟩ := r
        simp [HyperTree.Add, hp, hi]
  · intro k hk
    interval_cases k <;> simp [Uint64AsBytes, beBytes, Nat.shiftRight_eq_div_pow]

theorem rebuildStart_eq (t : HyperTree) (h16 : t.hasher.Len < 2 ^ 16) :
    rebuildStart t = 0 :: t.cacheHeightLimit % 256 :: List.replicate (t.hasher.Len / 8) 0 := by
  have hlen : (2 + t.hasher.Len / 8) % 2 ^ 16 = (t.hasher.Len / 8 + 1) + 1 := by omega
  unfold rebuildStart
  rw [hlen]
  rfl

theorem rebuildEnd_eq (t : HyperTree) (h16 : t.hasher.Len < 2 ^ 16) :
    rebuildEnd t =
      0 :: (t.cacheHeightLimit + 1) % 2 ^ 16 % 256 :: List.replicate (t.hasher.Len / 8) 0 := by
  have hlen : (2 + t.hasher.Len / 8) % 2 ^ 16 = (t.hasher.Len / 8 + 1) + 1 := by omega
  unfold rebuildEnd
  rw [hlen]
  rfl

theorem Uint16AsBytes_eq (h : Nat) : Uint16AsBytes h = [h / 256 % 256, h % 256] := by
  simp [Uint16AsBytes, beBytes]

theorem rebuildLoop_records (t : HyperTree) (nodes : List (List Nat × List Nat))
    (hkeys : ∀ n ∈ nodes, 2 ≤ n.1.length) (seen : List (List Nat)) :
    rebuildLoop (fun index _ _ (_ : Unit) => some index)
        (fun ops (ctx : pruningContext (List (List Nat)) Unit) =>
          some ([], { ctx with Cache := ctx.Cache ++ [ops] }))
        t () nodes seen
      = some (seen ++ nodes.map fun n => n.1.drop 2) := by
  induction nodes generalizing seen with
  | nil => simp [rebuildLoop]
  | cons n rest ih =>
    have hn : ¬ n.1.length < 2 := by
      have := hkeys n (List.mem_cons_self _ _); omega
    simp only [rebuildLoop, rebuildIndex, if_neg hn]
    rw [ih (fun m hm => hkeys m (List.mem_cons_of_mem _ hm))]
    simp

/-- C14 as stated fails on the tree of the XOR hasher (`W = 8`, cache height
limit 4), built over a store whose hyper table is empty: the lower bound
`[0, 4, 0]` has 3 bytes, not `1 + W/8 = 2`, its byte 0 is not the height, and
the index taken from the key `[0, 4, 7]` is `[7]`, not the key without its
first byte. -/
theorem RebuildCache_one_byte_height_counterexample :
    ∃ t, NewHyperTree (storeGetRange []) recordRebuild recordInterpret (fun _ _ => ())
        ⟨XorHasher, 8⟩ [] = some (t, []) ∧
      (rebuildStart t).length ≠ 1 + 8 / 8 ∧
      (rebuildStart t)[0]? ≠ some t.cacheHeightLimit ∧
      rebuildIndex [0, 4, 7] ≠ some ([0, 4, 7].drop 1) :=
  ⟨⟨⟨XorHasher, 8⟩, 4, List.replicate 8 [0x0]⟩, rfl, by decide, by decide, by decide⟩

/-- C14, amended: hyper-table keys start with a 2-byte height.  The bounds
that `RebuildCache` builds have length `2 + W/8`: byte 0 is zero, byte 1 is the
low byte of the height (`cacheHeightLimit` in `start`, `cacheHeightLimit + 1`
in `end`), the index bytes are zero; for heights below 255 the first two
bytes are the big-endian height.  These bounds are what `GetRange` receives,
and the index passed to `pruneToRebuild` for each node returned is the key
without its first two bytes. -/
theorem RebuildCache_two_byte_height (t : HyperTree) (h16 : t.hasher.Len < 2 ^ 16) :
    (rebuildStart t).length = 2 + t.hasher.Len / 8 ∧
    (rebuildEnd t).length = 2 + t.hasher.Len / 8 ∧
    rebuildStart t = 0 :: t.cacheHeightLimit % 256 :: List.replicate (t.hasher.Len / 8) 0 ∧
    rebuildEnd t =
      0 :: (t.cacheHeightLimit + 1) % 2 ^ 16 % 256 :: List.replicate (t.hasher.Len / 8) 0 ∧
    (t.cacheHeightLimit < 255 →
      rebuildStart t = Uint16AsBytes t.cacheHeightLimit ++ List.replicate (t.hasher.Len / 8) 0 ∧
      rebuildEnd t =
        Uint16AsBytes (t.cacheHeightLimit + 1) ++ List.replicate (t.hasher.Len / 8) 0) ∧
    (∀ key : List Nat, 2 ≤ key.length → rebuildIndex key = some (key.drop 2)) ∧
    (∀ nodes : List (List Nat × List Nat), (∀ n ∈ nodes, 2 ≤ n.1.length) →
      HyperTree.RebuildCache
          (fun start stop =>
            if start = rebuildStart t ∧ stop = rebuildEnd t then .ok nodes
            else .error .StoreUnavailable)
          (fun index _ _ (_ : Unit) => some index)
          (fun ops (ctx : pruningContext (List (List Nat)) Unit) =>
            some ([], { ctx with Cache := ctx.Cache ++ [ops] }))
          t [] ()
        = some (nodes.map fun n => n.1.drop 2)) := by
  have hs := rebuildStart_eq t h16
  have he := rebuildEnd_eq t h16
  refine ⟨?_, ?_, hs, he, ?_, ?_, ?_⟩
  · rw [hs]; simp; omega
  · rw [he]; simp; omega
  · intro hlim
    rw [hs, he, Uint16AsBytes_eq, Uint16AsBytes_eq]
    have h1 : t.cacheHeightLimit / 256 % 256 = 0 := by omega
    have h2 : (t.cacheHeightLimit + 1) / 256 % 256 = 0 := by omega
    have h3 : (t.cacheHeightLimit + 1) % 2 ^ 16 % 256 = (t.cacheHeightLimit + 1) % 256 := by
      omega
    rw [h1, h2, h3]
    exact ⟨rfl, rfl⟩
  · intro key hkey
    unfold rebuildIndex
    rw [if_neg (by omega)]
  · intro nodes hkeys
    unfold HyperTree.RebuildCache
    simp only [and_self, if_true]
    rw [rebuildLoop_records t nodes hkeys []]
    simp

/-- The bounds of the warm-up scan of a tree over SHA-256 (`W = 256`, cache
height limit 232) have 34 bytes: an instance of `RebuildCache_two_byte_height`. -/
theorem RebuildCache_two_byte_height_witness :
    (HyperTree.mk ⟨Sha256Hasher, 256⟩ 232 []).hasher.Len < 2 ^ 16 ∧
    (rebuildStart ⟨⟨Sha256Hasher, 256⟩, 232, []⟩).length = 2 + 256 / 8 ∧
    (rebuildEnd ⟨⟨Sha256Hasher, 256⟩, 232, []⟩).length = 2 + 256 / 8 :=
  ⟨by decide,
    (RebuildCache_two_byte_height ⟨⟨Sha256Hasher, 256⟩, 232, []⟩ (by decide)).1,
    (RebuildCache_two_byte_height ⟨⟨Sha256Hasher, 256⟩, 232, []⟩ (by decide)).2.1⟩

theorem bytesCompare_zeros_le (idx : List Nat) :
    bytesCompare (List.replicate idx.length 0) idx ≤ 0 := by
  induction idx with
  | nil => simp [bytesCompare]
  | cons a rest ih =>
    simp only [List.length_cons, List.replicate_succ, bytesCompare]
    split
    · decide
    · rw [if_neg (by omega)]; exact ih

theorem bytesCompare_zeros_ge (idx : List Nat) :
    0 ≤ bytesCompare idx (List.replicate idx.length 0) := by
  induction idx with
  | nil => simp [bytesCompare]
  | cons a rest ih =>
    simp only [List.length_cons, List.replicate_succ, bytesCompare]
    rw [if_neg (by omega)]
    split
    · decide
    · exact ih

theorem inKeyRange_height (n c h : Nat) (idx : List Nat) (hc : c < 255) (hh : h < 2 ^ 16)
    (hidx : idx.length = n) :
    inKeyRange (0 :: c :: List.replicate n 0) (0 :: (c + 1) :: List.replicate n 0)
      (Uint16AsBytes h ++ idx) = true ↔ h = c := by
  subst hidx
  have hle := bytesCompare_zeros_le idx
  have hge := bytesCompare_zeros_ge idx
  rw [Uint16AsBytes_eq]
  show inKeyRange _ _ (h / 256 % 256 :: h % 256 :: idx) = true ↔ h = c
  simp only [inKeyRange, bytesCompare, Bool.and_eq_true,
    decide_eq_true_eq, Nat.not_lt_zero, if_false]
  by_cases h0 : 0 < h / 256 % 256
  · simp only [h0, if_true]
    constructor
    · intro hx; exact absurd hx.2 (by decide)
    · intro hx; omega
  · simp only [h0, if_false]
    have hlo : h % 256 = h := by omega
    rw [hlo]
    by_cases h1 : c < h
    · simp only [h1, if_true]
      by_cases h2 : h < c + 1
      · omega
      · simp only [h2, if_false]
        by_cases h3 : c + 1 < h
        · simp only [h3, if_true]
          constructor
          · intro hx; exact absurd hx.2 (by decide)
          · intro hx; omega
        · simp only [h3, if_false]
          constructor
          · intro hx; omega
          · intro hx; omega
    · simp only [h1, if_false]
      by_cases h4 : h < c
      · simp only [h4, if_true]
        constructor
        · intro hx; exact absurd hx.1 (by decide)
        · intro hx; omega
      · simp only [h4, if_false]
        have h5 : h < c + 1 := by omega
        simp only [h5, if_true]
        constructor
        · intro _; omega
        · intro _; exact ⟨hle, by decide⟩

theorem rebuildLoop_recorded (t : HyperTree) (kvs : List (List Nat × List Nat))
    (hkeys : ∀ kv ∈ kvs, 2 ≤ kv.1.length) (seen : List (List Nat × List Nat × Nat)) :
    rebuildLoop recordRebuild recordInterpret t () kvs seen =
      some (seen ++ kvs.map fun kv => (kv.1.drop 2, kv.2, t.cacheHeightLimit)) := by
  induction kvs generalizing seen with
  | nil => simp [rebuildLoop]
  | cons kv rest ih =>
    have hn : ¬ kv.1.length < 2 := by
      have := hkeys kv (List.mem_cons_self _ _); omega
    simp only [rebuildLoop, rebuildIndex, if_neg hn, recordRebuild, recordInterpret]
    rw [ih (fun m hm => hkeys m (List.mem_cons_of_mem _ hm))]
    simp

theorem hyperTable_range (start stop : List Nat) (c : Nat)
    (nodes : List (Nat × List Nat × List Nat))
    (hiff : ∀ n ∈ nodes, (inKeyRange start stop (Uint16AsBytes n.1 ++ n.2.1) = true ↔ n.1 = c)) :
    (hyperTable nodes).filter (fun kv => inKeyRange start stop kv.1) =
      hyperTable (nodes.filter fun n => decide (n.1 = c)) := by
  induction nodes with
  | nil => rfl
  | cons n rest ih =>
    have hrest := ih (fun m hm => hiff m (List.mem_cons_of_mem _ hm))
    have hn := hiff n (List.mem_cons_self _ _)
    unfold hyperTable at hrest ⊢
    by_cases hc : n.1 = c
    · have hin := hn.mpr hc
      have hd : decide (n.1 = c) = true := by simpa using hc
      simp only [List.map_cons, List.filter_cons]
      rw [if_pos hin, if_pos hd, List.map_cons, hrest]
    · have hout : ¬ inKeyRange start stop (Uint16AsBytes n.1 ++ n.2.1) = true :=
        fun h => hc (hn.mp h)
      have hd : ¬ decide (n.1 = c) = true := by simpa using hc
      simp only [List.map_cons, List.filter_cons]
      rw [if_neg hout, if_neg hd, hrest]

theorem scan_range_iff (hasher : Hasher) (hW : hasher.Len = 8 ∨ hasher.Len = 256)
    (t : HyperTree) (ht : initHyperTree hasher = some t) (h : Nat) (index : List Nat)
    (hh : h < 2 ^ 16) (hidx : index.length = hasher.Len / 8) :
    inKeyRange (rebuildStart t) (rebuildEnd t) (Uint16AsBytes h ++ index) = true ↔
      h = t.cacheHeightLimit := by
  have hW1 : 1 ≤ hasher.Len := by omega
  have h16 : hasher.Len < 2 ^ 16 := by omega
  rw [initHyperTree_eq hasher hW1] at ht
  injection ht with ht
  subst ht
  rw [rebuildStart_eq _ h16, rebuildEnd_eq _ h16]
  simp only [cacheHeightLimit_eq hasher.Len h16]
  have hc : hasher.Len - min 24 ((hasher.Len / 8) * 4) < 255 := by
    rcases hW with h8 | h256
    · rw [h8]; decide
    · rw [h256]; decide
  have e1 : (hasher.Len - min 24 ((hasher.Len / 8) * 4)) % 256
      = hasher.Len - min 24 ((hasher.Len / 8) * 4) := by omega
  have e2 : (hasher.Len - min 24 ((hasher.Len / 8) * 4) + 1) % 2 ^ 16 % 256
      = hasher.Len - min 24 ((hasher.Len / 8) * 4) + 1 := by omega
  rw [e1, e2]
  exact inKeyRange_height _ _ h index hc hh hidx

/-- C15: for `W` in `{8, 256}` and the tree that `NewHyperTree` builds, a key of
the stored shape (the 2 big-endian bytes of a height `h`, then `W/8` index
bytes) lies in the half-open range `[start, end)` that `RebuildCache` passes to
`GetRange`, keys being ordered lexicographically on raw bytes, if and only if
`h = cacheHeightLimit`.  So on a store whose hyper table holds the nodes
`nodes`, the warm-up (run by `RebuildCache`, and by the constructor) replays
exactly the nodes stored at the height `cacheHeightLimit`, each once and in
the order of the table, with the index bytes and the value of the node, and
no node of another height. -/
theorem RebuildCache_scans_cache_level (hasher : Hasher)
    (hW : hasher.Len = 8 ∨ hasher.Len = 256) (nodes : List (Nat × List Nat × List Nat))
    (hnodes : ∀ n ∈ nodes, n.1 < 2 ^ 16 ∧ n.2.1.length = hasher.Len / 8) :
    ∃ t, initHyperTree hasher = some t ∧
      (∀ (h : Nat) (index : List Nat), h < 2 ^ 16 → index.length = hasher.Len / 8 →
        (inKeyRange (rebuildStart t) (rebuildEnd t) (Uint16AsBytes h ++ index) = true ↔
          h = t.cacheHeightLimit)) ∧
      HyperTree.RebuildCache (storeGetRange (hyperTable nodes)) recordRebuild recordInterpret
          t [] () =
        some ((nodes.filter fun n => decide (n.1 = t.cacheHeightLimit)).map
          fun n => (n.2.1, n.2.2, t.cacheHeightLimit)) ∧
      NewHyperTree (storeGetRange (hyperTable nodes)) recordRebuild recordInterpret
          (fun _ _ => ()) hasher [] =
        some (t, (nodes.filter fun n => decide (n.1 = t.cacheHeightLimit)).map
          fun n => (n.2.1, n.2.2, t.cacheHeightLimit)) := by
  have hW1 : 1 ≤ hasher.Len := by omega
  obtain ⟨t, hinit⟩ : ∃ t, initHyperTree hasher = some t := ⟨_, initHyperTree_eq hasher hW1⟩
  have hiff := fun h index hh hidx => scan_range_iff hasher hW t hinit h index hh hidx
  have hscan : HyperTree.RebuildCache (storeGetRange (hyperTable nodes)) recordRebuild
      recordInterpret t [] () =
      some ((nodes.filter fun n => decide (n.1 = t.cacheHeightLimit)).map
        fun n => (n.2.1, n.2.2, t.cacheHeightLimit)) := by
    unfold HyperTree.RebuildCache storeGetRange
    simp only
    rw [hyperTable_range _ _ _ nodes
      (fun n hn => hiff n.1 n.2.1 (hnodes n hn).1 (hnodes n hn).2)]
    rw [rebuildLoop_recorded]
    · simp only [hyperTable, List.nil_append, List.map_map]
      rfl
    · intro kv hkv
      simp only [hyperTable, List.mem_map] at hkv
      obtain ⟨n, _, rfl⟩ := hkv
      have h2 : (Uint16AsBytes n.1).length = 2 := beBytes_length 2 n.1
      simp only [List.length_append, h2]
      omega
  refine ⟨t, hinit, hiff, hscan, ?_⟩
  rw [NewHyperTree_of_init _ _ _ _ hasher [] _ hinit, hscan]
  rfl

/-- With the XOR hasher (`W = 8`, cache height limit 4) and a hyper table that
holds nodes at the heights 0, 4, 4 and 8, the warm-up replays the two nodes of
height 4: an instance of `RebuildCache_scans_cache_level`. -/
theorem RebuildCache_scans_cache_level_witness :
    ((Hasher.mk XorHasher 8).Len = 8 ∨ (Hasher.mk XorHasher 8).Len = 256) ∧
    (∀ n ∈ [(0, [1], [9]), (4, [0], [10]), (4, [16], [11]), (8, [0], [12])],
      n.1 < 2 ^ 16 ∧ n.2.1.length = (Hasher.mk XorHasher 8).Len / 8) ∧
    NewHyperTree
        (storeGetRange (hyperTable [(0, [1], [9]), (4, [0], [10]), (4, [16], [11]), (8, [0], [12])]))
        recordRebuild recordInterpret (fun _ _ => ()) ⟨XorHasher, 8⟩ [] =
      some (⟨⟨XorHasher, 8⟩, 4, List.replicate 8 [0x0]⟩, [([0], [10], 4), ([16], [11], 4)]) ∧
    ∃ t, initHyperTree ⟨XorHasher, 8⟩ = some t ∧
      HyperTree.RebuildCache
          (storeGetRange
            (hyperTable [(0, [1], [9]), (4, [0], [10]), (4, [16], [11]), (8, [0], [12])]))
          recordRebuild recordInterpret t [] () =
        some (([(0, [1], [9]), (4, [0], [10]), (4, [16], [11]), (8, [0], [12])].filter
          fun n => decide (n.1 = t.cacheHeightLimit)).map
            fun n => (n.2.1, n.2.2, t.cacheHeightLimit)) :=
  ⟨by decide, by decide, rfl,
    let ⟨t, hinit, _, hscan, _⟩ := RebuildCache_scans_cache_level ⟨XorHasher, 8⟩ (by decide)
      [(0, [1], [9]), (4, [0], [10]), (4, [16], [11]), (8, [0], [12])] (by decide)
    ⟨t, hinit, hscan⟩⟩

/-- C16 as stated fails: on a store whose every read fails, `Add` on the tree of
the XOR hasher does not return the error `StoreUnavailable` (the plan builder
aborts on the failed read and `Add` does not return at all). -/
theorem Add_store_failure_counterexample :
    ¬ ∃ rh, HyperTree.Add readRootPlan rootSlotInterpret
        ⟨⟨XorHasher, 8⟩, 4, List.replicate 8 [0x0]⟩ () (fun _ => none) [0] 0
      = some ((rh, [], some Failure.StoreUnavailable), ()) := by
  rintro ⟨rh, h⟩
  simp [HyperTree.Add, readRootPlan] at h

/-- C16, amended: `HyperTree.Add` never reports a failure through its error
result.  For every plan builder and interpreter, whatever the store reads
they make do, `Add` either does not return or returns a nil error, with the
digest the interpreter computed and the mutations it collected; it returns
exactly when the plan builder and the interpreter both return. -/
theorem Add_error_is_nil {Ops Cache Loader Mutation : Type}
    (pruneToInsert : List Nat → List Nat → Nat → Loader → Option Ops)
    (Interpret : Ops → pruningContext Cache Mutation →
      Option (List Nat × pruningContext Cache Mutation))
    (t : HyperTree) (cache : Cache) (batchLoader : Loader)
    (eventDigest : List Nat) (version : Nat) :
    (HyperTree.Add pruneToInsert Interpret t cache batchLoader eventDigest version = none ∨
      ∃ ops rh ctx1,
        pruneToInsert eventDigest (Uint64AsBytes version) t.cacheHeightLimit batchLoader
          = some ops ∧
        Interpret ops ⟨t.hasher, cache, t.defaultHashes, []⟩ = some (rh, ctx1) ∧
        HyperTree.Add pruneToInsert Interpret t cache batchLoader eventDigest version
          = some ((rh, ctx1.Mutations, none), ctx1.Cache)) ∧
    ((HyperTree.Add pruneToInsert Interpret t cache batchLoader eventDigest version).isSome ↔
      ∃ ops,
        pruneToInsert eventDigest (Uint64AsBytes version) t.cacheHeightLimit batchLoader
          = some ops ∧
        (Interpret ops ⟨t.hasher, cache, t.defaultHashes, []⟩).isSome) := by
  cases hp : pruneToInsert eventDigest (Uint64AsBytes version) t.cacheHeightLimit batchLoader with
  | none => simp [HyperTree.Add, hp]
  | some ops =>
    cases hi : Interpret ops ⟨t.hasher, cache, t.defaultHashes, []⟩ with
    | none => simp [HyperTree.Add, hp, hi]
    | some r =>
      obtain ⟨rh, ctx1⟩ := r
      simp only [HyperTree.Add, hp, hi]
      exact ⟨Or.inr ⟨ops, rh, ctx1, rfl, hi, rfl⟩, by simp [hi]⟩

/-- On a store whose reads succeed, `Add` returns the digest read from the root
batch with a nil error: an instance of `Add_error_is_nil`. -/
theorem Add_error_is_nil_witness :
    (HyperTree.Add readRootPlan rootSlotInterpret
        ⟨⟨XorHasher, 8⟩, 4, List.replicate 8 [0x0]⟩ ()
        (fun pos => some ((searchTestState oneLeafTree).batchLoader pos)) [0] 0).isSome :=
  (Add_error_is_nil readRootPlan rootSlotInterpret
    ⟨⟨XorHasher, 8⟩, 4, List.replicate 8 [0x0]⟩ ()
    (fun pos => some ((searchTestState oneLeafTree).batchLoader pos)) [0] 0).2.mpr
    ⟨_, rfl, rfl⟩

theorem BytesAsUint16_Uint16AsBytes (h : Nat) (hh : h < 2 ^ 16) :
    BytesAsUint16 (Uint16AsBytes h) = some h := by
  have hlen : (beBytes 2 h).length = 2 := beBytes_length 2 h
  have htake : (beBytes 2 h).take 2 = beBytes 2 h := by
    rw [List.take_of_length_le (by omega)]
  unfold BytesAsUint16 Uint16AsBytes
  rw [if_neg (by omega), htake, bytesToNat_beBytes]
  have : (256 : Nat) ^ 2 = 2 ^ 16 := by norm_num
  rw [this, Nat.mod_eq_of_lt hh]

/-- C17: for every index `i` (a `uint64`) and height `h` (a `uint16`) the
history-table key `Uint64AsBytes(i) ++ Uint16AsBytes(h)` has exactly 10 bytes,
and the decoding of `runServerVerify` recovers the pair:
`BytesAsUint64(key[:8]) = i` and `BytesAsUint16(key[8:]) = h`. -/
theorem history_key_roundtrip (i h : Nat) (hi : i < 2 ^ 64) (hh : h < 2 ^ 16) :
    (Uint64AsBytes i ++ Uint16AsBytes h).length = 10 ∧
    BytesAsUint64 ((Uint64AsBytes i ++ Uint16AsBytes h).take 8) = some i ∧
    BytesAsUint16 ((Uint64AsBytes i ++ Uint16AsBytes h).drop 8) = some h ∧
    decodeHistoryKey (Uint64AsBytes i ++ Uint16AsBytes h) = some (i, h) := by
  have h8 : (Uint64AsBytes i).length = 8 := beBytes_length 8 i
  have h2 : (Uint16AsBytes h).length = 2 := beBytes_length 2 h
  have ht : (Uint64AsBytes i ++ Uint16AsBytes h).take 8 = Uint64AsBytes i := by
    rw [← h8, List.take_left]
  have hd : (Uint64AsBytes i ++ Uint16AsBytes h).drop 8 = Uint16AsBytes h := by
    rw [← h8, List.drop_left]
  have hlen : (Uint64AsBytes i ++ Uint16AsBytes h).length = 10 := by
    rw [List.length_append, h8, h2]
  refine ⟨hlen, ?_, ?_, ?_⟩
  · rw [ht]; exact BytesAsUint64_Uint64AsBytes i hi
  · rw [hd]; exact BytesAsUint16_Uint16AsBytes h hh
  · unfold decodeHistoryKey
    rw [if_neg (by omega), ht, hd, BytesAsUint64_Uint64AsBytes i hi,
      BytesAsUint16_Uint16AsBytes h hh]

/-- The key of the node `(index 258, height 3)` is
`[0, 0, 0, 0, 0, 0, 1, 2, 0, 3]` and decodes to `(258, 3)`: an instance of
`history_key_roundtrip`. -/
theorem history_key_roundtrip_witness :
    258 < 2 ^ 64 ∧ 3 < 2 ^ 16 ∧
    Uint64AsBytes 258 ++ Uint16AsBytes 3 = [0, 0, 0, 0, 0, 0, 1, 2, 0, 3] ∧
    decodeHistoryKey (Uint64AsBytes 258 ++ Uint16AsBytes 3) = some (258, 3) :=
  ⟨by decide, by decide, by decide, (history_key_roundtrip 258 3 (by decide) (by decide)).2.2.2⟩

/-! ## Position string ids -/

theorem ldigits_digitChar (d : Nat) (hd : d < 16) : ldigits.getD d '0' = Nat.digitChar d := by
  interval_cases d <;> rfl

theorem ofNat_digitChar (d : Nat) (hd : d < 10) : Char.ofNat (48 + d) = Nat.digitChar d := by
  interval_cases d <;> rfl

theorem fmtSbx_foldl (b : List Nat) (hb : ∀ c ∈ b, c < 256) (acc : List Char) :
    b.foldl (fun buf c => buf ++ [ldigits.getD (c / 16 % 16) '0', ldigits.getD (c % 16) '0']) acc
      = acc ++ hexEncoding b := by
  induction b generalizing acc with
  | nil => simp [hexEncoding]
  | cons c rest ih =>
    have hc : c < 256 := hb c (List.mem_cons_self _ _)
    have h1 : c / 16 % 16 = c / 16 := by omega
    rw [List.foldl_cons, ih (fun x hx => hb x (List.mem_cons_of_mem _ hx)), h1,
      ldigits_digitChar (c / 16) (by omega), ldigits_digitChar (c % 16) (by omega)]
    simp [hexEncoding]

theorem fmtIntegerLoop_eq (fuel : Nat) :
    ∀ u buf, u ≤ fuel → fmtIntegerLoop fuel u buf = Nat.toDigitsCore 10 (fuel + 1) u buf := by
  induction fuel with
  | zero =>
    intro u buf hu
    have h0 : u = 0 := by omega
    subst h0
    rfl
  | succ k ih =>
    intro u buf hu
    rw [fmtIntegerLoop, Nat.toDigitsCore]
    by_cases h10 : 10 ≤ u
    · have hne : ¬ u / 10 = 0 := by omega
      have hd : 48 + u - u / 10 * 10 = 48 + u % 10 := by omega
      simp only [h10, if_true, hne, if_false]
      rw [ih (u / 10) _ (by omega), hd, ofNat_digitChar _ (Nat.mod_lt _ (by decide))]
    · have hz : u / 10 = 0 := by omega
      have hm : u % 10 = u := by omega
      simp only [h10, if_false, hz, if_true]
      rw [hm, ldigits_digitChar u (by omega)]

theorem fmtInteger_eq (u : Nat) : fmtInteger u = Nat.toDigits 10 u :=
  fmtIntegerLoop_eq u u [] (le_refl u)

theorem digitChar_mem_ldigits (d : Nat) (hd : d < 16) : Nat.digitChar d ∈ ldigits := by
  interval_cases d <;> decide

/-- C18: for every position with index bytes `b` and height `h`, `StringId`
returns the lowercase hexadecimal encoding of `b` (two characters per byte,
all among `0123456789abcdef`), then the character `|`, then the decimal
representation of `h`. -/
theorem StringId_hex_bar_decimal (p : FakePosition) (hb : ∀ c ∈ p.index, c < 256) :
    p.StringId = String.mk (hexEncoding p.index) ++ "|" ++ toString p.height ∧
    (hexEncoding p.index).length = 2 * p.index.length ∧
    ∀ c ∈ hexEncoding p.index, c ∈ "0123456789abcdef".toList := by
  refine ⟨?_, ?_, ?_⟩
  · have hx : fmtSbx p.index = hexEncoding p.index := by
      have := fmtSbx_foldl p.index hb []
      simpa [fmtSbx] using this
    unfold FakePosition.StringId
    rw [hx, fmtInteger_eq]
    apply String.ext
    simp [String.data_append, Nat.repr, List.asString]
    rfl
  · unfold hexEncoding
    induction p.index with
    | nil => rfl
    | cons c rest ih => simp [List.flatMap_cons, ih]; omega
  · intro c hc
    simp only [hexEncoding, List.mem_flatMap, List.mem_cons, List.mem_singleton,
      List.not_mem_nil, or_false] at hc
    obtain ⟨x, hx, hcx⟩ := hc
    have hx256 := hb x hx
    rcases hcx with h | h
    · rw [h]; exact digitChar_mem_ldigits _ (by omega)
    · rw [h]; exact digitChar_mem_ldigits _ (by omega)

/-- The position with index `[0x80]` and height 7 has the string id `80|7`: an
instance of `StringId_hex_bar_decimal`. -/
theorem StringId_hex_bar_decimal_witness :
    (∀ c ∈ (FakePosition.mk [0x80] 7).index, c < 256) ∧
    (FakePosition.mk [0x80] 7).StringId = "80|7" ∧
    (FakePosition.mk [0x80] 7).StringId
      = String.mk (hexEncoding [0x80]) ++ "|" ++ toString 7 :=
  ⟨by decide, by decide, (StringId_hex_bar_decimal ⟨[0x80], 7⟩ (by decide)).1⟩

/-! ## The versioned key comparator -/

theorem bytesCompare_eq_zero (a : List Nat) : ∀ b, bytesCompare a b = 0 ↔ a = b := by
  induction a with
  | nil => intro b; cases b <;> simp [bytesCompare]
  | cons x xs ih =>
    intro b
    cases b with
    | nil => simp [bytesCompare]
    | cons y ys =>
      simp only [bytesCompare, List.cons.injEq]
      split_ifs with h1 h2
      · constructor
        · intro h; exact absurd h (by decide)
        · intro h; omega
      · constructor
        · intro h; exact absurd h (by decide)
        · intro h; omega
      · rw [ih ys]
        constructor
        · intro h; exact ⟨by omega, h⟩
        · intro h; exact h.2

theorem bytesCompare_swap (a : List Nat) : ∀ b, bytesCompare b a = - bytesCompare a b := by
  induction a with
  | nil => intro b; cases b <;> simp [bytesCompare]
  | cons x xs ih =>
    intro b
    cases b with
    | nil => simp [bytesCompare]
    | cons y ys =>
      simp only [bytesCompare]
      split_ifs <;> first | omega | rfl | exact ih ys

theorem bytesCompare_range (a : List Nat) :
    ∀ b, bytesCompare a b = -1 ∨ bytesCompare a b = 0 ∨ bytesCompare a b = 1 := by
  induction a with
  | nil => intro b; cases b <;> simp [bytesCompare]
  | cons x xs ih =>
    intro b
    cases b with
    | nil => simp [bytesCompare]
    | cons y ys =>
      simp only [bytesCompare]
      split_ifs <;> first | simp | exact ih ys

theorem bytesCompare_trans (a : List Nat) :
    ∀ b c, bytesCompare a b ≤ 0 → bytesCompare b c ≤ 0 → bytesCompare a c ≤ 0 := by
  induction a with
  | nil => intro b c _ _; cases c <;> simp [bytesCompare]
  | cons x xs ih =>
    intro b c hab hbc
    cases b with
    | nil => simp [bytesCompare] at hab
    | cons y ys =>
      cases c with
      | nil => simp [bytesCompare] at hbc
      | cons z zs =>
        simp only [bytesCompare] at hab hbc ⊢
        split_ifs at hab hbc ⊢ <;> first | omega | exact ih ys zs hab hbc

theorem Compare_empty_left (b : List Nat) :
    VersionedKeyComparator.Compare [] b = some (bytesCompare [] b) := by
  simp [VersionedKeyComparator.Compare]

theorem Compare_empty_right (a : List Nat) :
    VersionedKeyComparator.Compare a [] = some (bytesCompare a []) := by
  simp [VersionedKeyComparator.Compare]

/-- The comparison of two keys that carry the suffix: the user keys first, then
the suffixes in reverse order. -/
theorem Compare_long (a b : List Nat) (ha : 8 ≤ a.length) (hb : 8 ≤ b.length) :
    VersionedKeyComparator.Compare a b = some
      (if bytesCompare (a.take (a.length - 8)) (b.take (b.length - 8)) ≠ 0 then
        bytesCompare (a.take (a.length - 8)) (b.take (b.length - 8))
      else bytesCompare (b.drop (b.length - 8)) (a.drop (a.length - 8))) := by
  have h1 : ¬ (a.length < 8 ∨ b.length < 8) := by omega
  have h2 : ¬ (a.drop (a.length - 8)).length = 0 := by rw [List.length_drop]; omega
  have h3 : ¬ (b.drop (b.length - 8)).length = 0 := by rw [List.length_drop]; omega
  unfold VersionedKeyComparator.Compare
  simp only [h1, if_false, h2, h3]
  by_cases hc1 : bytesCompare (a.take (a.length - 8)) (b.take (b.length - 8)) = 0
  · simp only [hc1, ne_eq, not_true_eq_false, if_false]
    by_cases hc2 : bytesCompare (b.drop (b.length - 8)) (a.drop (a.length - 8)) = 0
    · simp only [hc2, not_true_eq_false, if_false]
      have e1 := (bytesCompare_eq_zero _ _).mp hc1
      have e2 := (bytesCompare_eq_zero _ _).mp hc2
      have hab : a = b := by
        rw [← List.take_append_drop (a.length - 8) a, ← List.take_append_drop (b.length - 8) b,
          e1, e2]
      rw [(bytesCompare_eq_zero a b).mpr hab]
    · simp only [hc2, not_false_eq_true, if_true]
  · simp only [hc1, ne_eq, not_false_eq_true, if_true]

theorem suffix_order_eq_zero (a1 a2 b1 b2 : List Nat) :
    (if bytesCompare a1 b1 ≠ 0 then bytesCompare a1 b1 else bytesCompare b2 a2) = 0 ↔
      a1 = b1 ∧ a2 = b2 := by
  by_cases h : bytesCompare a1 b1 = 0
  · simp only [h, ne_eq, not_true_eq_false, if_false]
    rw [bytesCompare_eq_zero] at h
    rw [bytesCompare_eq_zero]
    constructor
    · intro h2; exact ⟨h, h2.symm⟩
    · intro h2; exact h2.2.symm
  · simp only [h, ne_eq, not_false_eq_true, if_true, false_iff]
    intro h2
    exact h ((bytesCompare_eq_zero _ _).mpr h2.1)

theorem suffix_order_swap (a1 a2 b1 b2 : List Nat) :
    (if bytesCompare b1 a1 ≠ 0 then bytesCompare b1 a1 else bytesCompare a2 b2) =
      - (if bytesCompare a1 b1 ≠ 0 then bytesCompare a1 b1 else bytesCompare b2 a2) := by
  rw [bytesCompare_swap a1 b1, bytesCompare_swap b2 a2]
  by_cases h : bytesCompare a1 b1 = 0
  · simp [h]
  · simp [h]

theorem suffix_order_trans (a1 a2 b1 b2 c1 c2 : List Nat)
    (hab : (if bytesCompare a1 b1 ≠ 0 then bytesCompare a1 b1 else bytesCompare b2 a2) ≤ 0)
    (hbc : (if bytesCompare b1 c1 ≠ 0 then bytesCompare b1 c1 else bytesCompare c2 b2) ≤ 0) :
    (if bytesCompare a1 c1 ≠ 0 then bytesCompare a1 c1 else bytesCompare c2 a2) ≤ 0 := by
  by_cases hp : bytesCompare a1 b1 = 0
  · have e : a1 = b1 := (bytesCompare_eq_zero _ _).mp hp
    subst e
    simp only [hp, ne_eq, not_true_eq_false, if_false] at hab
    by_cases hq : bytesCompare a1 c1 = 0
    · simp only [hq, ne_eq, not_true_eq_false, if_false] at hbc ⊢
      exact bytesCompare_trans c2 b2 a2 hbc hab
    · simp only [hq, ne_eq, not_false_eq_true, if_true] at hbc ⊢
      exact hbc
  · simp only [hp, ne_eq, not_false_eq_true, if_true] at hab
    have hq : bytesCompare b1 c1 ≤ 0 := by
      by_cases hq0 : bytesCompare b1 c1 = 0
      · omega
      · simpa [hq0] using hbc
    have hr : bytesCompare a1 c1 ≤ 0 := bytesCompare_trans a1 b1 c1 hab hq
    by_cases hr0 : bytesCompare a1 c1 = 0
    · exfalso
      have e : a1 = c1 := (bytesCompare_eq_zero _ _).mp hr0
      subst e
      have hs := bytesCompare_swap a1 b1
      omega
    · simp only [hr0, ne_eq, not_false_eq_true, if_true]
      exact hr

theorem Compare_valid (a b : List Nat) (ha : validVersionedKey a) (hb : validVersionedKey b) :
    ∃ x, VersionedKeyComparator.Compare a b = some x ∧
      VersionedKeyComparator.Compare b a = some (-x) ∧ (x = 0 ↔ a = b) := by
  rcases ha with ha | ha
  · have ea : a = [] := List.length_eq_zero.mp ha
    subst ea
    exact ⟨_, Compare_empty_left b, by rw [Compare_empty_right, bytesCompare_swap [] b],
      bytesCompare_eq_zero [] b⟩
  · rcases hb with hb | hb
    · have eb : b = [] := List.length_eq_zero.mp hb
      subst eb
      exact ⟨_, Compare_empty_right a, by rw [Compare_empty_left, bytesCompare_swap a []],
        bytesCompare_eq_zero a []⟩
    · refine ⟨_, Compare_long a b ha hb, ?_, ?_⟩
      · rw [Compare_long b a hb ha, suffix_order_swap]
      · rw [suffix_order_eq_zero]
        constructor
        · intro h
          rw [← List.take_append_drop (a.length - 8) a, ← List.take_append_drop (b.length - 8) b,
            h.1, h.2]
        · intro h; subst h; exact ⟨rfl, rfl⟩

theorem bytesCompare_nil_left (b : List Nat) : bytesCompare [] b ≤ 0 := by
  cases b <;> simp [bytesCompare]

theorem bytesCompare_nil_right (a : List Nat) (h : bytesCompare a [] ≤ 0) : a = [] := by
  cases a with
  | nil => rfl
  | cons x xs => simp [bytesCompare] at h

theorem Compare_trans (a b c : List Nat) (ha : validVersionedKey a)
    (hb : validVersionedKey b) (hc : validVersionedKey c) (x y z : Int)
    (hx : VersionedKeyComparator.Compare a b = some x)
    (hy : VersionedKeyComparator.Compare b c = some y)
    (hz : VersionedKeyComparator.Compare a c = some z) (hx0 : x ≤ 0) (hy0 : y ≤ 0) : z ≤ 0 := by
  rcases ha with ha | ha
  · have ea : a = [] := List.length_eq_zero.mp ha
    subst ea
    rw [Compare_empty_left] at hz
    injection hz with hz
    rw [← hz]; exact bytesCompare_nil_left c
  · rcases hb with hb | hb
    · have eb : b = [] := List.length_eq_zero.mp hb
      subst eb
      rw [Compare_empty_right] at hx
      injection hx with hx
      have := bytesCompare_nil_right a (by rw [hx]; exact hx0)
      subst this
      simp at ha
    · rcases hc with hc | hc
      · have ec : c = [] := List.length_eq_zero.mp hc
        subst ec
        rw [Compare_empty_right] at hy
        injection hy with hy
        have := bytesCompare_nil_right b (by rw [hy]; exact hy0)
        subst this
        simp at hb
      · rw [Compare_long a b ha hb] at hx
        rw [Compare_long b c hb hc] at hy
        rw [Compare_long a c ha hc] at hz
        injection hx with hx
        injection hy with hy
        injection hz with hz
        rw [← hz]
        exact suffix_order_trans _ _ _ _ _ _ (by rw [hx]; exact hx0) (by rw [hy]; exact hy0)

/-- C19: on valid keys (the empty key and keys of at least 8 bytes)
`VersionedKeyComparator.Compare` returns a result and is a three-way
comparison of a total order: `Compare(a, b) = 0` if and only if `a = b`, the
sign of `Compare(b, a)` is the opposite of the sign of `Compare(a, b)`, and
`Compare(a, b) <= 0` with `Compare(b, c) <= 0` implies `Compare(a, c) <= 0`. -/
theorem Compare_three_way_total_order (a b c : List Nat) (ha : validVersionedKey a)
    (hb : validVersionedKey b) (hc : validVersionedKey c) :
    ∃ ab ba bc ac,
      VersionedKeyComparator.Compare a b = some ab ∧
      VersionedKeyComparator.Compare b a = some ba ∧
      VersionedKeyComparator.Compare b c = some bc ∧
      VersionedKeyComparator.Compare a c = some ac ∧
      (ab = 0 ↔ a = b) ∧
      Int.sign ba = - Int.sign ab ∧
      (ab ≤ 0 → bc ≤ 0 → ac ≤ 0) := by
  obtain ⟨ab, hab, hba, hzero⟩ := Compare_valid a b ha hb
  obtain ⟨bc, hbc, _, _⟩ := Compare_valid b c hb hc
  obtain ⟨ac, hac, _, _⟩ := Compare_valid a c ha hc
  refine ⟨ab, -ab, bc, ac, hab, hba, hbc, hac, hzero, Int.sign_neg ab, ?_⟩
  intro h1 h2
  exact Compare_trans a b c ha hb hc ab bc ac hab hbc hac h1 h2

/-- The empty key, the key `k` with suffix 2 and the key `k` with suffix 1 are
in ascending order (a larger suffix sorts first): an instance of
`Compare_three_way_total_order`. -/
theorem Compare_three_way_total_order_witness :
    validVersionedKey [] ∧ validVersionedKey [107, 0, 0, 0, 0, 0, 0, 0, 2] ∧
    validVersionedKey [107, 0, 0, 0, 0, 0, 0, 0, 1] ∧
    VersionedKeyComparator.Compare [107, 0, 0, 0, 0, 0, 0, 0, 2] [107, 0, 0, 0, 0, 0, 0, 0, 1]
      = some (-1) ∧
    ∃ ab ba bc ac,
      VersionedKeyComparator.Compare [] [107, 0, 0, 0, 0, 0, 0, 0, 2] = some ab ∧
      VersionedKeyComparator.Compare [107, 0, 0, 0, 0, 0, 0, 0, 2] [] = some ba ∧
      VersionedKeyComparator.Compare [107, 0, 0, 0, 0, 0, 0, 0, 2] [107, 0, 0, 0, 0, 0, 0, 0, 1]
        = some bc ∧
      VersionedKeyComparator.Compare [] [107, 0, 0, 0, 0, 0, 0, 0, 1] = some ac ∧
      (ab = 0 ↔ ([] : List Nat) = [107, 0, 0, 0, 0, 0, 0, 0, 2]) ∧
      Int.sign ba = - Int.sign ab ∧
      (ab ≤ 0 → bc ≤ 0 → ac ≤ 0) :=
  ⟨by decide, by decide, by decide, by decide,
    Compare_three_way_total_order [] [107, 0, 0, 0, 0, 0, 0, 0, 2] [107, 0, 0, 0, 0, 0, 0, 0, 1]
      (by decide) (by decide) (by decide)⟩

/-! ## Shell input -/

/-- Some inputs of the shell: repeated spaces, tabs and line ends around the
tokens, a missing action, and tokens after the second. -/
theorem GetCommandAndAction_examples :
    GetCommandAndAction "add  event  now" = ("add", "event") ∧
    GetCommandAndAction " help\t add\n" = ("help", "add") ∧
    GetCommandAndAction "quit" = ("quit", "") ∧
    GetCommandAndAction "" = ("", "") := by
  decide

/-! ## Locking, panics of the comparator, padding and the cache height limit -/

/-- C21 as stated fails: `QueryMembership` does not take the read lock, and
on an unlocked tree a second membership query blocks while a first one holds
the lock. -/
theorem QueryMembership_shared_counterexample :
    HyperTreeMethod.QueryMembership.lockOp ≠ LockOp.RLock ∧
    ((RWMutex.mk 0 false).acquire HyperTreeMethod.QueryMembership.lockOp).bind
      (fun held => held.acquire HyperTreeMethod.QueryMembership.lockOp) = none := by
  decide

/-- C21, amended: every locking method of the hyper tree, `QueryMembership`
and `Add` included, takes exclusive access (`t.Lock()`): on an unlocked tree
any of them acquires the lock, and while it holds the lock every other call,
a membership query as well as an `Add`, blocks.  A query is blocked by an
in-flight `Add`, and also by another in-flight query. -/
theorem HyperTree_methods_exclusive (m1 m2 : HyperTreeMethod) :
    m1.lockOp = LockOp.Lock ∧
    ∃ held, (RWMutex.mk 0 false).acquire m1.lockOp = some held ∧
      held.acquire m2.lockOp = none := by
  cases m1 <;> cases m2 <;> exact ⟨rfl, ⟨0, true⟩, rfl, rfl⟩

/-- C22: `VersionedKeyComparator.Compare` panics if and only if at least one of
the two keys is shorter than 8 bytes and neither key is empty; when either
key is empty it returns the plain bytewise comparison, and when both keys
have at least 8 bytes it returns a result. -/
theorem Compare_panics_iff (a b : List Nat) :
    (VersionedKeyComparator.Compare a b = none ↔
      (a.length < 8 ∨ b.length < 8) ∧ a ≠ [] ∧ b ≠ []) ∧
    (a = [] ∨ b = [] → VersionedKeyComparator.Compare a b = some (bytesCompare a b)) ∧
    (8 ≤ a.length → 8 ≤ b.length → (VersionedKeyComparator.Compare a b).isSome = true) := by
  refine ⟨?_, ?_, ?_⟩
  · by_cases hshort : a.length < 8 ∨ b.length < 8
    · by_cases hempty : a.length = 0 ∨ b.length = 0
      · have h1 : VersionedKeyComparator.Compare a b = some (bytesCompare a b) := by
          simp only [VersionedKeyComparator.Compare, hshort, hempty, if_true]
        rw [h1]
        simp only [List.length_eq_zero] at hempty
        constructor
        · intro h; exact absurd h (by simp)
        · rintro ⟨_, ha, hb⟩
          rcases hempty with h | h
          · exact absurd h ha
          · exact absurd h hb
      · have h1 : VersionedKeyComparator.Compare a b = none := by
          simp only [VersionedKeyComparator.Compare, hshort, hempty, if_true, if_false]
        rw [h1]
        simp only [List.length_eq_zero, not_or] at hempty
        exact ⟨fun _ => ⟨hshort, hempty.1, hempty.2⟩, fun _ => rfl⟩
    · have ha : 8 ≤ a.length := by omega
      have hb : 8 ≤ b.length := by omega
      rw [Compare_long a b ha hb]
      constructor
      · intro h; exact absurd h (by simp)
      · rintro ⟨h, _, _⟩; exact absurd h hshort
  · intro h
    rcases h with h | h
    · subst h; exact Compare_empty_left b
    · subst h; exact Compare_empty_right a
  · intro ha hb
    rw [Compare_long a b ha hb]
    rfl

/-- The keys `[1]` and `[2, 3]` make `Compare` panic, the empty key and `[1]`
do not: an instance of `Compare_panics_iff`. -/
theorem Compare_panics_iff_witness :
    VersionedKeyComparator.Compare [1] [2, 3] = none ∧
    VersionedKeyComparator.Compare [] [1] = some (bytesCompare [] [1]) :=
  ⟨(Compare_panics_iff [1] [2, 3]).1.mpr (by decide),
    (Compare_panics_iff [] [1]).2.1 (Or.inl rfl)⟩

/-- C26: `WALIterator.Status` returns nil for every outcome of the native status
call, also when the native call sets an error string; the error value built
from that string is not returned. -/
theorem WALIterator_Status_nil {It : Type} (rocksdb_wal_iter_status : It → Option String)
    (it : It) :
    WALIterator.Status rocksdb_wal_iter_status it = none ∧
    ∀ text : String, WALIterator.Status (fun _ : It => some text) it = none :=
  ⟨rfl, fun _ => rfl⟩

/-- C27: for every hash width `W` representable as `uint16`, the computation of
`cacheHeightLimit` in `NewHyperTree` does not wrap around: `(W/8)*4` stays
below `2^16` and `min(24, (W/8)*4) <= W`, so `cacheHeightLimit <= W`; the number
of levels below the limit, `W - cacheHeightLimit`, is a multiple of the batch
depth 4 and at most 24.  For `W >= 1` it is the limit of the tree the
constructor builds, hands to the warm-up and returns when the warm-up returns,
whatever the store and the cache. -/
theorem cacheHeightLimit_no_wrap (W : Nat) (hW : W < 2 ^ 16) :
    (W / 8) * 4 < 2 ^ 16 ∧
    min16 24 ((W / 8) * 4) ≤ W ∧
    cacheHeightLimitOf W = W - min16 24 ((W / 8) * 4) ∧
    cacheHeightLimitOf W ≤ W ∧
    4 ∣ W - cacheHeightLimitOf W ∧
    W - cacheHeightLimitOf W ≤ 24 ∧
    ∀ {Ops Cache Loader Mutation : Type}
      (GetRange : List Nat → List Nat → Except Failure (List (List Nat × List Nat)))
      (pruneToRebuild : List Nat → List Nat → Nat → Loader → Option Ops)
      (Interpret : Ops → pruningContext Cache Mutation →
        Option (List Nat × pruningContext Cache Mutation))
      (NewDefaultBatchLoader : Cache → Nat → Loader) (hasher : Hasher) (cache : Cache),
      hasher.Len = W → 1 ≤ W →
      ∃ t, initHyperTree hasher = some t ∧ t.cacheHeightLimit = cacheHeightLimitOf W ∧
        NewHyperTree GetRange pruneToRebuild Interpret NewDefaultBatchLoader hasher cache =
          (HyperTree.RebuildCache GetRange pruneToRebuild Interpret t cache
            (NewDefaultBatchLoader cache (cacheHeightLimitOf W))).map
            (fun warmed => (t, warmed)) := by
  have hmin : min16 24 ((W / 8) * 4) = min 24 ((W / 8) * 4) := by
    unfold min16; split <;> omega
  have hlim : cacheHeightLimitOf W = W - min 24 ((W / 8) * 4) :=
    cacheHeightLimit_eq W hW
  refine ⟨by omega, by omega, by omega, by omega, ?_, by omega, ?_⟩
  · have : W - cacheHeightLimitOf W = min 24 ((W / 8) * 4) := by omega
    rw [this]
    by_cases h : 24 ≤ (W / 8) * 4
    · rw [Nat.min_eq_left h]; decide
    · rw [Nat.min_eq_right (by omega)]; exact Dvd.intro_left _ rfl
  · intro Ops Cache Loader Mutation GetRange pruneToRebuild Interpret NewDefaultBatchLoader
      hasher cache hlen h1
    subst hlen
    have hinit := initHyperTree_eq hasher h1
    exact ⟨_, hinit, rfl,
      NewHyperTree_of_init GetRange pruneToRebuild Interpret NewDefaultBatchLoader
        hasher cache _ hinit⟩

/-- At `W = 8` the limit is 4 and at `W = 65535` it is 65511: instances of
`cacheHeightLimit_no_wrap`. -/
theorem cacheHeightLimit_no_wrap_witness :
    65535 < 2 ^ 16 ∧ cacheHeightLimitOf 65535 = 65511 ∧ cacheHeightLimitOf 8 = 4 ∧
    cacheHeightLimitOf 65535 ≤ 65535 ∧ 65535 - cacheHeightLimitOf 65535 ≤ 24 :=
  ⟨by decide, by decide, by decide, (cacheHeightLimit_no_wrap 65535 (by decide)).2.2.2.1,
    (cacheHeightLimit_no_wrap 65535 (by decide)).2.2.2.2.2.1⟩

theorem AddPaddingToBytes_panic_iff (b : List Nat) (n : Nat) :
    AddPaddingToBytes b n = none ↔ b.length / 8 < n ∧ n < b.length := by
  unfold AddPaddingToBytes
  by_cases h1 : n ≤ b.length / 8
  · rw [if_pos h1]
    constructor
    · intro h; exact absurd h (by simp)
    · intro h; omega
  · rw [if_neg h1]
    by_cases h2 : n < b.length
    · rw [if_pos h2]
      exact ⟨fun _ => ⟨by omega, h2⟩, fun _ => rfl⟩
    · rw [if_neg h2]
      constructor
      · intro h; exact absurd h (by simp)
      · intro h; omega

theorem AddPaddingToBytes_result (b r : List Nat) (n : Nat)
    (h : AddPaddingToBytes b n = some r) :
    r.length = max b.length n ∧ r = List.replicate (max b.length n - b.length) 0 ++ b := by
  unfold AddPaddingToBytes at h
  by_cases h1 : n ≤ b.length / 8
  · rw [if_pos h1] at h
    injection h with h
    subst h
    have hmax : max b.length n = b.length := by omega
    rw [hmax]
    simp
  · rw [if_neg h1] at h
    by_cases h2 : n < b.length
    · rw [if_pos h2] at h
      exact absurd h (by simp)
    · rw [if_neg h2] at h
      injection h with h
      subst h
      have hmax : max b.length n = n := by omega
      rw [hmax]
      simp
      omega

/-- C23 fails on the code: padding the 8 bytes of a `uint64` to `n = 4` and the 2
bytes of a `uint16` to `n = 1` panics (the guard compares `len(b)/8`, not
`len(b)`, with `n`, and `tmp[n-len(b):]` is then out of range);
`Uint64AsPaddedBytes(i, n)` panics exactly for `2 <= n <= 7`. -/
theorem AddPaddingToBytes_panics :
    AddPaddingToBytes [0, 0, 0, 0, 0, 0, 0, 1] 4 = none ∧
    Uint64AsPaddedBytes 1 4 = none ∧
    Uint16AsPaddedBytes 1 1 = none ∧
    ∀ i n, Uint64AsPaddedBytes i n = none ↔ 2 ≤ n ∧ n ≤ 7 := by
  refine ⟨by decide, by decide, by decide, ?_⟩
  intro i n
  unfold Uint64AsPaddedBytes
  rw [AddPaddingToBytes_panic_iff]
  have hlen : (Uint64AsBytes i).length = 8 := beBytes_length 8 i
  rw [hlen]
  omega

/-! ## The integrity scan -/

theorem decodeHistoryKey_historyKey (e : Nat × Nat) (hi : e.1 < 2 ^ 64) (hh : e.2 < 2 ^ 16) :
    decodeHistoryKey (historyKey e) = some (e.1, e.2) := by
  have h8 : (Uint64AsBytes e.1).length = 8 := beBytes_length 8 e.1
  have h2 : (Uint16AsBytes e.2).length = 2 := beBytes_length 2 e.2
  have ht : (Uint64AsBytes e.1 ++ Uint16AsBytes e.2).take 8 = Uint64AsBytes e.1 := by
    rw [← h8, List.take_left]
  have hd : (Uint64AsBytes e.1 ++ Uint16AsBytes e.2).drop 8 = Uint16AsBytes e.2 := by
    rw [← h8, List.drop_left]
  have hlen : (Uint64AsBytes e.1 ++ Uint16AsBytes e.2).length = 10 := by
    rw [List.length_append, h8, h2]
  unfold decodeHistoryKey historyKey
  rw [if_neg (by omega), ht, hd, BytesAsUint64_Uint64AsBytes e.1 hi,
    BytesAsUint16_Uint16AsBytes e.2 hh]

theorem gapLoop_spec (fuel : Nat) :
    ∀ count index printed, index - count = fuel → count ≤ index → index < 2 ^ 64 →
      gapLoop fuel count index printed = (index, printed ++ List.range' count fuel) := by
  induction fuel with
  | zero =>
    intro count index printed hf hle _
    have : count = index := by omega
    subst this
    simp [gapLoop]
  | succ k ih =>
    intro count index printed hf hle hlt
    have hc : count < index := by omega
    have hmod : (count + 1) % 2 ^ 64 = count + 1 := Nat.mod_eq_of_lt (by omega)
    rw [gapLoop, if_pos hc, hmod, ih (count + 1) index _ (by omega) (by omega) hlt]
    simp [List.range'_succ]

theorem scanEntry_other (e : Nat × Nat) (st : Nat × List Nat) (hi : e.1 < 2 ^ 64)
    (hh : e.2 < 2 ^ 16) (h0 : e.2 ≠ 0) : scanEntry (historyKey e) st = some st := by
  unfold scanEntry
  rw [decodeHistoryKey_historyKey e hi hh]
  simp only [h0, if_false]

theorem scanEntry_zero (e : Nat × Nat) (count : Nat) (gaps : List Nat) (hi : e.1 < 2 ^ 64)
    (h0 : e.2 = 0) (hc : count ≤ e.1) :
    scanEntry (historyKey e) (count, gaps) =
      some ((e.1 + 1) % 2 ^ 64, gaps ++ List.range' count (e.1 - count)) := by
  unfold scanEntry
  rw [decodeHistoryKey_historyKey e hi (by rw [h0]; decide)]
  simp only [h0, if_true]
  rw [gapLoop_spec (e.1 - count) count e.1 gaps rfl hc hi]

theorem gaps_step (L : List Nat) (b i : Nat) (hb : b ≤ i) (hL : ∀ y ∈ L, y < b) :
    (List.range b).filter (fun x => decide (x ∉ L)) ++ List.range' b (i - b) =
      (List.range (i + 1)).filter (fun x => decide (x ∉ L ++ [i])) := by
  have hsplit : List.range (i + 1) = List.range b ++ List.range' b (i - b) ++ [i] := by
    rw [List.range_succ, List.range_eq_range', List.range_eq_range']
    have := List.range'_append_1 0 b (i - b)
    rw [Nat.zero_add] at this
    rw [this]
    congr 2
    omega
  rw [hsplit, List.filter_append, List.filter_append]
  have h1 : (List.range b).filter (fun x => decide (x ∉ L ++ [i])) =
      (List.range b).filter (fun x => decide (x ∉ L)) := by
    apply List.filter_congr
    intro x hx
    have hxb : x < b := List.mem_range.mp hx
    have hxi : x ≠ i := by omega
    simp [hxi]
  have h2 : (List.range' b (i - b)).filter (fun x => decide (x ∉ L ++ [i])) =
      List.range' b (i - b) := by
    rw [List.filter_eq_self]
    intro x hx
    rw [List.mem_range'_1] at hx
    have hxi : x ≠ i := by omega
    have hxL : x ∉ L := fun hmem => by have := hL x hmem; omega
    simp [hxi, hxL]
  have h3 : [i].filter (fun x => decide (x ∉ L ++ [i])) = [] := by
    simp
  rw [h1, h2, h3, List.append_nil]

theorem heightZeroIndices_cons_zero (e : Nat × Nat) (rest : List (Nat × Nat)) (h0 : e.2 = 0) :
    heightZeroIndices (e :: rest) = e.1 :: heightZeroIndices rest := by
  simp [heightZeroIndices, h0]

theorem heightZeroIndices_cons_other (e : Nat × Nat) (rest : List (Nat × Nat))
    (h0 : e.2 ≠ 0) : heightZeroIndices (e :: rest) = heightZeroIndices rest := by
  simp [heightZeroIndices, h0]

theorem scanEntries_inv (rest : List (Nat × Nat)) :
    ∀ (L : List Nat) (b : Nat),
      (∀ e ∈ rest, e.1 < 2 ^ 64 ∧ e.2 < 2 ^ 16) →
      (∀ y ∈ L, y < b) →
      (heightZeroIndices rest).Pairwise (fun x y => x < y) →
      (∀ i ∈ heightZeroIndices rest, b ≤ i) →
      scanEntries (rest.map historyKey)
          (b % 2 ^ 64, (List.range b).filter (fun x => decide (x ∉ L))) =
        some (((heightZeroIndices rest).getLast?.map (fun k => k + 1)).getD b % 2 ^ 64,
          (List.range (((heightZeroIndices rest).getLast?.map (fun k => k + 1)).getD b)).filter
            (fun x => decide (x ∉ L ++ heightZeroIndices rest))) := by
  induction rest with
  | nil =>
    intro L b _ _ _ _
    simp [scanEntries, heightZeroIndices]
  | cons e rest ih =>
    intro L b hbound hL hsorted hge
    have he := hbound e (List.mem_cons_self _ _)
    have hrest : ∀ x ∈ rest, x.1 < 2 ^ 64 ∧ x.2 < 2 ^ 16 :=
      fun x hx => hbound x (List.mem_cons_of_mem _ hx)
    by_cases h0 : e.2 = 0
    · rw [heightZeroIndices_cons_zero e rest h0] at hsorted hge ⊢
      have hbe : b ≤ e.1 := hge e.1 (List.mem_cons_self _ _)
      have hb64 : b % 2 ^ 64 = b := Nat.mod_eq_of_lt (by omega)
      rw [List.pairwise_cons] at hsorted
      rw [List.map_cons, scanEntries, hb64, scanEntry_zero e b _ he.1 h0 hbe,
        gaps_step L b e.1 hbe hL]
      simp only
      rw [ih (L ++ [e.1]) (e.1 + 1) hrest ?_ hsorted.2 ?_]
      · rw [List.getLast?_cons, List.append_assoc, List.singleton_append]
        cases hlast : (heightZeroIndices rest).getLast? with
        | none => simp
        | some k => simp
      · intro y hy
        rw [List.mem_append, List.mem_singleton] at hy
        rcases hy with hy | hy
        · have := hL y hy; omega
        · omega
      · intro i hi
        have := hsorted.1 i hi
        omega
    · rw [heightZeroIndices_cons_other e rest h0] at hsorted hge ⊢
      rw [List.map_cons, scanEntries, scanEntry_other e _ he.1 he.2 h0]
      exact ih L b hrest hL hsorted hge

theorem scanEntries_append (a b : List (List Nat)) :
    ∀ st, scanEntries (a ++ b) st = (scanEntries a st).bind (scanEntries b) := by
  induction a with
  | nil => intro st; rfl
  | cons key rest ih =>
    intro st
    rw [List.cons_append, scanEntries, scanEntries]
    cases scanEntry key st with
    | none => rfl
    | some st1 => exact ih st1

theorem scanReads_chunks (chunks : List (List (Nat × Nat))) (hne : ∀ c ∈ chunks, c ≠ []) :
    ∀ st, scanReads (chunks.map fun c => Except.ok (c.map historyKey)) st =
      (scanEntries (chunks.flatten.map historyKey) st).map Except.ok := by
  induction chunks with
  | nil => intro st; rfl
  | cons c rest ih =>
    intro st
    cases c with
    | nil => exact absurd rfl (hne [] (List.mem_cons_self _ _))
    | cons e es =>
      rw [List.flatten_cons, List.map_append, scanEntries_append, List.map_cons, List.map_cons,
        scanReads]
      cases scanEntries (historyKey e :: List.map historyKey es) st with
      | none => rfl
      | some st1 => exact ih (fun x hx => hne x (List.mem_cons_of_mem _ hx)) st1

theorem heightZeroIndices_bound (entries : List (Nat × Nat))
    (hbound : ∀ e ∈ entries, e.1 < 2 ^ 64 ∧ e.2 < 2 ^ 16) :
    ∀ i ∈ heightZeroIndices entries, i < 2 ^ 64 := by
  intro i hi
  simp only [heightZeroIndices, List.mem_map, List.mem_filter] at hi
  obtain ⟨e, ⟨he, _⟩, rfl⟩ := hi
  exact (hbound e he).1

/-- C24: given the entries of the history table, those of height 0 with strictly
ascending indices of which `ik` is the last, and reads that all succeed, the
scan of `runServerVerify` reports as gaps exactly the indices of `[0, ik]` that
no entry of height 0 carries, each once and in ascending order, and ends with
`count = ik + 1` (a `uint64`); an entry of height above 0 leaves `count` and the
gaps reported as they are; the error returned is nil, gaps or not. -/
theorem runServerVerify_reports_gaps (entries : List (Nat × Nat))
    (chunks : List (List (Nat × Nat))) (lastIndex ik : Nat)
    (hbound : ∀ e ∈ entries, e.1 < 2 ^ 64 ∧ e.2 < 2 ^ 16)
    (hsorted : (heightZeroIndices entries).Pairwise (fun x y => x < y))
    (hlast : (heightZeroIndices entries).getLast? = some ik)
    (hchunks : chunks.flatten = entries) (hne : ∀ c ∈ chunks, c ≠ []) :
    runServerVerify lastIndex (chunks.map fun c => Except.ok (c.map historyKey)) =
      some ⟨(List.range (ik + 1)).filter (fun x => decide (x ∉ heightZeroIndices entries)),
        (ik + 1) % 2 ^ 64, decide (ik ≠ lastIndex), none⟩ ∧
    ∀ (e : Nat × Nat) (st : Nat × List Nat), e.1 < 2 ^ 64 → e.2 < 2 ^ 16 → e.2 ≠ 0 →
      scanEntry (historyKey e) st = some st := by
  refine ⟨?_, fun e st hi hh h0 => scanEntry_other e st hi hh h0⟩
  have hik : ik < 2 ^ 64 :=
    heightZeroIndices_bound entries hbound ik (List.mem_of_getLast?_eq_some hlast)
  have hinv := scanEntries_inv entries [] 0 hbound (by simp) hsorted (by simp)
  rw [hlast] at hinv
  simp only [Option.map_some', Option.getD_some, List.nil_append, List.not_mem_nil,
    not_false_eq_true, decide_True, List.filter_true, List.range_zero, Nat.zero_mod] at hinv
  unfold runServerVerify
  rw [scanReads_chunks chunks hne, hchunks, hinv]
  have hcount : ((ik + 1) % 2 ^ 64 + 2 ^ 64 - 1) % 2 ^ 64 = ik := by omega
  simp only [Option.map_some', hcount]

/-- A table with the indices 1, 2 and 5 at height 0, read in two chunks: the
gaps reported are 0, 3 and 4 and the count ends at 6; an instance of
`runServerVerify_reports_gaps`. -/
theorem runServerVerify_reports_gaps_witness :
    runServerVerify 5 ([[(1, 0), (1, 1)], [(2, 0), (5, 0), (5, 3)]].map
        fun c => Except.ok (c.map historyKey)) =
      some ⟨[0, 3, 4], 6, false, none⟩ :=
  (runServerVerify_reports_gaps [(1, 0), (1, 1), (2, 0), (5, 0), (5, 3)]
    [[(1, 0), (1, 1)], [(2, 0), (5, 0), (5, 3)]] 5 5 (by decide) (by decide) (by decide)
    (by decide) (by decide)).1

/-! ## The range loop of the consistency checker -/

theorem checkerLoop_stuck (conf : CheckerConfig) (hint : conf.interval = 0) (fuel : Nat) :
    ∀ endIdx issued, endIdx < conf.rangeEnd → endIdx < 2 ^ 64 →
      checkerLoop (fun _ _ => none) conf fuel endIdx issued = none := by
  induction fuel with
  | zero => intro _ _ _ _; rfl
  | succ k ih =>
    intro endIdx issued hlt h64
    have hmod : (endIdx + conf.interval) % 2 ^ 64 = endIdx := by
      rw [hint, Nat.add_zero, Nat.mod_eq_of_lt h64]
    rw [checkerLoop, if_pos hlt]
    simp only [hmod]
    exact ih endIdx _ hlt h64

/-- C25 fails on the code: with `rangeStart = 0`, `rangeEnd = 1` and the default
interval 0, all queries succeeding, the loop is still running after any number
of passes (`end` stays 0), and more generally so for every configuration with
interval 0 and `rangeStart < rangeEnd`. -/
theorem checker_interval_zero_diverges :
    (∀ fuel, checkerRun (fun _ _ => none) ⟨0, 1, 0⟩ fuel = none) ∧
    ∀ (conf : CheckerConfig) (fuel : Nat), conf.interval = 0 →
      conf.rangeStart < conf.rangeEnd → conf.rangeStart < 2 ^ 64 →
      checkerRun (fun _ _ => none) conf fuel = none :=
  ⟨fun fuel => checkerLoop_stuck ⟨0, 1, 0⟩ rfl fuel 0 [] (by decide) (by decide),
   fun conf fuel hint hlt h64 => checkerLoop_stuck conf hint fuel conf.rangeStart [] hlt h64⟩

theorem checkerLoop_passes (conf : CheckerConfig) (hwrap : conf.rangeEnd + conf.interval ≤ 2 ^ 64)
    (n : Nat) :
    ∀ fuel endIdx issued, n < fuel →
      (∀ k, k < n → endIdx + k * conf.interval < conf.rangeEnd) →
      conf.rangeEnd ≤ endIdx + n * conf.interval →
      checkerLoop (fun _ _ => none) conf fuel endIdx issued =
        some (issued ++ (List.range n).map
          (fun k => (conf.rangeStart, endIdx + k * conf.interval)), none) := by
  induction n with
  | zero =>
    intro fuel endIdx issued hfuel _ hend
    obtain ⟨f, rfl⟩ : ∃ f, fuel = f + 1 := ⟨fuel - 1, by omega⟩
    rw [checkerLoop, if_neg (by omega)]
    simp
  | succ m ih =>
    intro fuel endIdx issued hfuel hlt hend
    obtain ⟨f, rfl⟩ : ∃ f, fuel = f + 1 := ⟨fuel - 1, by omega⟩
    have h0 : endIdx < conf.rangeEnd := by simpa using hlt 0 (by omega)
    have hmod : (endIdx + conf.interval) % 2 ^ 64 = endIdx + conf.interval :=
      Nat.mod_eq_of_lt (by omega)
    rw [checkerLoop, if_pos h0]
    simp only [hmod]
    rw [ih f (endIdx + conf.interval) _ (by omega) ?_ ?_]
    · rw [List.range_succ_eq_map, List.map_cons, List.map_map, List.append_assoc]
      simp only [List.singleton_append, Nat.zero_mul, Nat.add_zero]
      congr 4
      apply List.map_congr_left
      intro k _
      simp only [Function.comp, Nat.succ_eq_add_one]
      congr 1
      ring
    · intro k hk
      have := hlt (k + 1) (by omega)
      rw [Nat.add_mul, Nat.one_mul] at this
      omega
    · rw [Nat.add_mul, Nat.one_mul] at hend
      omega

/-- With an interval of at least 1 (and `rangeEnd + interval` within `uint64`)
the range loop ends: it issues the queries `Incremental(rangeStart, end)` for
`end = rangeStart, rangeStart + interval, ...` below `rangeEnd` and returns nil. -/
theorem checker_positive_interval_terminates (conf : CheckerConfig)
    (hint : 1 ≤ conf.interval) (hwrap : conf.rangeEnd + conf.interval ≤ 2 ^ 64) :
    ∃ n, (∀ k, k < n ↔ conf.rangeStart + k * conf.interval < conf.rangeEnd) ∧
      ∀ fuel, n < fuel →
        checkerRun (fun _ _ => none) conf fuel =
          some ((List.range n).map
            (fun k => (conf.rangeStart, conf.rangeStart + k * conf.interval)), none) := by
  refine ⟨(conf.rangeEnd - conf.rangeStart + conf.interval - 1) / conf.interval, ?_, ?_⟩
  · intro k
    rw [Nat.lt_iff_add_one_le, Nat.le_div_iff_mul_le (by omega), Nat.add_mul, Nat.one_mul]
    omega
  · intro fuel hfuel
    have hpass := checkerLoop_passes conf hwrap
      ((conf.rangeEnd - conf.rangeStart + conf.interval - 1) / conf.interval)
      fuel conf.rangeStart [] hfuel ?_ ?_
    · simpa [checkerRun] using hpass
    · intro k hk
      rw [Nat.lt_iff_add_one_le, Nat.le_div_iff_mul_le (by omega), Nat.add_mul,
        Nat.one_mul] at hk
      omega
    · have h := Nat.lt_mul_div_succ (conf.rangeEnd - conf.rangeStart + conf.interval - 1)
        (show 0 < conf.interval by omega)
      rw [Nat.mul_add, Nat.mul_one, Nat.mul_comm] at h
      omega

/-- The range 2 to 9 with interval 3 is checked with the queries at 2, 5 and 8:
an instance of `checker_positive_interval_terminates`, evaluated. -/
theorem checker_run_example :
    checkerRun (fun _ _ => none) ⟨2, 9, 3⟩ 10 = some ([(2, 2), (2, 5), (2, 8)], none) ∧
    checkerRun (fun _ _ => none) defaultConfig 1 = some ([], none) := by
  decide

/-! ## The order of the history keys -/

theorem bytesCompare_beBytes (n : Nat) :
    ∀ i j, (bytesCompare (beBytes n i) (beBytes n j) < 0 ↔ i % 256 ^ n < j % 256 ^ n) ∧
      (bytesCompare (beBytes n i) (beBytes n j) = 0 ↔ i % 256 ^ n = j % 256 ^ n) := by
  induction n with
  | zero => intro i j; simp [beBytes, bytesCompare, Nat.mod_one]
  | succ k ih =>
    intro i j
    have hi := Nat.mod_pow_succ (b := 256) (k := k) (x := i)
    have hj := Nat.mod_pow_succ (b := 256) (k := k) (x := j)
    have hri : i % 256 ^ k < 256 ^ k := Nat.mod_lt _ (Nat.pow_pos (by decide))
    have hrj : j % 256 ^ k < 256 ^ k := Nat.mod_lt _ (Nat.pow_pos (by decide))
    obtain ⟨ih1, ih2⟩ := ih i j
    simp only [beBytes, bytesCompare]
    rw [hi, hj]
    generalize i / 256 ^ k % 256 = a at *
    generalize j / 256 ^ k % 256 = b at *
    generalize i % 256 ^ k = r at *
    generalize j % 256 ^ k = s at *
    generalize 256 ^ k = P at *
    by_cases hab : a < b
    · simp only [hab, if_true]
      have h1 : (a + 1) * P ≤ b * P := Nat.mul_le_mul_right P hab
      rw [Nat.add_mul, Nat.one_mul] at h1
      have h2 : P * a = a * P := Nat.mul_comm _ _
      have h3 : P * b = b * P := Nat.mul_comm _ _
      constructor
      · exact ⟨fun _ => by omega, fun _ => by decide⟩
      · exact ⟨fun h => absurd h (by decide), fun h => by omega⟩
    · simp only [hab, if_false]
      by_cases hba : b < a
      · simp only [hba, if_true]
        have h1 : (b + 1) * P ≤ a * P := Nat.mul_le_mul_right P hba
        rw [Nat.add_mul, Nat.one_mul] at h1
        have h2 : P * a = a * P := Nat.mul_comm _ _
        have h3 : P * b = b * P := Nat.mul_comm _ _
        constructor
        · exact ⟨fun h => absurd h (by decide), fun h => by omega⟩
        · exact ⟨fun h => absurd h (by decide), fun h => by omega⟩
      · simp only [hba, if_false]
        have hab' : a = b := by omega
        subst hab'
        constructor
        · rw [ih1]; omega
        · rw [ih2]; omega

theorem bytesCompare_append (x : List Nat) :
    ∀ (y s t : List Nat), x.length = y.length →
      bytesCompare (x ++ s) (y ++ t) =
        if bytesCompare x y ≠ 0 then bytesCompare x y else bytesCompare s t := by
  induction x with
  | nil =>
    intro y s t hlen
    have : y = [] := List.length_eq_zero.mp hlen.symm
    subst this
    simp [bytesCompare]
  | cons a x ih =>
    intro y s t hlen
    cases y with
    | nil => simp at hlen
    | cons b y =>
      simp only [List.length_cons, Nat.add_right_cancel_iff] at hlen
      simp only [List.cons_append, bytesCompare]
      by_cases hab : a < b
      · simp [hab]
      · by_cases hba : b < a
        · simp [hab, hba]
        · simp only [hab, hba, if_false]
          exact ih y s t hlen

/-- C28: `Uint64AsBytes` is strictly order-preserving for the bytewise
lexicographic order of the store: for `uint64` values `i < j` if and only if
`Uint64AsBytes(i)` is smaller than `Uint64AsBytes(j)`.  Hence history keys of
the same height sort by index, and a key that is not above another does not
carry a higher index: the last key of the table carries the highest index. -/
theorem Uint64AsBytes_order_preserving (i j : Nat) (hi : i < 2 ^ 64) (hj : j < 2 ^ 64) :
    (i < j ↔ bytesCompare (Uint64AsBytes i) (Uint64AsBytes j) < 0) ∧
    (∀ h, bytesCompare (historyKey (i, h)) (historyKey (j, h)) < 0 ↔ i < j) ∧
    (∀ h1 h2, bytesCompare (historyKey (i, h1)) (historyKey (j, h2)) ≤ 0 → i ≤ j) := by
  have hp : (256 : Nat) ^ 8 = 2 ^ 64 := by norm_num
  have hmi : i % 256 ^ 8 = i := by rw [hp]; exact Nat.mod_eq_of_lt hi
  have hmj : j % 256 ^ 8 = j := by rw [hp]; exact Nat.mod_eq_of_lt hj
  obtain ⟨h1, h2⟩ := bytesCompare_beBytes 8 i j
  rw [hmi, hmj] at h1 h2
  have hlen : (Uint64AsBytes i).length = (Uint64AsBytes j).length := by
    rw [Uint64AsBytes, Uint64AsBytes, beBytes_length, beBytes_length]
  refine ⟨h1.symm, ?_, ?_⟩
  · intro h
    unfold historyKey
    rw [bytesCompare_append _ _ _ _ hlen]
    simp only
    by_cases hz : bytesCompare (Uint64AsBytes i) (Uint64AsBytes j) = 0
    · have hij : i = j := h2.mp hz
      rw [if_neg (by simpa using hz), (bytesCompare_eq_zero _ _).mpr rfl]
      constructor
      · intro hx; exact absurd hx (by decide)
      · intro hx; omega
    · rw [if_pos hz]
      exact h1
  · intro ha hb hle
    unfold historyKey at hle
    rw [bytesCompare_append _ _ _ _ hlen] at hle
    simp only at hle
    by_cases hz : bytesCompare (Uint64AsBytes i) (Uint64AsBytes j) = 0
    · exact Nat.le_of_eq (h2.mp hz)
    · rw [if_pos hz] at hle
      have hlt : bytesCompare (Uint64AsBytes i) (Uint64AsBytes j) < 0 := by
        have hzz : bytesCompare (beBytes 8 i) (beBytes 8 j) ≠ 0 := hz
        show bytesCompare (beBytes 8 i) (beBytes 8 j) < 0
        have hle' : bytesCompare (beBytes 8 i) (beBytes 8 j) ≤ 0 := hle
        omega
      exact Nat.le_of_lt (h1.mp hlt)

/-- The indices 255 and 256 and their keys at height 0: an instance of
`Uint64AsBytes_order_preserving`. -/
theorem Uint64AsBytes_order_preserving_witness :
    255 < 2 ^ 64 ∧ 256 < 2 ^ 64 ∧
    (255 < 256 ↔ bytesCompare (Uint64AsBytes 255) (Uint64AsBytes 256) < 0) ∧
    bytesCompare (Uint64AsBytes 255) (Uint64AsBytes 256) = -1 :=
  ⟨by decide, by decide, (Uint64AsBytes_order_preserving 255 256 (by decide) (by decide)).1,
    by decide⟩

/-! ## Injectivity of the position string id -/

theorem digitChar_inj : ∀ a, a < 16 → ∀ b, b < 16 → Nat.digitChar a = Nat.digitChar b → a = b := by
  decide

theorem bar_not_mem_ldigits : '|' ∉ ldigits := by decide

theorem bar_not_mem_hexEncoding (b : List Nat) (hb : ∀ c ∈ b, c < 256) :
    '|' ∉ hexEncoding b := by
  intro hmem
  simp only [hexEncoding, List.mem_flatMap, List.mem_cons, List.mem_singleton,
    List.not_mem_nil, or_false] at hmem
  obtain ⟨x, hx, hcx⟩ := hmem
  have hx256 := hb x hx
  rcases hcx with h | h
  · exact bar_not_mem_ldigits (h ▸ digitChar_mem_ldigits (x / 16) (by omega))
  · exact bar_not_mem_ldigits (h ▸ digitChar_mem_ldigits (x % 16) (by omega))

theorem hexEncoding_inj (a : List Nat) :
    ∀ b, (∀ c ∈ a, c < 256) → (∀ c ∈ b, c < 256) → hexEncoding a = hexEncoding b → a = b := by
  induction a with
  | nil =>
    intro b _ _ h
    cases b with
    | nil => rfl
    | cons d rest => simp [hexEncoding] at h
  | cons c rest ih =>
    intro b ha hb h
    cases b with
    | nil => simp [hexEncoding] at h
    | cons d rest2 =>
      simp only [hexEncoding, List.flatMap_cons, List.cons_append, List.nil_append,
        List.cons.injEq] at h
      obtain ⟨h1, h2, h3⟩ := h
      have hc := ha c (List.mem_cons_self _ _)
      have hd := hb d (List.mem_cons_self _ _)
      have e1 := digitChar_inj (c / 16) (by omega) (d / 16) (by omega) h1
      have e2 := digitChar_inj (c % 16) (by omega) (d % 16) (by omega) h2
      have hcd : c = d := by omega
      rw [hcd, ih rest2 (fun x hx => ha x (List.mem_cons_of_mem _ hx))
        (fun x hx => hb x (List.mem_cons_of_mem _ hx)) h3]

theorem split_at_bar (a : List Char) :
    ∀ (a2 b b2 : List Char), '|' ∉ a → '|' ∉ a2 → a ++ '|' :: b = a2 ++ '|' :: b2 →
      a = a2 ∧ b = b2 := by
  induction a with
  | nil =>
    intro a2 b b2 _ h2 h
    cases a2 with
    | nil => simpa using h
    | cons x rest =>
      simp only [List.nil_append, List.cons_append, List.cons.injEq] at h
      exact absurd (h.1 ▸ List.mem_cons_self _ _) h2
  | cons x rest ih =>
    intro a2 b b2 h1 h2 h
    cases a2 with
    | nil =>
      simp only [List.nil_append, List.cons_append, List.cons.injEq] at h
      exact absurd (h.1 ▸ List.mem_cons_self _ _) h1
    | cons y rest2 =>
      simp only [List.cons_append, List.cons.injEq] at h
      obtain ⟨hxy, hrest⟩ := h
      obtain ⟨e1, e2⟩ := ih rest2 b b2 (fun hm => h1 (List.mem_cons_of_mem _ hm))
        (fun hm => h2 (List.mem_cons_of_mem _ hm)) hrest
      exact ⟨by rw [hxy, e1], e2⟩

theorem ldigits_toNat (u : Nat) (hu : u < 10) : (ldigits.getD u '0').toNat - 48 = u := by
  interval_cases u <;> rfl

theorem ofNat_toNat_digit (d : Nat) (hd : d < 10) : (Char.ofNat (48 + d)).toNat - 48 = d := by
  interval_cases d <;> rfl

theorem fmtIntegerLoop_value (fuel : Nat) :
    ∀ u buf, u ≤ fuel →
      (fmtIntegerLoop fuel u buf).foldl (fun acc c => acc * 10 + (c.toNat - 48)) 0 =
        buf.foldl (fun acc c => acc * 10 + (c.toNat - 48)) u := by
  induction fuel with
  | zero =>
    intro u buf hu
    have h0 : u = 0 := by omega
    subst h0
    rw [fmtIntegerLoop, List.foldl_cons, ldigits_toNat 0 (by decide)]
  | succ k ih =>
    intro u buf hu
    rw [fmtIntegerLoop]
    by_cases h10 : 10 ≤ u
    · have hd : 48 + u - u / 10 * 10 = 48 + u % 10 := by omega
      simp only [h10, if_true]
      rw [ih (u / 10) _ (by omega), hd, List.foldl_cons,
        ofNat_toNat_digit _ (Nat.mod_lt _ (by decide))]
      congr 1
      omega
    · simp only [h10, if_false]
      rw [List.foldl_cons, ldigits_toNat u (by omega)]
      simp

theorem fmtInteger_inj (u v : Nat) (h : fmtInteger u = fmtInteger v) : u = v := by
  have hu := fmtIntegerLoop_value u u [] (le_refl u)
  have hv := fmtIntegerLoop_value v v [] (le_refl v)
  unfold fmtInteger at h
  rw [h, hv] at hu
  simpa using hu.symm

/-- C29: the string id of a position is injective: for all positions `p` and `q`
(with byte slices as indices), `p.StringId() = q.StringId()` if and only if `p`
and `q` have the same index bytes and the same height. -/
theorem StringId_injective (p q : FakePosition) (hp : ∀ c ∈ p.index, c < 256)
    (hq : ∀ c ∈ q.index, c < 256) :
    p.StringId = q.StringId ↔ p.index = q.index ∧ p.height = q.height := by
  constructor
  · intro h
    have hxp : fmtSbx p.index = hexEncoding p.index := by
      have := fmtSbx_foldl p.index hp []
      simpa [fmtSbx] using this
    have hxq : fmtSbx q.index = hexEncoding q.index := by
      have := fmtSbx_foldl q.index hq []
      simpa [fmtSbx] using this
    unfold FakePosition.StringId at h
    rw [hxp, hxq] at h
    have hdata := congrArg String.data h
    simp only at hdata
    obtain ⟨e1, e2⟩ := split_at_bar _ _ _ _ (bar_not_mem_hexEncoding p.index hp)
      (bar_not_mem_hexEncoding q.index hq) hdata
    exact ⟨hexEncoding_inj p.index q.index hp hq e1, fmtInteger_inj _ _ e2⟩
  · rintro ⟨h1, h2⟩
    unfold FakePosition.StringId
    rw [h1, h2]

/-- The positions `([0x01], 23)` and `([0x01, 0x02], 3)` have different string
ids, `01|23` and `0102|3`: an instance of `StringId_injective`. -/
theorem StringId_injective_witness :
    (∀ c ∈ (FakePosition.mk [0x01] 23).index, c < 256) ∧
    (∀ c ∈ (FakePosition.mk [0x01, 0x02] 3).index, c < 256) ∧
    (FakePosition.mk [0x01] 23).StringId = "01|23" ∧
    (FakePosition.mk [0x01, 0x02] 3).StringId = "0102|3" ∧
    (FakePosition.mk [0x01] 23).StringId ≠ (FakePosition.mk [0x01, 0x02] 3).StringId :=
  ⟨by decide, by decide, by decide, by decide,
    fun h => absurd ((StringId_injective ⟨[0x01], 23⟩ ⟨[0x01, 0x02], 3⟩ (by decide)
      (by decide)).mp h).2 (by decide)⟩

end Qed
